import Mathlib

/-!
ipfwacc: reading IP firewall accounting rules

A shallow embedding of `agent/mibgroup/misc/ipfwacc.c`.

* The static buffer `rule[IPFWRULELEN]` is a `List Nat` of bytes; a read or a
  write at an index outside the list is a memory fault, rendered as `none`.
* The static `ret_val` is returned by the functions that assign it.
* `unsigned long` is `w` bits wide (`w` is a parameter: 32 or 64 on the usual
  platforms); arithmetic on it is taken modulo `2 ^ w`.
* Every C loop is a recursion on a fuel argument (`IPFWRULELEN` for the scans
  of the buffer, the length of the stream plus one for the loop of
  `readrule`); running out of fuel is `none` as well, and the theorems show
  that this never happens.
* `/proc/net/ip_acct` is a parameter: `none` when `fopen` fails, else the
  bytes of the file.  The line counter `i` of `readrule` and its argument are
  natural numbers (the C `int` range is reached only by a source of more than
  two thousand million lines).
-/

namespace Ipfwacc

/-! ## Constants -/

/-- The constant `#define IPFWRULELEN 200`. -/
def IPFWRULELEN : Nat := 200

/-- The constant `#define IP_FW_F_ALL 0x0000`. -/
def IP_FW_F_ALL : Nat := 0x0000
/-- The constant `#define IP_FW_F_TCP 0x0001`. -/
def IP_FW_F_TCP : Nat := 0x0001
/-- The constant `#define IP_FW_F_UDP 0x0002`. -/
def IP_FW_F_UDP : Nat := 0x0002
/-- The constant `#define IP_FW_F_ICMP 0x0003`. -/
def IP_FW_F_ICMP : Nat := 0x0003
/-- The constant `#define IP_FW_F_KIND 0x0003`. -/
def IP_FW_F_KIND : Nat := 0x0003
/-- The constant `#define IP_FW_F_SRNG 0x0008`. -/
def IP_FW_F_SRNG : Nat := 0x0008
/-- The constant `#define IP_FW_F_DRNG 0x0010`. -/
def IP_FW_F_DRNG : Nat := 0x0010
/-- The constant `#define IP_FW_F_BIDIR 0x0040`. -/
def IP_FW_F_BIDIR : Nat := 0x0040
/-- The constant `#define IP_FW_F_ACCTIN 0x1000`. -/
def IP_FW_F_ACCTIN : Nat := 0x1000
/-- The constant `#define IP_FW_F_ACCTOUT 0x2000`. -/
def IP_FW_F_ACCTOUT : Nat := 0x2000

/-- The character `' '`. -/
def SP : Nat := 32
/-- The character `'\n'`. -/
def NL : Nat := 10

/-! ## Machine arithmetic -/

/-- Conversion of a C `int` value to `unsigned long` (`w` bits). -/
def toULong (w : Nat) (x : Int) : Nat := (x % (2 : Int) ^ w).toNat

/-- The `int` expression
`(rule[i] >= '0' && rule[i] <= '9') ? rule[i] - '0' : rule[i] - 'A' + 10`
for the byte `c = rule[i]`. -/
def hexdigit (c : Nat) : Int :=
  if 48 ≤ c ∧ c ≤ 57 then (c : Int) - 48 else (c : Int) - 65 + 10

/-! ## `atoip` -/

/-- The loop `for (i = 0; i < 32; i += 8) { ... }` of `atoip`, from the state
`(i, pos, ret_val)`. -/
def atoipLoop (w : Nat) (rule : List Nat) : Nat → Nat → Nat → Nat → Option Nat
  | 0, i, _, ret_val => if i < 32 then none else some ret_val
  | fuel + 1, i, pos, ret_val =>
    if i < 32 then
      (rule[pos]?).bind fun c0 =>
      (rule[pos + 1]?).bind fun c1 =>
        let value := toULong w (hexdigit c0)
        let value := toULong w (((value <<< 4 : Nat) : Int) + hexdigit c1)
        atoipLoop w rule fuel (i + 8) (pos + 2)
          (ret_val ||| ((value <<< i) % 2 ^ w))
    else some ret_val

/-- The function `static inline void atoip (int pos)`: the value left in
`ret_val`. -/
def atoip (w : Nat) (rule : List Nat) (pos : Nat) : Option Nat :=
  atoipLoop w rule IPFWRULELEN 0 pos 0

/-! ## Column scans -/

/-- The loop `while (rule[i] != ' ' && i < bound) i++;`: the final `i`.
`rule[i]` is read before `i` is compared with the bound. -/
def skipField (rule : List Nat) (bound : Nat) : Nat → Nat → Option Nat
  | 0, i => (rule[i]?).bind fun c => if c ≠ SP ∧ i < bound then none else some i
  | fuel + 1, i =>
    (rule[i]?).bind fun c =>
      if c ≠ SP ∧ i < bound then skipField rule bound fuel (i + 1) else some i

/-- The loop `while (rule[i] == ' ' && i < bound) i++;`: the final `i`. -/
def skipSpaces (rule : List Nat) (bound : Nat) : Nat → Nat → Option Nat
  | 0, i => (rule[i]?).bind fun c => if c = SP ∧ i < bound then none else some i
  | fuel + 1, i =>
    (rule[i]?).bind fun c =>
      if c = SP ∧ i < bound then skipSpaces rule bound fuel (i + 1) else some i

/-! ## `getflags` -/

/-- The loop `for (flags = 0; rule[i] != ' ' && i < IPFWRULELEN-1; i++)` of
`getflags`, from the state `(i, flags)`. -/
def flagsLoop (w : Nat) (rule : List Nat) : Nat → Nat → Nat → Option Nat
  | 0, i, flags =>
    (rule[i]?).bind fun c =>
      if c ≠ SP ∧ i < IPFWRULELEN - 1 then none else some flags
  | fuel + 1, i, flags =>
    (rule[i]?).bind fun c =>
      if c ≠ SP ∧ i < IPFWRULELEN - 1 then
        flagsLoop w rule fuel (i + 1)
          (toULong w (((flags <<< 4 : Nat) : Int) + hexdigit c))
      else some flags

/-- The function `static unsigned long int getflags ()`. -/
def getflags (w : Nat) (rule : List Nat) : Option Nat :=
  (skipField rule (IPFWRULELEN - 12) IPFWRULELEN 37).bind fun i =>
    flagsLoop w rule IPFWRULELEN (i + 10) 0

/-! ## `getnumeric` -/

/-- The loop `while (skip > 0) { skip--; ... }` of `getnumeric`: the final
`i`. -/
def skipColumns (rule : List Nat) : Nat → Nat → Option Nat
  | 0, i => some i
  | skip + 1, i =>
    (skipField rule (IPFWRULELEN - 2) IPFWRULELEN i).bind fun i =>
    (skipSpaces rule (IPFWRULELEN - 1) IPFWRULELEN i).bind fun i =>
      skipColumns rule skip i

/-- The loop `for (ret_val = 0; rule[i] != ' ' && i < IPFWRULELEN-1; i++)
ret_val = ret_val*10 + rule[i] - '0';` from the state `(i, ret_val)`. -/
def numericLoop (w : Nat) (rule : List Nat) : Nat → Nat → Nat → Option Nat
  | 0, i, ret_val =>
    (rule[i]?).bind fun c =>
      if c ≠ SP ∧ i < IPFWRULELEN - 1 then none else some ret_val
  | fuel + 1, i, ret_val =>
    (rule[i]?).bind fun c =>
      if c ≠ SP ∧ i < IPFWRULELEN - 1 then
        numericLoop w rule fuel (i + 1)
          (toULong w ((ret_val : Int) * 10 + (c : Int) - 48))
      else some ret_val

/-- The function `static void getnumeric(int skip)` for `skip >= 0`: the value
left in `ret_val`. -/
def getnumeric (w : Nat) (rule : List Nat) (skip : Nat) : Option Nat :=
  (skipField rule (IPFWRULELEN - 12) IPFWRULELEN 37).bind fun i =>
  (skipColumns rule skip (i + 10)).bind fun i =>
    numericLoop w rule IPFWRULELEN i 0

/-! ## `fgets` and `readrule` -/

/-- The characters that one `fgets` call with room for `room` characters
takes from the stream, and the rest of the stream: it stops after a newline,
at the end of the stream, or when the room is used up. -/
def fgetsChars : Nat → List Nat → List Nat × List Nat
  | 0, stream => ([], stream)
  | _ + 1, [] => ([], [])
  | room + 1, c :: stream =>
    if c = NL then ([c], stream)
    else (c :: (fgetsChars room stream).1, (fgetsChars room stream).2)

/-- The C library's `fgets(s, n, f)`: `none` (NULL, `s` untouched) when the
stream is at its end, else the buffer holding the characters read and a
terminating NUL, with the rest of the stream. -/
def fgets (s : List Nat) (n : Nat) (stream : List Nat) :
    Option (List Nat × List Nat) :=
  match fgetsChars (n - 1) stream with
  | ([], _) => none
  | (line, rest) => some (line ++ [0] ++ s.drop (line.length + 1), rest)

/-- The loop `for (i = 1; i != number; i++) if (!fgets(..)) return ..;` of
`readrule` and the code after it, from the state `(i, rule, f)`: the buffer
and the value returned. -/
def readruleLoop (number : Nat) :
    Nat → Nat → List Nat → List Nat → Option (List Nat × Nat)
  | 0, i, rule, f =>
    if i ≠ number then none
    else
      match fgets rule IPFWRULELEN f with
      | none => some (rule, 0)
      | some (rule, _) => some (rule, i)
  | fuel + 1, i, rule, f =>
    if i ≠ number then
      match fgets rule IPFWRULELEN f with
      | none => some (rule, if number ≠ 0 then 0 else i - 1)
      | some (rule, f) => readruleLoop number fuel (i + 1) rule f
    else
      match fgets rule IPFWRULELEN f with
      | none => some (rule, 0)
      | some (rule, _) => some (rule, i)

/-- The function `static int readrule(unsigned int number)`: the buffer after
the call and the value returned.  `src` is what
`fopen("/proc/net/ip_acct","rt")` gives. -/
def readrule (src : Option (List Nat)) (rule : List Nat) (number : Nat) :
    Option (List Nat × Nat) :=
  match src with
  | none => some (rule, 0)
  | some f =>
    match fgets rule IPFWRULELEN f with
    | none => some (rule, 0)
    | some (rule, f) => readruleLoop number (f.length + 1) 1 rule f

/-! ## `var_ipfwacc` -/

/-- Modelled from the spec: the field identifiers of `ipfwacc.h`, which is
absent; the ten port identifiers are consecutive (the spec's
"skipCount = 5 + portIndex for portIndex in 0..9"). -/
inductive Magic where
  | IPFWACCINDEX | IPFWACCSRCADDR | IPFWACCSRCNM | IPFWACCDSTADDR
  | IPFWACCDSTNM | IPFWACCVIANAME | IPFWACCVIAADDR | IPFWACCPROTO
  | IPFWACCBIDIR | IPFWACCDIR | IPFWACCBYTES | IPFWACCPACKETS
  | IPFWACCNSRCPRTS | IPFWACCNDSTPRTS | IPFWACCSRCISRNG | IPFWACCDSTISRNG
  | IPFWACCPORT1 | IPFWACCPORT2 | IPFWACCPORT3 | IPFWACCPORT4 | IPFWACCPORT5
  | IPFWACCPORT6 | IPFWACCPORT7 | IPFWACCPORT8 | IPFWACCPORT9 | IPFWACCPORT10
  deriving DecidableEq, Repr

/-- Modelled from the spec: `(vp->magic) - IPFWACCPORT1` for the ten port
identifiers of the absent `ipfwacc.h` (0 for the others, which do not use
it). -/
def Magic.portIndex : Magic → Nat
  | .IPFWACCPORT2 => 1 | .IPFWACCPORT3 => 2 | .IPFWACCPORT4 => 3
  | .IPFWACCPORT5 => 4 | .IPFWACCPORT6 => 5 | .IPFWACCPORT7 => 6
  | .IPFWACCPORT8 => 7 | .IPFWACCPORT9 => 8 | .IPFWACCPORT10 => 9
  | _ => 0

/-- What `var_ipfwacc` returns: `NULL`, `(u_char *) (&ret_val)` with the
value of `ret_val`, or the pointer `rule + off`. -/
inductive Ret where
  | NULL
  | RET_VAL (ret_val : Nat)
  | RULE (off : Nat)
  deriving DecidableEq, Repr

/-- The `switch (vp->magic)` of `var_ipfwacc`, run on the loaded buffer;
`index` is `name[*length-1]`.  Gives the buffer after the switch and the
pointer returned. -/
def fieldSwitch (w : Nat) (rule : List Nat) (index : Nat) :
    Magic → Option (List Nat × Ret)
  | .IPFWACCINDEX => some (rule, .RET_VAL (index % 2 ^ w))
  | .IPFWACCSRCADDR => (atoip w rule 0).map fun v => (rule, .RET_VAL v)
  | .IPFWACCSRCNM => (atoip w rule 9).map fun v => (rule, .RET_VAL v)
  | .IPFWACCDSTADDR => (atoip w rule 19).map fun v => (rule, .RET_VAL v)
  | .IPFWACCDSTNM => (atoip w rule 28).map fun v => (rule, .RET_VAL v)
  | .IPFWACCVIANAME =>
    (skipField rule (IPFWRULELEN - 1) IPFWRULELEN 37).bind fun i =>
      if i < rule.length then some (rule.set i 0, .RULE 37) else none
  | .IPFWACCVIAADDR =>
    (skipField rule (IPFWRULELEN - 9) IPFWRULELEN 37).bind fun i =>
      (atoip w rule (i + 1)).map fun v => (rule, .RET_VAL v)
  | .IPFWACCPROTO =>
    (getflags w rule).map fun flags =>
      let kind := flags &&& IP_FW_F_KIND
      if kind = IP_FW_F_ALL then (rule, .RET_VAL 2)
      else if kind = IP_FW_F_TCP then (rule, .RET_VAL 3)
      else if kind = IP_FW_F_UDP then (rule, .RET_VAL 4)
      else if kind = IP_FW_F_ICMP then (rule, .RET_VAL 5)
      else (rule, .RET_VAL 1)
  | .IPFWACCBIDIR =>
    (getflags w rule).map fun flags =>
      (rule, .RET_VAL (if flags &&& IP_FW_F_BIDIR ≠ 0 then 2 else 1))
  | .IPFWACCDIR =>
    (getflags w rule).map fun flags =>
      let ret_val := flags &&& (IP_FW_F_ACCTIN ||| IP_FW_F_ACCTOUT)
      if ret_val = IP_FW_F_ACCTIN then (rule, .RET_VAL 2)
      else if ret_val = IP_FW_F_ACCTOUT then (rule, .RET_VAL 3)
      else (rule, .RET_VAL 1)
  | .IPFWACCBYTES => (getnumeric w rule 4).map fun v => (rule, .RET_VAL v)
  | .IPFWACCPACKETS => (getnumeric w rule 3).map fun v => (rule, .RET_VAL v)
  | .IPFWACCNSRCPRTS => (getnumeric w rule 1).map fun v => (rule, .RET_VAL v)
  | .IPFWACCNDSTPRTS => (getnumeric w rule 2).map fun v => (rule, .RET_VAL v)
  | .IPFWACCSRCISRNG =>
    (getflags w rule).map fun flags =>
      (rule, .RET_VAL (if flags &&& IP_FW_F_SRNG ≠ 0 then 1 else 2))
  | .IPFWACCDSTISRNG =>
    (getflags w rule).map fun flags =>
      (rule, .RET_VAL (if flags &&& IP_FW_F_DRNG ≠ 0 then 1 else 2))
  | magic =>
    (getnumeric w rule (5 + magic.portIndex)).map fun v => (rule, .RET_VAL v)

/-- The outcome of one `var_ipfwacc` call: the buffer, the pointer returned
and `*var_len`. -/
structure Outcome where
  rule : List Nat
  ret : Ret
  var_len : Nat
  deriving DecidableEq, Repr

/-- The function `unsigned char * var_ipfwacc(...)`.  `checkmib` stands for
the external `checkmib(vp,name,length,exact,var_len,write_method,readrule(0))`:
given `*var_len` and the value of `readrule(0)` it fails (`none`) or passes
with the rule index `name[*length-1]` it leaves, taken to fit in an
`unsigned int`, and in both cases gives the `*var_len` it leaves.  It is called
before the record is located and has no access to the static buffer.  The
source is the same at both opens. -/
def var_ipfwacc (w : Nat) (src : Option (List Nat))
    (checkmib : Nat → Nat → Option Nat × Nat)
    (rule : List Nat) (magic : Magic) : Option Outcome :=
  let var_len := w / 8
  (readrule src rule 0).bind fun (rule, size) =>
    match checkmib var_len size with
    | (none, var_len) => some ⟨rule, .NULL, var_len⟩
    | (some index, var_len) =>
      (readrule src rule index).bind fun (rule, found) =>
        if found ≠ 0 then
          (fieldSwitch w rule index magic).map fun (rule, ret) =>
            ⟨rule, ret, var_len⟩
        else some ⟨rule, .NULL, var_len⟩

/-- The NUL-terminated string that starts at `rule + off`. -/
def cstring (rule : List Nat) (off : Nat) : List Nat :=
  (rule.drop off).takeWhile fun c => c ≠ 0

/-! ## Encodings used to state the properties -/

/-- The bytes of a string. -/
def bytes (s : String) : List Nat := s.toList.map Char.toNat

/-- The uppercase hexadecimal digit character for a value below 16. -/
def hexChar (d : Nat) : Nat := if d < 10 then 48 + d else 55 + d

/-- A value written as 8 uppercase hexadecimal digits, most significant digit
first. -/
def hex8 (v : Nat) : List Nat :=
  [hexChar (v / 16 ^ 7 % 16), hexChar (v / 16 ^ 6 % 16), hexChar (v / 16 ^ 5 % 16),
   hexChar (v / 16 ^ 4 % 16), hexChar (v / 16 ^ 3 % 16), hexChar (v / 16 ^ 2 % 16),
   hexChar (v / 16 % 16), hexChar (v % 16)]

/-- The bytes `l` written into the buffer from index `pos` on. -/
def writeAt (rule : List Nat) (pos : Nat) (l : List Nat) : List Nat :=
  rule.take pos ++ l ++ rule.drop (pos + l.length)

/-- The four bytes of a 32-bit value in reverse order. -/
def byteReverse (v : Nat) : Nat :=
  v % 256 * 2 ^ 24 + v / 2 ^ 8 % 256 * 2 ^ 16 + v / 2 ^ 16 % 256 * 2 ^ 8 + v / 2 ^ 24 % 256

/-- The lines of a source, each with its newline; the characters after the
last newline, when there are any, are a line as well. -/
def splitLines : List Nat → List (List Nat)
  | [] => []
  | c :: s =>
    if c = NL then [c] :: splitLines s
    else
      match splitLines s with
      | [] => [[c]]
      | l :: ls => (c :: l) :: ls

/-- The source made of the given lines, each followed by a newline. -/
def joinLines : List (List Nat) → List Nat
  | [] => []
  | l :: ls => l ++ NL :: joinLines ls

/-- The bytes `l` stand in the buffer from index `i` on. -/
def holdsAt (rule : List Nat) : Nat → List Nat → Prop
  | _, [] => True
  | i, c :: l => rule[i]? = some c ∧ holdsAt rule (i + 1) l

/-- The number that a string of decimal digits spells. -/
def decimalValue (ds : List Nat) : Nat :=
  ds.foldl (fun a c => a * 10 + (c - 48)) 0

/-- The value of an uppercase hexadecimal digit character. -/
def hexDigitValue (c : Nat) : Nat := if c ≤ 57 then c - 48 else c - 55

/-- The number that a string of uppercase hexadecimal digits spells, most
significant digit first. -/
def hexValue (ds : List Nat) : Nat :=
  ds.foldl (fun a c => a * 16 + hexDigitValue c) 0

/-- Columns of a record line: each column is a token preceded by a run of
`gap + 1` spaces. -/
def columns : List (Nat × List Nat) → List Nat
  | [] => []
  | (gap, tok) :: cols => List.replicate (gap + 1) SP ++ tok ++ columns cols

/-- The buffer that holds a line and its newline, as `fgets` stores them into
a buffer of NUL bytes. -/
def lineBuffer (line : List Nat) : List Nat :=
  line ++ NL :: List.replicate (IPFWRULELEN - 1 - line.length) 0

/-- The end-to-end record of the specification, fields separated by single
spaces, the elision left out. -/
def specLine : List Nat :=
  bytes "0A000001 FFFFFF00 0A000002 FFFFFF00 eth0 0A0000FE 00001042 100 5000 1 1 80 0 0 0 0 0 0 0 0 0"

/-- The end-to-end record of the specification with its `...` kept as a
token. -/
def specLineDots : List Nat :=
  bytes "0A000001 FFFFFF00 0A000002 FFFFFF00 eth0 0A0000FE 00001042 ... 100 5000 1 1 80 0 0 0 0 0 0 0 0 0"

/-- The same rule as a line of `/proc/net/ip_acct` that has its via name at
offset 37 and the columns NSRCPORTS, NDSTPORTS, PACKETS, BYTES, ten ports
and two more tokens after the flags. -/
def procLine : List Nat :=
  bytes "0A000001/FFFFFF00->0A000002/FFFFFF00 eth0 0A0000FE 1042 1 1 100       5000      80 0 0 0 0 0 0 0 0 8080 A00 X00"

/-- A line in the layout of the end-to-end record whose first decimal column
is 2 ^ 64. -/
def wideLine : List Nat :=
  bytes "0A000001 FFFFFF00 0A000002 FFFFFF00 eth0 0A0000FE 00001042 18446744073709551616 5000 1 1 80 0 0 0 0 0 0 0 0 0"

/-- Successive `fgets` calls on the stream `s` deliver the pieces `ps` and
then reach the end of the stream. -/
def readsAs : List Nat → List (List Nat) → Prop
  | s, [] => s = []
  | s, P :: ps => P ≠ [] ∧ ∃ s', fgetsChars (IPFWRULELEN - 1) s = (P, s') ∧ readsAs s' ps

/-- The pieces of at most `IPFWRULELEN - 1` characters in which a line, given
without its newline, is read when `n` full pieces come before the piece that
ends with the newline. -/
def linePieces : Nat → List Nat → List (List Nat)
  | 0, l => [l ++ [NL]]
  | n + 1, l => l.take (IPFWRULELEN - 1) :: linePieces n (l.drop (IPFWRULELEN - 1))

/-- The pieces of the lines of a source, each line given without its newline:
a line of `L` characters has `L / 199` full pieces and a last piece with the
newline. -/
def pieces : List (List Nat) → List (List Nat)
  | [] => []
  | l :: ls => linePieces (l.length / (IPFWRULELEN - 1)) l ++ pieces ls

/-- What the digit loop of `getnumeric` accumulates over the characters of a
token, from `ret_val = acc`, in `unsigned long` arithmetic. -/
def numericFold (w : Nat) (tok : List Nat) (acc : Nat) : Nat :=
  tok.foldl (fun (a c : Nat) => toULong w ((a : Int) * 10 + (c : Int) - 48)) acc

/-- What the digit loop of `getflags` accumulates over the characters of a
token, from `flags = acc`, in `unsigned long` arithmetic. -/
def flagsFold (w : Nat) (tok : List Nat) (acc : Nat) : Nat :=
  tok.foldl (fun (a c : Nat) => toULong w (((a <<< 4 : Nat) : Int) + hexdigit c)) acc

/-- A line in the layout of the end-to-end record whose first decimal column
is 2 ^ 64, with wider runs of spaces between the columns. -/
def wideLineGaps : List Nat :=
  bytes "0A000001 FFFFFF00 0A000002 FFFFFF00 eth0 0A0000FE 00001042    18446744073709551616   5000 1 1 80 0 0 0 0 0 0 0 0 0"

/-- What the caller finds at the pointer that `var_ipfwacc` returns: the value
of `ret_val`, or the string at `rule + off`. -/
def observed (p : List Nat × Ret) : Ret × List Nat :=
  match p.2 with
  | .RULE off => (.RULE off, cstring p.1 off)
  | ret => (ret, [])

/-- A record line as far as the scans need it: 37 leading characters, the via
name, a space, the 8-character via address, one character, the flags token,
the columns and a space after the last column. -/
def recordLine (pre via addr : List Nat) (x : Nat) (flags : List Nat)
    (cols : List (Nat × List Nat)) : List Nat :=
  pre ++ via ++ [SP] ++ addr ++ [x] ++ flags ++ columns cols ++ [SP]

/-- A line of `/proc/net/ip_acct` for the loopback interface, via name `lo`. -/
def loLine : List Nat :=
  bytes "7F000001/FF000000->00000000/00000000 lo 00000000 1042 0 0 12 840 0 0 0 0 0 0 0 0 0 0 A00 X00"

/-- The pieces that successive `fgets` calls deliver from a stream, the first
of them being the one `readrule` takes for the header. -/
def fgetsPieces : Nat → List Nat → List (List Nat)
  | 0, _ => []
  | fuel + 1, s =>
    match fgetsChars (IPFWRULELEN - 1) s with
    | ([], _) => []
    | (P, s') => P :: fgetsPieces fuel s'

/-- The header piece and the records of a source: what successive
`fgets(rule, IPFWRULELEN, f)` calls store before their NUL, in order, so that
entry `n >= 1` is the record that `readrule(n)` loads. -/
def sourcePieces (f : List Nat) : List (List Nat) :=
  fgetsPieces f.length f

/-! # Properties -/

set_option maxRecDepth 100000

/-! ## Memory safety of the scans -/

theorem skipField_inbounds (rule : List Nat) (bound : Nat) :
    ∀ (fuel i : Nat), i < rule.length → bound < rule.length → bound < fuel + i →
      ∃ j, skipField rule bound fuel i = some j ∧ i ≤ j ∧ (j ≤ bound ∨ j = i) := by
  intro fuel
  induction fuel with
  | zero =>
    intro i hi _ hf
    have hnb : ¬ i < bound := by omega
    refine ⟨i, ?_, le_refl i, Or.inr rfl⟩
    simp [skipField, List.getElem?_eq_getElem hi, hnb]
  | succ fuel ih =>
    intro i hi hb hf
    by_cases hc : rule[i] ≠ SP ∧ i < bound
    · obtain ⟨j, hj, h1, h2⟩ := ih (i + 1) (by omega) hb (by omega)
      refine ⟨j, ?_, by omega, by omega⟩
      simp only [skipField, List.getElem?_eq_getElem hi, Option.some_bind, if_pos hc, hj]
    · refine ⟨i, ?_, le_refl i, Or.inr rfl⟩
      simp only [skipField, List.getElem?_eq_getElem hi, Option.some_bind, if_neg hc]

theorem skipSpaces_inbounds (rule : List Nat) (bound : Nat) :
    ∀ (fuel i : Nat), i < rule.length → bound < rule.length → bound < fuel + i →
      ∃ j, skipSpaces rule bound fuel i = some j ∧ i ≤ j ∧ (j ≤ bound ∨ j = i) := by
  intro fuel
  induction fuel with
  | zero =>
    intro i hi _ hf
    have hnb : ¬ i < bound := by omega
    refine ⟨i, ?_, le_refl i, Or.inr rfl⟩
    simp [skipSpaces, List.getElem?_eq_getElem hi, hnb]
  | succ fuel ih =>
    intro i hi hb hf
    by_cases hc : rule[i] = SP ∧ i < bound
    · obtain ⟨j, hj, h1, h2⟩ := ih (i + 1) (by omega) hb (by omega)
      refine ⟨j, ?_, by omega, by omega⟩
      simp only [skipSpaces, List.getElem?_eq_getElem hi, Option.some_bind, if_pos hc, hj]
    · refine ⟨i, ?_, le_refl i, Or.inr rfl⟩
      simp only [skipSpaces, List.getElem?_eq_getElem hi, Option.some_bind, if_neg hc]

theorem flagsLoop_inbounds (w : Nat) (rule : List Nat) (hlen : rule.length = IPFWRULELEN) :
    ∀ (fuel i flags : Nat), i < IPFWRULELEN → IPFWRULELEN - 1 < fuel + i →
      (flagsLoop w rule fuel i flags).isSome := by
  intro fuel
  induction fuel with
  | zero =>
    intro i flags hi hf
    have hi2 : i < rule.length := by omega
    have hnb : ¬ i < IPFWRULELEN - 1 := by omega
    simp [flagsLoop, List.getElem?_eq_getElem hi2, hnb]
  | succ fuel ih =>
    intro i flags hi hf
    have hi2 : i < rule.length := by omega
    by_cases hc : rule[i] ≠ SP ∧ i < IPFWRULELEN - 1
    · simp only [flagsLoop, List.getElem?_eq_getElem hi2, Option.some_bind, if_pos hc]
      exact ih _ _ (by omega) (by omega)
    · simp only [flagsLoop, List.getElem?_eq_getElem hi2, Option.some_bind, if_neg hc,
        Option.isSome_some]

theorem numericLoop_inbounds (w : Nat) (rule : List Nat) (hlen : rule.length = IPFWRULELEN) :
    ∀ (fuel i ret_val : Nat), i < IPFWRULELEN → IPFWRULELEN - 1 < fuel + i →
      (numericLoop w rule fuel i ret_val).isSome := by
  intro fuel
  induction fuel with
  | zero =>
    intro i ret_val hi hf
    have hi2 : i < rule.length := by omega
    have hnb : ¬ i < IPFWRULELEN - 1 := by omega
    simp [numericLoop, List.getElem?_eq_getElem hi2, hnb]
  | succ fuel ih =>
    intro i ret_val hi hf
    have hi2 : i < rule.length := by omega
    by_cases hc : rule[i] ≠ SP ∧ i < IPFWRULELEN - 1
    · simp only [numericLoop, List.getElem?_eq_getElem hi2, Option.some_bind, if_pos hc]
      exact ih _ _ (by omega) (by omega)
    · simp only [numericLoop, List.getElem?_eq_getElem hi2, Option.some_bind, if_neg hc,
        Option.isSome_some]

theorem atoipLoop_inbounds (w : Nat) (rule : List Nat) :
    ∀ (fuel i pos ret_val : Nat), (39 - i) / 8 ≤ fuel →
      pos + 2 * ((39 - i) / 8) ≤ rule.length →
      (atoipLoop w rule fuel i pos ret_val).isSome := by
  intro fuel
  induction fuel with
  | zero =>
    intro i pos ret_val hf _
    have hi : ¬ i < 32 := by omega
    simp [atoipLoop, hi]
  | succ fuel ih =>
    intro i pos ret_val hf hp
    by_cases hi : i < 32
    · have h0 : pos < rule.length := by omega
      have h1 : pos + 1 < rule.length := by omega
      simp only [atoipLoop, if_pos hi, List.getElem?_eq_getElem h0,
        List.getElem?_eq_getElem h1, Option.some_bind]
      exact ih _ _ _ (by omega) (by omega)
    · simp [atoipLoop, hi]

theorem atoip_inbounds (w : Nat) (rule : List Nat) (pos : Nat)
    (hp : pos + 8 ≤ rule.length) : (atoip w rule pos).isSome := by
  unfold atoip
  exact atoipLoop_inbounds w rule _ _ _ _ (by simp [IPFWRULELEN]) (by simpa using hp)

theorem viaSkip_inbounds (rule : List Nat) (hlen : rule.length = IPFWRULELEN)
    (bound : Nat) (hb : bound < IPFWRULELEN) :
    ∃ j, skipField rule bound IPFWRULELEN 37 = some j ∧ 37 ≤ j ∧ j ≤ max 37 bound := by
  obtain ⟨j, hj, h1, h2⟩ := skipField_inbounds rule bound IPFWRULELEN 37
    (by simp [hlen, IPFWRULELEN]) (by omega) (by simp [IPFWRULELEN] at hb ⊢; omega)
  exact ⟨j, hj, h1, by omega⟩

theorem skipColumns_inbounds (rule : List Nat) (hlen : rule.length = IPFWRULELEN) :
    ∀ (skip i : Nat), i < IPFWRULELEN →
      ∃ j, skipColumns rule skip i = some j ∧ j < IPFWRULELEN := by
  intro skip
  induction skip with
  | zero => intro i hi; exact ⟨i, rfl, hi⟩
  | succ skip ih =>
    intro i hi
    have hL : IPFWRULELEN = 200 := rfl
    obtain ⟨j1, hj1, h1, h1b⟩ := skipField_inbounds rule (IPFWRULELEN - 2) IPFWRULELEN i
      (by omega) (by omega) (by omega)
    obtain ⟨j2, hj2, h2, h2b⟩ := skipSpaces_inbounds rule (IPFWRULELEN - 1) IPFWRULELEN j1
      (by omega) (by omega) (by omega)
    obtain ⟨j, hj, h3⟩ := ih j2 (by omega)
    exact ⟨j, by simp only [skipColumns, hj1, hj2, hj, Option.some_bind], h3⟩

theorem getflags_inbounds (w : Nat) (rule : List Nat) (hlen : rule.length = IPFWRULELEN) :
    (getflags w rule).isSome := by
  have hL : IPFWRULELEN = 200 := rfl
  obtain ⟨j, hj, h1, h2⟩ := viaSkip_inbounds rule hlen (IPFWRULELEN - 12) (by omega)
  simp only [getflags, hj, Option.some_bind]
  exact flagsLoop_inbounds w rule hlen _ _ _ (by omega) (by omega)

theorem getnumeric_inbounds (w : Nat) (rule : List Nat) (hlen : rule.length = IPFWRULELEN)
    (skip : Nat) : (getnumeric w rule skip).isSome := by
  have hL : IPFWRULELEN = 200 := rfl
  obtain ⟨j, hj, h1, h2⟩ := viaSkip_inbounds rule hlen (IPFWRULELEN - 12) (by omega)
  obtain ⟨k, hk, h3⟩ := skipColumns_inbounds rule hlen skip (j + 10) (by omega)
  simp only [getnumeric, hj, hk, Option.some_bind]
  exact numericLoop_inbounds w rule hlen _ _ _ h3 (by omega)

theorem fieldSwitch_inbounds (w : Nat) (rule : List Nat) (hlen : rule.length = IPFWRULELEN)
    (index : Nat) (magic : Magic) : (fieldSwitch w rule index magic).isSome := by
  have hL : IPFWRULELEN = 200 := rfl
  have hf := getflags_inbounds w rule hlen
  have hn := getnumeric_inbounds w rule hlen
  have ha : ∀ pos, pos + 8 ≤ 200 → (atoip w rule pos).isSome :=
    fun pos hp => atoip_inbounds w rule pos (by omega)
  cases magic <;> simp only [fieldSwitch, Option.isSome_map', Option.isSome_some, hf, hn]
  · exact ha 0 (by omega)
  · exact ha 9 (by omega)
  · exact ha 19 (by omega)
  · exact ha 28 (by omega)
  · obtain ⟨j, hj, h1, h2⟩ := viaSkip_inbounds rule hlen (IPFWRULELEN - 1) (by omega)
    have hj2 : j < rule.length := by omega
    simp [hj, hj2]
  · obtain ⟨j, hj, h1, h2⟩ := viaSkip_inbounds rule hlen (IPFWRULELEN - 9) (by omega)
    simp only [hj, Option.some_bind, Option.isSome_map']
    exact ha (j + 1) (by omega)

/-! ## C1 -/

/-- C1: for every content of the 200-byte buffer, every field of the switch of
`var_ipfwacc`, every skip count and every `unsigned long` width, no scan
faults: `atoip` at 0, 9, 19, 28 and at the end of the via name plus one,
`getflags`, `getnumeric` and the VIANAME and VIAADDR scans read and write
inside the buffer only (a fault, or a loop that does not end, would be
`none`). -/
theorem C1_scans_stay_in_buffer (w : Nat) (rule : List Nat)
    (hlen : rule.length = IPFWRULELEN) :
    (∀ index magic, (fieldSwitch w rule index magic).isSome) ∧
    (∀ skip, (getnumeric w rule skip).isSome) ∧
    (getflags w rule).isSome ∧
    (atoip w rule 0).isSome ∧ (atoip w rule 9).isSome ∧
    (atoip w rule 19).isSome ∧ (atoip w rule 28).isSome ∧
    (∃ i, skipField rule (IPFWRULELEN - 9) IPFWRULELEN 37 = some i ∧
      i + 8 < IPFWRULELEN ∧ (atoip w rule (i + 1)).isSome) ∧
    (∃ i, skipField rule (IPFWRULELEN - 1) IPFWRULELEN 37 = some i ∧
      i < IPFWRULELEN) := by
  have hL : IPFWRULELEN = 200 := rfl
  refine ⟨fun index magic => fieldSwitch_inbounds w rule hlen index magic,
    fun skip => getnumeric_inbounds w rule hlen skip,
    getflags_inbounds w rule hlen,
    atoip_inbounds w rule 0 (by omega), atoip_inbounds w rule 9 (by omega),
    atoip_inbounds w rule 19 (by omega), atoip_inbounds w rule 28 (by omega), ?_, ?_⟩
  · obtain ⟨j, hj, _, h2⟩ := viaSkip_inbounds rule hlen (IPFWRULELEN - 9) (by omega)
    exact ⟨j, hj, by omega, atoip_inbounds w rule (j + 1) (by omega)⟩
  · obtain ⟨j, hj, _, h2⟩ := viaSkip_inbounds rule hlen (IPFWRULELEN - 1) (by omega)
    exact ⟨j, hj, by omega⟩

/-- C1 at a buffer of 200 letters `A` (no space, no terminator): VIAADDR and
`getnumeric(14)` stay inside the buffer. -/
theorem C1_scans_stay_in_buffer_witness :
    (List.replicate 200 65).length = IPFWRULELEN ∧
    (fieldSwitch 32 (List.replicate 200 65) 1 Magic.IPFWACCVIAADDR).isSome ∧
    (getnumeric 32 (List.replicate 200 65) 14).isSome :=
  ⟨rfl, (C1_scans_stay_in_buffer 32 (List.replicate 200 65) rfl).1 1 Magic.IPFWACCVIAADDR,
    (C1_scans_stay_in_buffer 32 (List.replicate 200 65) rfl).2.1 14⟩


/-! ## Arithmetic of the decoders -/

theorem toULong_of_lt (w : Nat) (n : Nat) (h : n < 2 ^ w) : toULong w (n : Int) = n := by
  unfold toULong
  have h2 : ((n : Int) % (2 : Int) ^ w) = (n : Int) := by
    apply Int.emod_eq_of_lt (Int.ofNat_nonneg n)
    exact_mod_cast h
  rw [h2]; simp

theorem hexdigit_hexChar (d : Nat) (h : d < 16) : hexdigit (hexChar d) = (d : Int) := by
  unfold hexdigit hexChar
  split_ifs <;> omega

theorem getElem?_writeAt (rule : List Nat) (pos : Nat) (l : List Nat) (k : Nat)
    (hp : pos ≤ rule.length) (hk : k < l.length) :
    (writeAt rule pos l)[pos + k]? = l[k]? := by
  unfold writeAt
  rw [List.append_assoc, List.getElem?_append_right (by simp [hp])]
  simp [hp, List.getElem?_append_left hk]

theorem or_shift_eq_add (a b k : Nat) (h : a < 2 ^ k) : a ||| (b <<< k) = a + b * 2 ^ k := by
  rw [Nat.shiftLeft_eq, Nat.mul_comm b, Nat.or_comm, ← Nat.mul_add_lt_is_or h, Nat.add_comm]

theorem pack_bytes (w : Nat) (hw : (2 : Nat) ^ 32 ≤ 2 ^ w) (b0 b1 b2 b3 : Nat)
    (h0 : b0 < 256) (h1 : b1 < 256) (h2 : b2 < 256) (h3 : b3 < 256) :
    (((0 ||| (b0 <<< 0) % 2 ^ w) ||| (b1 <<< 8) % 2 ^ w) ||| (b2 <<< 16) % 2 ^ w)
      ||| (b3 <<< 24) % 2 ^ w = b0 + b1 * 2 ^ 8 + b2 * 2 ^ 16 + b3 * 2 ^ 24 := by
  have e0 : (b0 <<< 0) % 2 ^ w = b0 := Nat.mod_eq_of_lt (by rw [Nat.shiftLeft_eq]; omega)
  have e1 : (b1 <<< 8) % 2 ^ w = b1 <<< 8 := Nat.mod_eq_of_lt (by rw [Nat.shiftLeft_eq]; omega)
  have e2 : (b2 <<< 16) % 2 ^ w = b2 <<< 16 := Nat.mod_eq_of_lt (by rw [Nat.shiftLeft_eq]; omega)
  have e3 : (b3 <<< 24) % 2 ^ w = b3 <<< 24 := Nat.mod_eq_of_lt (by rw [Nat.shiftLeft_eq]; omega)
  rw [e0, e1, e2, e3, Nat.zero_or, or_shift_eq_add _ _ 8 (by omega),
    or_shift_eq_add _ _ 16 (by omega), or_shift_eq_add _ _ 24 (by omega)]

theorem atoipLoop_step (w : Nat) (rule : List Nat) (fuel i pos ret_val c0 c1 : Nat)
    (hi : i < 32) (h0 : rule[pos]? = some c0) (h1 : rule[pos + 1]? = some c1) :
    atoipLoop w rule (fuel + 1) i pos ret_val =
      atoipLoop w rule fuel (i + 8) (pos + 2)
        (ret_val ||| ((toULong w (((toULong w (hexdigit c0) <<< 4 : Nat) : Int) + hexdigit c1))
          <<< i) % 2 ^ w) := by
  simp only [atoipLoop, if_pos hi, h0, h1, Option.some_bind]

theorem atoipLoop_done (w : Nat) (rule : List Nat) (fuel i pos ret_val : Nat)
    (hi : ¬ i < 32) : atoipLoop w rule fuel i pos ret_val = some ret_val := by
  cases fuel <;> simp only [atoipLoop, if_neg hi]

theorem atoip_of_getElem (w : Nat) (rule : List Nat) (pos : Nat)
    (c0 c1 c2 c3 c4 c5 c6 c7 : Nat)
    (h0 : rule[pos]? = some c0) (h1 : rule[pos + 1]? = some c1)
    (h2 : rule[pos + 2]? = some c2) (h3 : rule[pos + 3]? = some c3)
    (h4 : rule[pos + 4]? = some c4) (h5 : rule[pos + 5]? = some c5)
    (h6 : rule[pos + 6]? = some c6) (h7 : rule[pos + 7]? = some c7) :
    atoip w rule pos = some
      ((((0 ||| ((toULong w (((toULong w (hexdigit c0) <<< 4 : Nat) : Int) + hexdigit c1)) <<< 0) % 2 ^ w)
        ||| ((toULong w (((toULong w (hexdigit c2) <<< 4 : Nat) : Int) + hexdigit c3)) <<< 8) % 2 ^ w)
        ||| ((toULong w (((toULong w (hexdigit c4) <<< 4 : Nat) : Int) + hexdigit c5)) <<< 16) % 2 ^ w)
        ||| ((toULong w (((toULong w (hexdigit c6) <<< 4 : Nat) : Int) + hexdigit c7)) <<< 24) % 2 ^ w) := by
  have hfuel : IPFWRULELEN = 195 + 1 + 1 + 1 + 1 + 1 := rfl
  unfold atoip
  rw [hfuel, atoipLoop_step w rule _ 0 pos _ c0 c1 (by omega) h0 h1,
    atoipLoop_step w rule _ 8 (pos + 2) _ c2 c3 (by omega) h2 h3,
    atoipLoop_step w rule _ 16 (pos + 2 + 2) _ c4 c5 (by omega) h4 h5,
    atoipLoop_step w rule _ 24 (pos + 2 + 2 + 2) _ c6 c7 (by omega) h6 h7,
    atoipLoop_done w rule _ _ _ _ (by omega)]

theorem atoip_hex8 (w : Nat) (hw : 32 ≤ w) (rule : List Nat) (pos v : Nat)
    (hv : v < 2 ^ 32) (hp : pos + 8 ≤ rule.length) :
    atoip w (writeAt rule pos (hex8 v)) pos = some (byteReverse v) := by
  have hpl : pos ≤ rule.length := by omega
  have hg : ∀ k, k < 8 → (writeAt rule pos (hex8 v))[pos + k]? = (hex8 v)[k]? :=
    fun k hk => getElem?_writeAt rule pos (hex8 v) k hpl (by simpa [hex8] using hk)
  have g0 : (writeAt rule pos (hex8 v))[pos]? = some (hexChar (v / 16 ^ 7 % 16)) :=
    hg 0 (by omega)
  have g1 : (writeAt rule pos (hex8 v))[pos + 1]? = some (hexChar (v / 16 ^ 6 % 16)) :=
    hg 1 (by omega)
  have g2 : (writeAt rule pos (hex8 v))[pos + 2]? = some (hexChar (v / 16 ^ 5 % 16)) :=
    hg 2 (by omega)
  have g3 : (writeAt rule pos (hex8 v))[pos + 3]? = some (hexChar (v / 16 ^ 4 % 16)) :=
    hg 3 (by omega)
  have g4 : (writeAt rule pos (hex8 v))[pos + 4]? = some (hexChar (v / 16 ^ 3 % 16)) :=
    hg 4 (by omega)
  have g5 : (writeAt rule pos (hex8 v))[pos + 5]? = some (hexChar (v / 16 ^ 2 % 16)) :=
    hg 5 (by omega)
  have g6 : (writeAt rule pos (hex8 v))[pos + 6]? = some (hexChar (v / 16 % 16)) :=
    hg 6 (by omega)
  have g7 : (writeAt rule pos (hex8 v))[pos + 7]? = some (hexChar (v % 16)) :=
    hg 7 (by omega)
  rw [atoip_of_getElem w _ pos _ _ _ _ _ _ _ _ g0 g1 g2 g3 g4 g5 g6 g7]
  have hpow : (2 : Nat) ^ 32 ≤ 2 ^ w := Nat.pow_le_pow_right (by omega) hw
  have hbyte : ∀ a b : Nat, a < 16 → b < 16 →
      toULong w (((toULong w (hexdigit (hexChar a)) <<< 4 : Nat) : Int) + hexdigit (hexChar b))
        = a * 16 + b := by
    intro a b ha hb
    rw [hexdigit_hexChar a ha, hexdigit_hexChar b hb, toULong_of_lt w a (by omega),
      Nat.shiftLeft_eq]
    have : (((a * 2 ^ 4 : Nat) : Int) + (b : Int)) = ((a * 16 + b : Nat) : Int) := by
      push_cast; ring
    rw [this, toULong_of_lt w _ (by omega)]
  rw [hbyte _ _ (Nat.mod_lt _ (by omega)) (Nat.mod_lt _ (by omega)),
    hbyte _ _ (Nat.mod_lt _ (by omega)) (Nat.mod_lt _ (by omega)),
    hbyte _ _ (Nat.mod_lt _ (by omega)) (Nat.mod_lt _ (by omega)),
    hbyte _ _ (Nat.mod_lt _ (by omega)) (Nat.mod_lt _ (by omega))]
  rw [pack_bytes w hpow _ _ _ _ (by omega) (by omega) (by omega) (by omega)]
  unfold byteReverse
  congr 1
  omega


/-! ## Lines of the source and `fgets` -/

theorem splitLines_eq_nil (s : List Nat) (h : splitLines s = []) : s = [] := by
  cases s with
  | nil => rfl
  | cons c t =>
    exfalso
    unfold splitLines at h
    split_ifs at h
    split at h <;> simp at h

theorem splitLines_ne_nil (s : List Nat) : ∀ l ∈ splitLines s, l ≠ [] := by
  induction s with
  | nil => intro l hl; simp [splitLines] at hl
  | cons c t ih =>
    intro l hl
    unfold splitLines at hl
    split_ifs at hl with hc
    · rcases List.mem_cons.1 hl with h | h
      · simp [h]
      · exact ih l h
    · split at hl
      · simp at hl; simp [hl]
      · rename_i l0 ls heq
        rcases List.mem_cons.1 hl with h | h
        · simp [h]
        · exact ih l (by rw [heq]; exact List.mem_cons_of_mem _ h)

theorem splitLines_length_le (s : List Nat) : (splitLines s).length ≤ s.length := by
  induction s with
  | nil => simp [splitLines]
  | cons c t ih =>
    unfold splitLines
    split_ifs with hc
    · simp; exact ih
    · split
      · simp
      · rename_i l0 ls heq
        rw [heq] at ih
        simp at ih ⊢
        omega

theorem fgetsChars_nil (room : Nat) : fgetsChars room [] = ([], []) := by
  cases room <;> rfl

theorem fgetsChars_splitLines :
    ∀ (s : List Nat) (room : Nat) (L : List Nat) (ls : List (List Nat)),
      splitLines s = L :: ls → L.length ≤ room →
      ∃ s', fgetsChars room s = (L, s') ∧ splitLines s' = ls := by
  intro s
  induction s with
  | nil => intro room L ls h; simp [splitLines] at h
  | cons c t ih =>
    intro room L ls h hroom
    unfold splitLines at h
    split_ifs at h with hc
    · simp only [List.cons.injEq] at h
      obtain ⟨hL, hls⟩ := h
      subst hL
      cases room with
      | zero => simp at hroom
      | succ r => exact ⟨t, by simp [fgetsChars, hc], hls⟩
    · split at h
      · rename_i heq
        simp only [List.cons.injEq] at h
        obtain ⟨hL, hls⟩ := h
        subst hL
        have ht := splitLines_eq_nil t heq
        subst ht
        cases room with
        | zero => simp at hroom
        | succ r =>
          exact ⟨[], by simp [fgetsChars, hc, fgetsChars_nil], by rw [← hls]; rfl⟩
      · rename_i l0 ls0 heq
        simp only [List.cons.injEq] at h
        obtain ⟨hL, hls⟩ := h
        subst hL
        cases room with
        | zero => simp at hroom
        | succ r =>
          obtain ⟨s', h1, h2⟩ := ih r l0 ls0 heq (by simpa using hroom)
          exact ⟨s', by simp [fgetsChars, hc, h1], by rw [h2, hls]⟩

theorem fgets_nil (rule : List Nat) (n : Nat) : fgets rule n [] = none := by
  simp [fgets, fgetsChars_nil]

theorem fgets_splitLines (rule s L : List Nat) (ls : List (List Nat))
    (h : splitLines s = L :: ls) (hfit : L.length ≤ IPFWRULELEN - 1) :
    ∃ s', fgets rule IPFWRULELEN s = some (L ++ [0] ++ rule.drop (L.length + 1), s') ∧
      splitLines s' = ls := by
  obtain ⟨s', h1, h2⟩ := fgetsChars_splitLines s (IPFWRULELEN - 1) L ls h hfit
  refine ⟨s', ?_, h2⟩
  have hne : L ≠ [] := splitLines_ne_nil s L (by rw [h]; exact List.mem_cons_self _ _)
  obtain ⟨c, l, rfl⟩ := List.exists_cons_of_ne_nil hne
  simp only [fgets, h1]

/-! ## `readrule` -/

theorem readruleLoop_count :
    ∀ (ls : List (List Nat)) (s : List Nat) (fuel i : Nat) (rule : List Nat),
      splitLines s = ls → (∀ l ∈ ls, l.length ≤ IPFWRULELEN - 1) → ls.length < fuel → 1 ≤ i →
      ∃ rule', readruleLoop 0 fuel i rule s = some (rule', i - 1 + ls.length) := by
  intro ls
  induction ls with
  | nil =>
    intro s fuel i rule hs _ hf hi
    have := splitLines_eq_nil s hs
    subst this
    cases fuel with
    | zero => simp at hf
    | succ f =>
      have hi0 : i ≠ 0 := by omega
      exact ⟨rule, by simp [readruleLoop, hi0, fgets_nil]⟩
  | cons L ls ih =>
    intro s fuel i rule hs hfit hf hi
    cases fuel with
    | zero => simp at hf
    | succ f =>
      have hi0 : i ≠ 0 := by omega
      obtain ⟨s', h1, h2⟩ := fgets_splitLines rule s L ls hs (hfit L (List.mem_cons_self _ _))
      obtain ⟨rule', h3⟩ := ih s' f (i + 1) (L ++ [0] ++ rule.drop (L.length + 1)) h2
        (fun l hl => hfit l (List.mem_cons_of_mem _ hl)) (by simpa using hf) (by omega)
      refine ⟨rule', ?_⟩
      simp only [readruleLoop, if_pos hi0, h1, h3]
      simp only [List.length_cons, Option.some.injEq, Prod.mk.injEq, true_and]
      omega

theorem readruleLoop_found (number : Nat) :
    ∀ (k : Nat) (ls : List (List Nat)) (s : List Nat) (fuel i : Nat) (rule L : List Nat),
      splitLines s = ls → (∀ l ∈ ls, l.length ≤ IPFWRULELEN - 1) → ls.length < fuel →
      number = i + k → ls[k]? = some L →
      ∃ rest, readruleLoop number fuel i rule s = some (L ++ [0] ++ rest, number) ∧
        (rule.length = IPFWRULELEN → (L ++ [0] ++ rest).length = IPFWRULELEN) := by
  intro k
  induction k with
  | zero =>
    intro ls s fuel i rule L hs hfit hf hn hk
    cases ls with
    | nil => simp at hk
    | cons L0 ls =>
      simp only [List.getElem?_cons_zero, Option.some.injEq] at hk
      subst hk
      obtain ⟨s', h1, _⟩ := fgets_splitLines rule s L0 ls hs (hfit L0 (List.mem_cons_self _ _))
      have hi : ¬ i ≠ number := by omega
      refine ⟨rule.drop (L0.length + 1), ?_, ?_⟩
      · cases fuel <;> simp only [readruleLoop, if_neg hi, h1] <;> simp <;> omega
      · intro hlen
        have hL0 := hfit L0 (List.mem_cons_self _ _)
        simp [IPFWRULELEN] at hL0 hlen ⊢
        omega
  | succ k ih =>
    intro ls s fuel i rule L hs hfit hf hn hk
    cases ls with
    | nil => simp at hk
    | cons L0 ls =>
      simp only [List.getElem?_cons_succ] at hk
      cases fuel with
      | zero => simp at hf
      | succ f =>
        obtain ⟨s', h1, h2⟩ := fgets_splitLines rule s L0 ls hs (hfit L0 (List.mem_cons_self _ _))
        have hi : i ≠ number := by omega
        obtain ⟨rest, h3, h4⟩ := ih ls s' f (i + 1) (L0 ++ [0] ++ rule.drop (L0.length + 1)) L h2
          (fun l hl => hfit l (List.mem_cons_of_mem _ hl)) (by simpa using hf) (by omega) hk
        refine ⟨rest, ?_, ?_⟩
        · simp only [readruleLoop, if_pos hi, h1, h3]
        · intro hlen
          apply h4
          have hL0 := hfit L0 (List.mem_cons_self _ _)
          simp [IPFWRULELEN] at hL0 hlen ⊢
          omega

theorem readruleLoop_missing (number : Nat) (hnum : number ≠ 0) :
    ∀ (ls : List (List Nat)) (s : List Nat) (fuel i : Nat) (rule : List Nat),
      splitLines s = ls → (∀ l ∈ ls, l.length ≤ IPFWRULELEN - 1) → ls.length < fuel →
      i + ls.length ≤ number →
      ∃ rule', readruleLoop number fuel i rule s = some (rule', 0) := by
  intro ls
  induction ls with
  | nil =>
    intro s fuel i rule hs _ hf hn
    have := splitLines_eq_nil s hs
    subst this
    cases fuel with
    | zero => simp at hf
    | succ f =>
      by_cases hi : i ≠ number
      · exact ⟨rule, by simp only [readruleLoop, if_pos hi, fgets_nil, if_pos hnum]⟩
      · exact ⟨rule, by simp only [readruleLoop, if_neg hi, fgets_nil]⟩
  | cons L ls ih =>
    intro s fuel i rule hs hfit hf hn
    cases fuel with
    | zero => simp at hf
    | succ f =>
      have hi : i ≠ number := by simp at hn; omega
      obtain ⟨s', h1, h2⟩ := fgets_splitLines rule s L ls hs (hfit L (List.mem_cons_self _ _))
      obtain ⟨rule', h3⟩ := ih s' f (i + 1) (L ++ [0] ++ rule.drop (L.length + 1)) h2
        (fun l hl => hfit l (List.mem_cons_of_mem _ hl)) (by simpa using hf)
        (by simp at hn; omega)
      exact ⟨rule', by simp only [readruleLoop, if_pos hi, h1, h3]⟩

/-- What `readrule` does on a source whose lines fit in the buffer, by the
lines of the source. -/
theorem readrule_lines (f rule : List Nat) (number : Nat)
    (hfit : ∀ l ∈ splitLines f, l.length ≤ IPFWRULELEN - 1) :
    (splitLines f = [] → readrule (some f) rule number = some (rule, 0)) ∧
    (∀ H ls, splitLines f = H :: ls →
      (number = 0 → ∃ rule', readrule (some f) rule number = some (rule', ls.length)) ∧
      (number ≠ 0 → ls.length < number →
        ∃ rule', readrule (some f) rule number = some (rule', 0)) ∧
      (∀ L, number ≠ 0 → ls[number - 1]? = some L →
        ∃ rest, readrule (some f) rule number = some (L ++ [0] ++ rest, number) ∧
          (rule.length = IPFWRULELEN → (L ++ [0] ++ rest).length = IPFWRULELEN))) := by
  constructor
  · intro h
    have := splitLines_eq_nil f h
    subst this
    simp only [readrule, fgets_nil]
  · intro H ls h
    obtain ⟨s', h1, h2⟩ := fgets_splitLines rule f H ls h (hfit H (by rw [h]; exact List.mem_cons_self _ _))
    have hfit2 : ∀ l ∈ ls, l.length ≤ IPFWRULELEN - 1 :=
      fun l hl => hfit l (by rw [h]; exact List.mem_cons_of_mem _ hl)
    have hfuel : ls.length < s'.length + 1 := by
      have := splitLines_length_le s'
      rw [h2] at this
      omega
    have hHlen : rule.length = IPFWRULELEN →
        (H ++ [0] ++ rule.drop (H.length + 1)).length = IPFWRULELEN := by
      intro hlen
      have hH := hfit H (by rw [h]; exact List.mem_cons_self _ _)
      simp [IPFWRULELEN] at hH hlen ⊢
      omega
    refine ⟨?_, ?_, ?_⟩
    · intro hn
      subst hn
      obtain ⟨rule', h3⟩ := readruleLoop_count ls s' (s'.length + 1) 1
        (H ++ [0] ++ rule.drop (H.length + 1)) h2 hfit2 hfuel (le_refl 1)
      exact ⟨rule', by simp only [readrule, h1, h3]; simp⟩
    · intro hn hlt
      obtain ⟨rule', h3⟩ := readruleLoop_missing number hn ls s' (s'.length + 1) 1
        (H ++ [0] ++ rule.drop (H.length + 1)) h2 hfit2 hfuel (by omega)
      exact ⟨rule', by simp only [readrule, h1, h3]⟩
    · intro L hn hL
      obtain ⟨rest, h3, h4⟩ := readruleLoop_found number (number - 1) ls s' (s'.length + 1) 1
        (H ++ [0] ++ rule.drop (H.length + 1)) L h2 hfit2 hfuel (by omega) hL
      exact ⟨rest, by simp only [readrule, h1, h3], fun hlen => h4 (hHlen hlen)⟩

theorem splitLines_line (l rest : List Nat) (hl : NL ∉ l) :
    splitLines (l ++ NL :: rest) = (l ++ [NL]) :: splitLines rest := by
  induction l with
  | nil => simp [splitLines]
  | cons c t ih =>
    have hc : c ≠ NL := fun h => hl (by simp [h])
    have ht : NL ∉ t := fun h => hl (List.mem_cons_of_mem _ h)
    have e : splitLines (c :: (t ++ NL :: rest)) = (c :: (t ++ [NL])) :: splitLines rest := by
      rw [splitLines, if_neg hc, ih ht]
    simpa using e

theorem splitLines_joinLines (ls : List (List Nat)) (h : ∀ l ∈ ls, NL ∉ l) :
    splitLines (joinLines ls) = ls.map fun l => l ++ [NL] := by
  induction ls with
  | nil => rfl
  | cons l ls ih =>
    simp only [joinLines, List.map_cons]
    rw [splitLines_line l _ (h l (List.mem_cons_self _ _)),
      ih (fun l hl => h l (List.mem_cons_of_mem _ hl))]


/-! ## C3 -/

/-- C3 (as stated, refuted): the 32-bit value 0x0A000001 written as the 8
digits `0A000001` at position 0 is decoded by `atoip(0)` to 0x0100000A, not to
the value written. -/
theorem C3_atoip_roundtrip_counterexample :
    atoip 32 (writeAt (List.replicate 200 0) 0 (hex8 0x0A000001)) 0 = some 0x0100000A ∧
    (0x0100000A : Nat) ≠ 0x0A000001 := by
  decide

/-- C3 (amended): for every 32-bit value `v` and every position `pos` with
room for 8 characters, `atoip(pos)` on the buffer that holds `v` as 8 uppercase
hexadecimal digits (most significant first) at `pos` leaves in `ret_val` the
value `v` with its four bytes in reverse order. -/
theorem C3_atoip_hex8_byteReverse (w : Nat) (hw : 32 ≤ w) (rule : List Nat) (pos v : Nat)
    (hv : v < 2 ^ 32) (hp : pos + 8 ≤ rule.length) :
    atoip w (writeAt rule pos (hex8 v)) pos = some (byteReverse v) :=
  atoip_hex8 w hw rule pos v hv hp

/-- C3 (amended) at the mask `FFFFFF00` written at position 9 of a buffer of
200 NUL bytes: `ret_val` is 0x00FFFFFF. -/
theorem C3_atoip_hex8_byteReverse_witness :
    atoip 32 (writeAt (List.replicate 200 0) 9 (hex8 0xFFFFFF00)) 9 = some 0x00FFFFFF :=
  C3_atoip_hex8_byteReverse 32 (by decide) (List.replicate 200 0) 9 0xFFFFFF00
    (by decide) (by decide)

/-! ## C4 -/

/-- C4: on a source made of a header line and `k` data lines, each at most 198
characters long before its newline, `readrule(0)` returns `k`. -/
theorem C4_readrule_zero_counts (header : List Nat) (data : List (List Nat))
    (rule : List Nat)
    (hheader : NL ∉ header ∧ header.length ≤ 198)
    (hdata : ∀ l ∈ data, NL ∉ l ∧ l.length ≤ 198) :
    (readrule (some (joinLines (header :: data))) rule 0).map Prod.snd = some data.length := by
  have hnl : ∀ l ∈ header :: data, NL ∉ l := by
    intro l hl
    rcases List.mem_cons.1 hl with h | h
    · rw [h]; exact hheader.1
    · exact (hdata l h).1
  have hsplit := splitLines_joinLines (header :: data) hnl
  have hfit : ∀ l ∈ splitLines (joinLines (header :: data)), l.length ≤ IPFWRULELEN - 1 := by
    intro l hl
    rw [hsplit] at hl
    obtain ⟨l0, hl0, rfl⟩ := List.mem_map.1 hl
    have : l0.length ≤ 198 := by
      rcases List.mem_cons.1 hl0 with h | h
      · rw [h]; exact hheader.2
      · exact (hdata l0 h).2
    simp [IPFWRULELEN]; omega
  obtain ⟨rule', h⟩ := ((readrule_lines _ rule 0 hfit).2 _ _ hsplit).1 rfl
  rw [h]
  simp

/-- C4 at a header followed by 5 data lines, and at a header alone:
`readrule(0)` returns 5 and 0. -/
theorem C4_readrule_zero_counts_witness :
    (readrule (some (joinLines (bytes "IP accounting rules" ::
        [bytes "r1", bytes "r2", bytes "r3", bytes "r4", bytes "r5"])))
      (List.replicate 200 0) 0).map Prod.snd = some 5 ∧
    (readrule (some (joinLines (bytes "IP accounting rules" :: [])))
      (List.replicate 200 0) 0).map Prod.snd = some 0 :=
  ⟨C4_readrule_zero_counts (bytes "IP accounting rules")
      [bytes "r1", bytes "r2", bytes "r3", bytes "r4", bytes "r5"] (List.replicate 200 0)
      (by decide) (by decide),
    C4_readrule_zero_counts (bytes "IP accounting rules") [] (List.replicate 200 0)
      (by decide) (by decide)⟩

/-! ## C5 -/

/-- C5: for `n >= 1` and a source whose lines fit in the buffer, `readrule(n)`
returns 0 exactly when the source cannot be opened, has no header line, or has
fewer than `n` data lines after the header; in every other case it returns
`n`. -/
theorem C5_readrule_not_found (src : Option (List Nat)) (rule : List Nat) (n : Nat)
    (hn : 1 ≤ n)
    (hfit : ∀ f, src = some f → ∀ l ∈ splitLines f, l.length ≤ IPFWRULELEN - 1) :
    ∃ rule' r, readrule src rule n = some (rule', r) ∧
      (r = 0 ↔ (src = none ∨
        ∃ f, src = some f ∧ (splitLines f = [] ∨ (splitLines f).length - 1 < n))) ∧
      (r ≠ 0 → r = n) := by
  have hn0 : n ≠ 0 := by omega
  cases src with
  | none => exact ⟨rule, 0, rfl, by simp, by simp⟩
  | some f =>
    have hl := readrule_lines f rule n (hfit f rfl)
    cases hs : splitLines f with
    | nil => exact ⟨rule, 0, hl.1 hs, by simp [hs], by simp⟩
    | cons H ls =>
      obtain ⟨_, hmiss, hfound⟩ := hl.2 H ls hs
      by_cases hlt : ls.length < n
      · obtain ⟨rule', h⟩ := hmiss hn0 hlt
        exact ⟨rule', 0, h, by simp [hs, hlt], by simp⟩
      · have hidx : n - 1 < ls.length := by omega
        obtain ⟨rest, h, _⟩ := hfound ls[n - 1] hn0 (List.getElem?_eq_getElem hidx)
        refine ⟨_, n, h, ?_, fun _ => rfl⟩
        simp [hs, hlt, hn0]

/-- C5 at rule 3 of a source with a header and 2 data lines: `readrule(3)`
returns 0, the case of fewer than 3 data lines. -/
theorem C5_readrule_not_found_witness :
    (readrule (some (bytes "IP accounting rules\nr1\nr2\n")) (List.replicate 200 0) 3).map
      Prod.snd = some 0 ∧
    ∃ rule' r, readrule (some (bytes "IP accounting rules\nr1\nr2\n")) (List.replicate 200 0) 3
        = some (rule', r) ∧
      (r = 0 ↔ ((some (bytes "IP accounting rules\nr1\nr2\n") : Option (List Nat)) = none ∨
        ∃ f, some (bytes "IP accounting rules\nr1\nr2\n") = some f ∧
          (splitLines f = [] ∨ (splitLines f).length - 1 < 3))) ∧
      (r ≠ 0 → r = 3) :=
  ⟨by decide,
    C5_readrule_not_found (some (bytes "IP accounting rules\nr1\nr2\n")) (List.replicate 200 0) 3
      (by decide) (by
        intro f hf
        cases hf
        decide)⟩

/-! ## C6 -/

/-- C6: for `n >= 1` and a source with a header and at least `n` data lines,
each at most 198 characters long before its newline, `readrule(n)` returns `n`
and leaves a buffer that begins with the `n`-th data line, its newline and a
NUL, whatever the buffer held before. -/
theorem C6_readrule_loads_line (header : List Nat) (data : List (List Nat))
    (rule : List Nat) (n : Nat) (line : List Nat)
    (hn : 1 ≤ n)
    (hheader : NL ∉ header ∧ header.length ≤ 198)
    (hdata : ∀ l ∈ data, NL ∉ l ∧ l.length ≤ 198)
    (hline : data[n - 1]? = some line) :
    ∃ rest, readrule (some (joinLines (header :: data))) rule n
      = some (line ++ [NL, 0] ++ rest, n) := by
  have hnl : ∀ l ∈ header :: data, NL ∉ l := by
    intro l hl
    rcases List.mem_cons.1 hl with h | h
    · rw [h]; exact hheader.1
    · exact (hdata l h).1
  have hsplit := splitLines_joinLines (header :: data) hnl
  have hfit : ∀ l ∈ splitLines (joinLines (header :: data)), l.length ≤ IPFWRULELEN - 1 := by
    intro l hl
    rw [hsplit] at hl
    obtain ⟨l0, hl0, rfl⟩ := List.mem_map.1 hl
    have : l0.length ≤ 198 := by
      rcases List.mem_cons.1 hl0 with h | h
      · rw [h]; exact hheader.2
      · exact (hdata l0 h).2
    simp [IPFWRULELEN]; omega
  rw [List.map_cons] at hsplit
  obtain ⟨rest, h, _⟩ := ((readrule_lines _ rule n hfit).2 _ _ hsplit).2.2 (line ++ [NL])
    (by omega) (by simp [List.getElem?_map, hline])
  exact ⟨rest, by rw [h]; simp⟩

/-- C6 at rule 2 of a source with a header and 3 data lines, read into a
buffer full of the letter `x`: the buffer begins with the second data line. -/
theorem C6_readrule_loads_line_witness :
    ∃ rest, readrule (some (joinLines (bytes "IP accounting rules" ::
        [bytes "first rule", bytes "rule2", bytes "third rule"])))
      (List.replicate 200 120) 2 = some (bytes "rule2" ++ [NL, 0] ++ rest, 2) :=
  C6_readrule_loads_line (bytes "IP accounting rules")
    [bytes "first rule", bytes "rule2", bytes "third rule"] (List.replicate 200 120) 2
    (bytes "rule2") (by decide) (by decide) (by decide) (by decide)


/-! ## Bytes at a place in the buffer -/

theorem holdsAt_mid (l : List Nat) : ∀ (pre post : List Nat),
    holdsAt (pre ++ l ++ post) pre.length l := by
  induction l with
  | nil => intro pre post; trivial
  | cons c t ih =>
    intro pre post
    have h0 : (pre ++ (c :: t) ++ post)[pre.length]? = some c := by
      rw [List.append_assoc, List.getElem?_append_right (le_refl _)]
      simp
    have h := ih (pre ++ [c]) post
    exact ⟨h0, by simpa using h⟩

theorem holdsAt_append (rule : List Nat) (a b : List Nat) : ∀ (i : Nat),
    holdsAt rule i (a ++ b) ↔ holdsAt rule i a ∧ holdsAt rule (i + a.length) b := by
  induction a with
  | nil => intro i; simp [holdsAt]
  | cons c t ih =>
    intro i
    have e : i + 1 + t.length = i + (c :: t).length := by simp; omega
    show (rule[i]? = some c ∧ holdsAt rule (i + 1) (t ++ b)) ↔
      (rule[i]? = some c ∧ holdsAt rule (i + 1) t) ∧ holdsAt rule (i + (c :: t).length) b
    rw [ih (i + 1), e, and_assoc]

/-! ## The scans on well-formed columns -/

theorem skipField_token (rule : List Nat) (bound : Nat) :
    ∀ (tok : List Nat) (i fuel : Nat), SP ∉ tok → holdsAt rule i (tok ++ [SP]) →
      i + tok.length ≤ bound → tok.length ≤ fuel →
      skipField rule bound fuel i = some (i + tok.length) := by
  intro tok
  induction tok with
  | nil =>
    intro i fuel _ h _ _
    have h0 : rule[i]? = some SP := h.1
    cases fuel <;> simp [skipField, h0]
  | cons c t ih =>
    intro i fuel hsp h hb hf
    have h0 : rule[i]? = some c := h.1
    have hc : c ≠ SP := fun e => hsp (by simp [e])
    have ht : SP ∉ t := fun e => hsp (List.mem_cons_of_mem _ e)
    simp only [List.length_cons] at hb hf
    cases fuel with
    | zero => omega
    | succ f =>
      have hcond : c ≠ SP ∧ i < bound := ⟨hc, by omega⟩
      simp only [skipField, h0, Option.some_bind, if_pos hcond]
      rw [ih (i + 1) f ht h.2 (by omega) (by omega)]
      simp only [List.length_cons]
      congr 1
      omega

theorem skipSpaces_run (rule : List Nat) (bound : Nat) (c : Nat) (hc : c ≠ SP) :
    ∀ (n i fuel : Nat), holdsAt rule i (List.replicate n SP ++ [c]) →
      i + n ≤ bound → n ≤ fuel →
      skipSpaces rule bound fuel i = some (i + n) := by
  intro n
  induction n with
  | zero =>
    intro i fuel h _ _
    have h0 : rule[i]? = some c := h.1
    cases fuel <;> simp [skipSpaces, h0, hc]
  | succ n ih =>
    intro i fuel h hb hf
    have h0 : rule[i]? = some SP := h.1
    cases fuel with
    | zero => omega
    | succ f =>
      have hi : i < bound := by omega
      have e : i + 1 + n = i + (n + 1) := by omega
      simp only [skipSpaces, h0, Option.some_bind, true_and, if_pos hi]
      rw [ih (i + 1) f h.2 (by omega) (by omega), e]

theorem foldl_decimal_ge (ds : List Nat) : ∀ (acc : Nat),
    acc ≤ ds.foldl (fun a c => a * 10 + (c - 48)) acc := by
  induction ds with
  | nil => intro acc; exact le_refl _
  | cons c t ih =>
    intro acc
    exact le_trans (by omega) (ih (acc * 10 + (c - 48)))

theorem numericLoop_digits (w : Nat) (rule : List Nat) :
    ∀ (ds : List Nat) (i acc fuel : Nat), (∀ c ∈ ds, 48 ≤ c ∧ c ≤ 57) →
      holdsAt rule i (ds ++ [SP]) → i + ds.length ≤ IPFWRULELEN - 1 → ds.length ≤ fuel →
      ds.foldl (fun a c => a * 10 + (c - 48)) acc < 2 ^ w →
      numericLoop w rule fuel i acc
        = some (ds.foldl (fun a c => a * 10 + (c - 48)) acc) := by
  intro ds
  induction ds with
  | nil =>
    intro i acc fuel _ h _ _ _
    have h0 : rule[i]? = some SP := h.1
    cases fuel <;> simp [numericLoop, h0]
  | cons c t ih =>
    intro i acc fuel hd h hb hf hv
    have h0 : rule[i]? = some c := h.1
    have hc := hd c (List.mem_cons_self _ _)
    have hcsp : c ≠ SP := by simp [SP]; omega
    simp only [List.length_cons] at hb hf
    simp only [List.foldl_cons] at hv ⊢
    cases fuel with
    | zero => omega
    | succ f =>
      have hcond : c ≠ SP ∧ i < IPFWRULELEN - 1 := ⟨hcsp, by omega⟩
      have hstep : toULong w ((acc : Int) * 10 + (c : Int) - 48) = acc * 10 + (c - 48) := by
        have e : ((acc : Int) * 10 + (c : Int) - 48) = ((acc * 10 + (c - 48) : Nat) : Int) := by
          omega
        rw [e]
        exact toULong_of_lt w _ (lt_of_le_of_lt (foldl_decimal_ge t _) hv)
      simp only [numericLoop, h0, Option.some_bind, if_pos hcond, hstep]
      exact ih (i + 1) _ f (fun d hd' => hd d (List.mem_cons_of_mem _ hd')) h.2 (by omega)
        (by omega) hv

theorem foldl_hex_ge (ds : List Nat) : ∀ (acc : Nat),
    acc ≤ ds.foldl (fun a c => a * 16 + hexDigitValue c) acc := by
  induction ds with
  | nil => intro acc; exact le_refl _
  | cons c t ih =>
    intro acc
    exact le_trans (by omega) (ih (acc * 16 + hexDigitValue c))

theorem hexdigit_upper (c : Nat) (hc : (48 ≤ c ∧ c ≤ 57) ∨ (65 ≤ c ∧ c ≤ 70)) :
    hexdigit c = (hexDigitValue c : Int) ∧ hexDigitValue c < 16 := by
  unfold hexdigit hexDigitValue
  split_ifs <;> omega

theorem flagsLoop_digits (w : Nat) (rule : List Nat) :
    ∀ (ds : List Nat) (i acc fuel : Nat),
      (∀ c ∈ ds, (48 ≤ c ∧ c ≤ 57) ∨ (65 ≤ c ∧ c ≤ 70)) →
      holdsAt rule i (ds ++ [SP]) → i + ds.length ≤ IPFWRULELEN - 1 → ds.length ≤ fuel →
      ds.foldl (fun a c => a * 16 + hexDigitValue c) acc < 2 ^ w →
      flagsLoop w rule fuel i acc
        = some (ds.foldl (fun a c => a * 16 + hexDigitValue c) acc) := by
  intro ds
  induction ds with
  | nil =>
    intro i acc fuel _ h _ _ _
    have h0 : rule[i]? = some SP := h.1
    cases fuel <;> simp [flagsLoop, h0]
  | cons c t ih =>
    intro i acc fuel hd h hb hf hv
    have h0 : rule[i]? = some c := h.1
    have hc := hd c (List.mem_cons_self _ _)
    have hcsp : c ≠ SP := by simp [SP]; omega
    simp only [List.length_cons] at hb hf
    simp only [List.foldl_cons] at hv ⊢
    cases fuel with
    | zero => omega
    | succ f =>
      have hcond : c ≠ SP ∧ i < IPFWRULELEN - 1 := ⟨hcsp, by omega⟩
      have hstep : toULong w (((acc <<< 4 : Nat) : Int) + hexdigit c)
          = acc * 16 + hexDigitValue c := by
        rw [(hexdigit_upper c hc).1, Nat.shiftLeft_eq]
        have e : (((acc * 2 ^ 4 : Nat) : Int) + (hexDigitValue c : Int))
            = ((acc * 16 + hexDigitValue c : Nat) : Int) := by
          push_cast; ring
        rw [e]
        exact toULong_of_lt w _ (lt_of_le_of_lt (foldl_hex_ge t _) hv)
      simp only [flagsLoop, h0, Option.some_bind, if_pos hcond, hstep]
      exact ih (i + 1) _ f (fun d hd' => hd d (List.mem_cons_of_mem _ hd')) h.2 (by omega)
        (by omega) hv

theorem foldl_hex_lt (ds : List Nat) :
    ∀ (acc n : Nat), (∀ c ∈ ds, (48 ≤ c ∧ c ≤ 57) ∨ (65 ≤ c ∧ c ≤ 70)) → acc < 16 ^ n →
      ds.foldl (fun a c => a * 16 + hexDigitValue c) acc < 16 ^ (n + ds.length) := by
  induction ds with
  | nil => intro acc n _ h; simpa using h
  | cons c t ih =>
    intro acc n hd h
    have hc := (hexdigit_upper c (hd c (List.mem_cons_self _ _))).2
    have h2 : acc * 16 + hexDigitValue c < 16 ^ (n + 1) := by
      rw [pow_succ]; omega
    have := ih (acc * 16 + hexDigitValue c) (n + 1)
      (fun d hd' => hd d (List.mem_cons_of_mem _ hd')) h2
    simpa [Nat.add_assoc, Nat.add_comm 1] using this


theorem skipColumns_columns (rule : List Nat) :
    ∀ (before : List (Nat × List Nat)) (t0 : List Nat) (i gap c : Nat),
      SP ∉ t0 → (∀ p ∈ before, p.2 ≠ [] ∧ SP ∉ p.2) → c ≠ SP →
      holdsAt rule i (t0 ++ columns before ++ List.replicate (gap + 1) SP ++ [c]) →
      i + (t0 ++ columns before).length + gap + 1 ≤ IPFWRULELEN - 2 →
      skipColumns rule (before.length + 1) i
        = some (i + (t0 ++ columns before).length + gap + 1) := by
  intro before
  induction before with
  | nil =>
    intro t0 i gap c ht0 _ hc h hb
    simp only [columns, List.append_nil, List.length_nil, Nat.zero_add] at h hb ⊢
    have hL : IPFWRULELEN = 200 := rfl
    rw [List.append_assoc, holdsAt_append] at h
    have h1 : holdsAt rule i (t0 ++ [SP]) := by
      rw [holdsAt_append]
      exact ⟨h.1, h.2.1, trivial⟩
    have e1 := skipField_token rule (IPFWRULELEN - 2) t0 i IPFWRULELEN ht0 h1 (by omega) (by omega)
    have e2 := skipSpaces_run rule (IPFWRULELEN - 1) c hc (gap + 1) (i + t0.length) IPFWRULELEN
      h.2 (by omega) (by omega)
    simp only [skipColumns, e1, e2, Option.some_bind]
    congr 1
  | cons p r ih =>
    intro t0 i gap c ht0 hbefore hc h hb
    obtain ⟨g1, t1⟩ := p
    have hL : IPFWRULELEN = 200 := rfl
    have hp : t1 ≠ [] ∧ SP ∉ t1 := hbefore (g1, t1) (List.mem_cons_self _ _)
    obtain ⟨c1, t1', ht1⟩ := List.exists_cons_of_ne_nil hp.1
    have hc1 : c1 ≠ SP := fun e => hp.2 (by rw [ht1, e]; exact List.mem_cons_self _ _)
    simp only [columns, List.length_append, List.length_replicate, List.length_cons] at h hb ⊢
    have hre : t0 ++ (List.replicate (g1 + 1) SP ++ t1 ++ columns r) ++
        List.replicate (gap + 1) SP ++ [c]
        = t0 ++ (List.replicate (g1 + 1) SP ++
          (t1 ++ columns r ++ List.replicate (gap + 1) SP ++ [c])) := by
      simp only [List.append_assoc]
    rw [hre, holdsAt_append, holdsAt_append, List.length_replicate] at h
    obtain ⟨ha, hb2, hc2⟩ := h
    have h1 : holdsAt rule i (t0 ++ [SP]) := by
      rw [holdsAt_append]
      exact ⟨ha, hb2.1, trivial⟩
    have h2 : holdsAt rule (i + t0.length) (List.replicate (g1 + 1) SP ++ [c1]) := by
      rw [holdsAt_append, List.length_replicate]
      refine ⟨hb2, ?_, trivial⟩
      rw [ht1] at hc2
      exact hc2.1
    have e1 := skipField_token rule (IPFWRULELEN - 2) t0 i IPFWRULELEN ht0 h1 (by omega) (by omega)
    have e2 := skipSpaces_run rule (IPFWRULELEN - 1) c1 hc1 (g1 + 1) (i + t0.length) IPFWRULELEN
      h2 (by omega) (by omega)
    have e3 := ih t1 (i + t0.length + (g1 + 1)) gap c hp.2
      (fun q hq => hbefore q (List.mem_cons_of_mem _ hq)) hc hc2
      (by simp only [List.length_append]; omega)
    rw [skipColumns]
    simp only [e1, e2, Option.some_bind, e3, List.length_append]
    congr 1
    omega


/-- The function `getnumeric` on a well-formed line: the decimal column that `skip`
columns (the flags token and `skip - 1` columns) precede, when a space follows
it and its value fits in an `unsigned long`. -/
theorem getnumeric_columns (w : Nat) (rule pre via addr flags : List Nat) (x : Nat)
    (before : List (Nat × List Nat)) (gap : Nat) (target rest : List Nat)
    (hrule : rule = pre ++ via ++ [SP] ++ addr ++ [x] ++ flags ++ columns before ++
      List.replicate (gap + 1) SP ++ target ++ [SP] ++ rest)
    (hlen : rule.length = IPFWRULELEN) (hpre : pre.length = 37) (hvia : SP ∉ via)
    (haddr : addr.length = 8) (hflags : SP ∉ flags)
    (hbefore : ∀ p ∈ before, p.2 ≠ [] ∧ SP ∉ p.2)
    (htarget : target ≠ [] ∧ ∀ c ∈ target, 48 ≤ c ∧ c ≤ 57)
    (hval : decimalValue target < 2 ^ w) :
    getnumeric w rule (before.length + 1) = some (decimalValue target) := by
  have hL : IPFWRULELEN = 200 := rfl
  obtain ⟨c, t', htc⟩ := List.exists_cons_of_ne_nil htarget.1
  have hc : c ≠ SP := by
    have := htarget.2 c (by rw [htc]; exact List.mem_cons_self _ _)
    simp [SP]; omega
  have hT : 1 ≤ target.length := by rw [htc]; simp
  have hre : rule = pre ++ (via ++ ([SP] ++ (addr ++ ([x] ++ (flags ++ columns before ++
      List.replicate (gap + 1) SP ++ (target ++ [SP])))))) ++ rest := by
    rw [hrule]; simp only [List.append_assoc]
  have hlen2 : 37 + via.length + 1 + 8 + 1 + (flags ++ columns before).length + (gap + 1)
      + target.length + 1 + rest.length = 200 := by
    rw [hrule] at hlen
    simp only [List.length_append, List.length_replicate, List.length_cons, List.length_nil,
      hpre, haddr, hL] at hlen ⊢
    omega
  have hall := holdsAt_mid (via ++ ([SP] ++ (addr ++ ([x] ++ (flags ++ columns before ++
      List.replicate (gap + 1) SP ++ (target ++ [SP])))))) pre rest
  rw [← hre, hpre] at hall
  rw [holdsAt_append] at hall
  obtain ⟨hv, hall⟩ := hall
  rw [holdsAt_append] at hall
  obtain ⟨hsp, hall⟩ := hall
  rw [holdsAt_append] at hall
  obtain ⟨-, hall⟩ := hall
  rw [holdsAt_append] at hall
  obtain ⟨-, hall⟩ := hall
  simp only [List.length_cons, List.length_nil, haddr] at hall
  have hpos : 37 + via.length + (0 + 1) + 8 + (0 + 1) = 37 + via.length + 10 := by omega
  rw [hpos] at hall
  have hall2 := hall
  rw [holdsAt_append] at hall
  obtain ⟨hcols, htgt⟩ := hall
  have h1 : holdsAt rule 37 (via ++ [SP]) := by
    rw [holdsAt_append]; exact ⟨hv, hsp⟩
  have e1 := skipField_token rule (IPFWRULELEN - 12) via 37 IPFWRULELEN hvia h1 (by omega)
    (by omega)
  have h2 : holdsAt rule (37 + via.length + 10)
      (flags ++ columns before ++ List.replicate (gap + 1) SP ++ [c]) := by
    rw [holdsAt_append]
    refine ⟨hcols, ?_, trivial⟩
    rw [htc] at htgt
    exact htgt.1
  have e2 := skipColumns_columns rule before flags (37 + via.length + 10) gap c hflags hbefore hc
    h2 (by simp only [List.length_append] at hlen2 ⊢; omega)
  have hposT : (37 + via.length + 10 +
      (flags ++ columns before ++ List.replicate (gap + 1) SP).length)
      = 37 + via.length + 10 + (flags ++ columns before).length + gap + 1 := by
    simp only [List.length_append, List.length_replicate]; omega
  rw [hposT] at htgt
  have e3 := numericLoop_digits w rule target
    (37 + via.length + 10 + (flags ++ columns before).length + gap + 1) 0 IPFWRULELEN
    htarget.2 htgt (by omega) (by omega) hval
  simp only [getnumeric, e1, e2, Option.some_bind]
  exact e3

/-- The function `getflags` on a well-formed line: the value that the flags token spells,
when it has at most 8 uppercase hexadecimal digits and a space follows it. -/
theorem getflags_token (w : Nat) (hw : 32 ≤ w) (rule pre via mid digits rest : List Nat)
    (hrule : rule = pre ++ via ++ [SP] ++ mid ++ digits ++ [SP] ++ rest)
    (hlen : rule.length = IPFWRULELEN) (hpre : pre.length = 37) (hvia : SP ∉ via)
    (hmid : mid.length = 9)
    (hdigits : ∀ c ∈ digits, (48 ≤ c ∧ c ≤ 57) ∨ (65 ≤ c ∧ c ≤ 70))
    (hcount : 1 ≤ digits.length ∧ digits.length ≤ 8) :
    getflags w rule = some (hexValue digits) := by
  have hL : IPFWRULELEN = 200 := rfl
  have hre : rule = pre ++ (via ++ ([SP] ++ (mid ++ (digits ++ [SP])))) ++ rest := by
    rw [hrule]; simp only [List.append_assoc]
  have hlen2 : 37 + via.length + 1 + 9 + digits.length + 1 + rest.length = 200 := by
    rw [hrule] at hlen
    simp only [List.length_append, List.length_cons, List.length_nil, hpre, hmid, hL] at hlen ⊢
    omega
  have hall := holdsAt_mid (via ++ ([SP] ++ (mid ++ (digits ++ [SP])))) pre rest
  rw [← hre, hpre] at hall
  rw [holdsAt_append] at hall
  obtain ⟨hv, hall⟩ := hall
  rw [holdsAt_append] at hall
  obtain ⟨hsp, hall⟩ := hall
  rw [holdsAt_append] at hall
  obtain ⟨-, hall⟩ := hall
  simp only [List.length_cons, List.length_nil, hmid] at hall
  have hpos : 37 + via.length + (0 + 1) + 9 = 37 + via.length + 10 := by omega
  rw [hpos] at hall
  have h1 : holdsAt rule 37 (via ++ [SP]) := by
    rw [holdsAt_append]; exact ⟨hv, hsp⟩
  have e1 := skipField_token rule (IPFWRULELEN - 12) via 37 IPFWRULELEN hvia h1 (by omega)
    (by omega)
  have hlt : hexValue digits < 2 ^ w := by
    have h16 := foldl_hex_lt digits 0 0 hdigits (by norm_num)
    have hle : (16 : Nat) ^ (0 + digits.length) ≤ 16 ^ 8 :=
      Nat.pow_le_pow_right (by norm_num) (by omega)
    have hpow : (2 : Nat) ^ 32 ≤ 2 ^ w := Nat.pow_le_pow_right (by norm_num) hw
    have h168 : (16 : Nat) ^ 8 = 2 ^ 32 := by norm_num
    unfold hexValue
    omega
  have e2 := flagsLoop_digits w rule digits (37 + via.length + 10) 0 IPFWRULELEN hdigits hall
    (by omega) (by omega) hlt
  simp only [getflags, e1, Option.some_bind]
  exact e2


/-! ## C2 -/

/-- C2 (as stated, refuted): after `readrule(1)` has loaded the end-to-end
record, whose 14th decimal column `0` ends the line, `getnumeric(14)` goes on
over the newline and the NUL bytes after it and leaves 2863311536 in a 32-bit
`ret_val`, not the value 0 of the column; and a first column that spells
2 ^ 64 leaves 0 in a 32-bit and in a 64-bit `ret_val`. -/
theorem C2_last_column_counterexample :
    readrule (some (joinLines [bytes "IP accounting rules", specLine]))
      (List.replicate 200 0) 1 = some (lineBuffer specLine, 1) ∧
    getnumeric 32 (lineBuffer specLine) 14 = some 2863311536 ∧
    (2863311536 : Nat) ≠ decimalValue (bytes "0") ∧
    getnumeric 32 (lineBuffer wideLine) 1 = some 0 ∧
    getnumeric 64 (lineBuffer wideLine) 1 = some 0 ∧
    decimalValue (bytes "18446744073709551616") = 2 ^ 64 := by
  decide

/-- C2 (amended): on a buffer that holds 37 leading characters, a via name
without a space, one space, an 8-character via address, one character, a flags
token without a space and then columns that each follow a run of one or more
spaces, `getnumeric(skip)` for `skip >= 1` leaves in `ret_val` the decimal value
of the `skip`-th column after the flags token, whatever the length of the via
name, when that column is made of decimal digits, is followed by a space and
is below `2 ^ w` (`w` the width of `unsigned long`). -/
theorem C2_getnumeric_column (w : Nat) (rule pre via addr flags : List Nat) (x : Nat)
    (before : List (Nat × List Nat)) (gap : Nat) (target rest : List Nat) (skip : Nat)
    (hskip : skip = before.length + 1)
    (hrule : rule = pre ++ via ++ [SP] ++ addr ++ [x] ++ flags ++ columns before ++
      List.replicate (gap + 1) SP ++ target ++ [SP] ++ rest)
    (hlen : rule.length = IPFWRULELEN) (hpre : pre.length = 37) (hvia : SP ∉ via)
    (haddr : addr.length = 8) (hflags : SP ∉ flags)
    (hbefore : ∀ p ∈ before, p.2 ≠ [] ∧ SP ∉ p.2)
    (htarget : target ≠ [] ∧ ∀ c ∈ target, 48 ≤ c ∧ c ≤ 57)
    (hval : decimalValue target < 2 ^ w) :
    getnumeric w rule skip = some (decimalValue target) := by
  rw [hskip]
  exact getnumeric_columns w rule pre via addr flags x before gap target rest hrule hlen hpre
    hvia haddr hflags hbefore htarget hval

/-- C2 (amended) at the `/proc/net/ip_acct` line, whose 14th column `8080` is
followed by a space: `getnumeric(14)` leaves 8080. -/
theorem C2_getnumeric_column_witness :
    getnumeric 32 (lineBuffer procLine) 14 = some 8080 :=
  C2_getnumeric_column 32 (lineBuffer procLine)
    (bytes "0A000001/FFFFFF00->0A000002/FFFFFF00 ") (bytes "eth0") (bytes "0A0000FE")
    (bytes "1042") SP
    [(0, bytes "1"), (0, bytes "1"), (0, bytes "100"), (6, bytes "5000"), (5, bytes "80"),
     (0, bytes "0"), (0, bytes "0"), (0, bytes "0"), (0, bytes "0"), (0, bytes "0"),
     (0, bytes "0"), (0, bytes "0"), (0, bytes "0")]
    0 (bytes "8080") (bytes "A00 X00" ++ NL :: List.replicate 88 0) 14
    (by decide) (by decide) (by decide) (by decide) (by decide) (by decide) (by decide)
    (by decide) (by decide) (by decide)

/-! ## C7 -/

/-- C7: on a 200-byte buffer that holds 37 leading characters, a via name
without a space (so the first space at or after index 37 is at
`s = 37 + via.length`), a space, an 8-character via address, a space, and a
flags token of 1 to 8 uppercase hexadecimal digits followed by a space,
`getflags` returns the value that the flags token spells, most significant
digit first, whatever the length of the via name. -/
theorem C7_getflags_value (w : Nat) (hw : 32 ≤ w) (rule pre via addr digits rest : List Nat)
    (hrule : rule = pre ++ via ++ [SP] ++ addr ++ [SP] ++ digits ++ [SP] ++ rest)
    (hlen : rule.length = IPFWRULELEN) (hpre : pre.length = 37) (hvia : SP ∉ via)
    (haddr : addr.length = 8)
    (hdigits : ∀ c ∈ digits, (48 ≤ c ∧ c ≤ 57) ∨ (65 ≤ c ∧ c ≤ 70))
    (hcount : 1 ≤ digits.length ∧ digits.length ≤ 8) :
    getflags w rule = some (hexValue digits) ∧ 37 + via.length ≤ 188 := by
  refine ⟨getflags_token w hw rule pre via (addr ++ [SP]) digits rest
    (by rw [hrule]; simp only [List.append_assoc]) hlen hpre hvia (by simp [haddr]) hdigits
    hcount, ?_⟩
  rw [hrule] at hlen
  simp only [List.length_append, List.length_cons, List.length_nil, hpre, haddr,
    IPFWRULELEN] at hlen
  omega

/-- C7 at the end-to-end record: `getflags` returns 0x1042 and field PROTO
yields code 4. -/
theorem C7_getflags_value_witness :
    getflags 32 (lineBuffer specLine) = some 0x1042 ∧
    fieldSwitch 32 (lineBuffer specLine) 1 Magic.IPFWACCPROTO
      = some (lineBuffer specLine, Ret.RET_VAL 4) :=
  ⟨(C7_getflags_value 32 (by decide) (lineBuffer specLine)
      (bytes "0A000001 FFFFFF00 0A000002 FFFFFF00 e") (bytes "th0") (bytes "0A0000FE")
      (bytes "00001042")
      (bytes "100 5000 1 1 80 0 0 0 0 0 0 0 0 0" ++ NL :: List.replicate 107 0)
      (by decide) (by decide) (by decide) (by decide) (by decide) (by decide)
      (by decide)).1.trans (by decide),
    by decide⟩

/-! ## C8 -/

/-- C8: for every flags word `f` that `getflags` returns, field PROTO yields
the code chosen by the kind bits `f & 0x0003`: 2 for 0, 3 for 1, 4 for 2, 5
for 3, and 1 for any other value. -/
theorem C8_proto_code (w : Nat) (rule : List Nat) (index f : Nat)
    (hf : getflags w rule = some f) :
    fieldSwitch w rule index Magic.IPFWACCPROTO = some (rule, Ret.RET_VAL
      (if f &&& 0x0003 = 0 then 2 else if f &&& 0x0003 = 1 then 3
       else if f &&& 0x0003 = 2 then 4 else if f &&& 0x0003 = 3 then 5 else 1)) := by
  simp only [fieldSwitch, hf, Option.map_some', IP_FW_F_KIND, IP_FW_F_ALL, IP_FW_F_TCP,
    IP_FW_F_UDP, IP_FW_F_ICMP]
  split_ifs <;> rfl

/-- C8 at the end-to-end record, where `getflags` returns 0x1042: PROTO
yields 4. -/
theorem C8_proto_code_witness :
    getflags 32 (lineBuffer specLine) = some 0x1042 ∧
    fieldSwitch 32 (lineBuffer specLine) 1 Magic.IPFWACCPROTO
      = some (lineBuffer specLine, Ret.RET_VAL 4) :=
  ⟨by decide, C8_proto_code 32 (lineBuffer specLine) 1 0x1042 (by decide)⟩

/-! ## C9 -/

/-- C9 (as stated, refuted): with the end-to-end record loaded from buffer
index 0 with single spaces, the via name starts at index 36 and the string at
the pointer `rule + 37` that field VIANAME returns is `th0`, not `eth0`. -/
theorem C9_vianame_counterexample :
    (fieldSwitch 32 (lineBuffer specLine) 1 Magic.IPFWACCVIANAME).map
      (fun p => (cstring p.1 37, p.2)) = some (bytes "th0", Ret.RULE 37) ∧
    bytes "th0" ≠ bytes "eth0" := by
  decide

/-- C9 (amended): with the end-to-end record loaded from buffer index 0 with
single spaces, field VIANAME yields `th0`, the characters from index 37 up to
the first space; it yields `eth0` for the `/proc/net/ip_acct` line of the same
rule, where the name starts at index 37. -/
theorem C9_vianame_from_offset_37 :
    (fieldSwitch 32 (lineBuffer specLine) 1 Magic.IPFWACCVIANAME).map
      (fun p => (cstring p.1 37, p.2)) = some (bytes "th0", Ret.RULE 37) ∧
    (lineBuffer specLine).drop 36 = bytes "eth0 " ++ (lineBuffer specLine).drop 41 ∧
    (fieldSwitch 32 (lineBuffer procLine) 1 Magic.IPFWACCVIANAME).map
      (fun p => (cstring p.1 37, p.2)) = some (bytes "eth0", Ret.RULE 37) := by
  decide

/-! ## C10 -/

/-- C10 (as stated, refuted): on the end-to-end record, with the columns
100 5000 1 1 80 .. after the flags, field BYTES yields the fourth column, 1,
not 5000; so it does when the `...` of the record is kept as a token. -/
theorem C10_bytes_counterexample :
    fieldSwitch 32 (lineBuffer specLine) 1 Magic.IPFWACCBYTES
      = some (lineBuffer specLine, Ret.RET_VAL 1) ∧
    fieldSwitch 32 (lineBuffer specLineDots) 1 Magic.IPFWACCBYTES
      = some (lineBuffer specLineDots, Ret.RET_VAL 1) := by
  decide

/-- C10 (amended): field BYTES (`getnumeric(4)`) yields the decimal value of
the fourth column after the flags token, when that column is followed by a
space and is below `2 ^ w`: the BYTES column of a line whose columns are in the
order NSRCPORTS, NDSTPORTS, PACKETS, BYTES, PORT1..PORT10. -/
theorem C10_bytes_fourth_column (w : Nat) (rule pre via addr flags : List Nat) (x : Nat)
    (before : List (Nat × List Nat)) (gap : Nat) (target rest : List Nat) (index : Nat)
    (hthree : before.length = 3)
    (hrule : rule = pre ++ via ++ [SP] ++ addr ++ [x] ++ flags ++ columns before ++
      List.replicate (gap + 1) SP ++ target ++ [SP] ++ rest)
    (hlen : rule.length = IPFWRULELEN) (hpre : pre.length = 37) (hvia : SP ∉ via)
    (haddr : addr.length = 8) (hflags : SP ∉ flags)
    (hbefore : ∀ p ∈ before, p.2 ≠ [] ∧ SP ∉ p.2)
    (htarget : target ≠ [] ∧ ∀ c ∈ target, 48 ≤ c ∧ c ≤ 57)
    (hval : decimalValue target < 2 ^ w) :
    fieldSwitch w rule index Magic.IPFWACCBYTES
      = some (rule, Ret.RET_VAL (decimalValue target)) := by
  have h := getnumeric_columns w rule pre via addr flags x before gap target rest hrule hlen
    hpre hvia haddr hflags hbefore htarget hval
  rw [hthree] at h
  simp only [fieldSwitch, h, Option.map_some']

/-- C10 (amended) at the `/proc/net/ip_acct` line with the columns 1 1 100
5000 after the flags, and at the end-to-end record with the columns 100 5000
1 1: BYTES yields 5000 and 1. -/
theorem C10_bytes_fourth_column_witness :
    fieldSwitch 32 (lineBuffer procLine) 1 Magic.IPFWACCBYTES
      = some (lineBuffer procLine, Ret.RET_VAL 5000) ∧
    fieldSwitch 32 (lineBuffer specLine) 1 Magic.IPFWACCBYTES
      = some (lineBuffer specLine, Ret.RET_VAL 1) :=
  ⟨(C10_bytes_fourth_column 32 (lineBuffer procLine)
      (bytes "0A000001/FFFFFF00->0A000002/FFFFFF00 ") (bytes "eth0") (bytes "0A0000FE")
      (bytes "1042") SP [(0, bytes "1"), (0, bytes "1"), (0, bytes "100")] 6 (bytes "5000")
      (bytes "     80 0 0 0 0 0 0 0 0 8080 A00 X00" ++ NL :: List.replicate 88 0) 1
      (by decide) (by decide) (by decide) (by decide) (by decide) (by decide) (by decide)
      (by decide) (by decide) (by decide)).trans (by decide),
    (C10_bytes_fourth_column 32 (lineBuffer specLine)
      (bytes "0A000001 FFFFFF00 0A000002 FFFFFF00 e") (bytes "th0") (bytes "0A0000FE")
      (bytes "00001042") SP [(0, bytes "100"), (0, bytes "5000"), (0, bytes "1")] 0 (bytes "1")
      (bytes "80 0 0 0 0 0 0 0 0 0" ++ NL :: List.replicate 107 0) 1
      (by decide) (by decide) (by decide) (by decide) (by decide) (by decide) (by decide)
      (by decide) (by decide) (by decide)).trans (by decide)⟩

/-! ## Bits of the flags word -/

theorem and_shiftLeft_mask (f m k : Nat) : f &&& (m <<< k) = ((f >>> k) &&& m) <<< k := by
  apply Nat.eq_of_testBit_eq
  intro i
  simp only [Nat.testBit_and, Nat.testBit_shiftLeft, Nat.testBit_shiftRight]
  by_cases h : k ≤ i
  · have e : k + (i - k) = i := by omega
    simp [h, e]
  · simp [h]

theorem and_two_pow_ne_zero (f k : Nat) : f &&& (2 ^ k) ≠ 0 ↔ f.testBit k = true := by
  have h := and_shiftLeft_mask f 1 k
  rw [Nat.shiftLeft_eq, Nat.one_mul, Nat.and_one_is_mod, Nat.shiftLeft_eq] at h
  rw [h, Nat.testBit_to_div_mod, Nat.shiftRight_eq_div_pow]
  rcases Nat.mod_two_eq_zero_or_one (f / 2 ^ k) with h2 | h2
  · simp [h2]
  · simp [h2]

theorem and_acct_cases (f : Nat) :
    f &&& 0x3000 = 0 ∨ f &&& 0x3000 = 0x1000 ∨ f &&& 0x3000 = 0x2000 ∨ f &&& 0x3000 = 0x3000 := by
  have h := and_shiftLeft_mask f 3 12
  have h3 : (f >>> 12) &&& 3 = (f >>> 12) % 4 := Nat.and_pow_two_sub_one_eq_mod (f >>> 12) 2
  have e : (3 : Nat) <<< 12 = 0x3000 := by decide
  rw [e, h3, Nat.shiftLeft_eq] at h
  have : (f >>> 12) % 4 < 4 := Nat.mod_lt _ (by decide)
  omega

/-! ## C14 -/

/-- C14: for every flags word `f` that `getflags` returns, field DIR yields a
code that is 2 exactly when `f & 0x3000 = 0x1000`, 3 exactly when
`f & 0x3000 = 0x2000`, and 1 exactly in the two remaining cases, both bits set
or neither. -/
theorem C14_dir_code (w : Nat) (rule : List Nat) (index f : Nat)
    (hf : getflags w rule = some f) :
    ∃ code, fieldSwitch w rule index Magic.IPFWACCDIR = some (rule, Ret.RET_VAL code) ∧
      (code = 2 ↔ f &&& 0x3000 = 0x1000) ∧
      (code = 3 ↔ f &&& 0x3000 = 0x2000) ∧
      (code = 1 ↔ (f &&& 0x3000 = 0x3000 ∨ f &&& 0x3000 = 0)) := by
  have e : IP_FW_F_ACCTIN ||| IP_FW_F_ACCTOUT = 0x3000 := by decide
  simp only [fieldSwitch, hf, Option.map_some', e, IP_FW_F_ACCTIN, IP_FW_F_ACCTOUT]
  rcases and_acct_cases f with h | h | h | h <;> simp [h]

/-- C14 at the end-to-end record, where `getflags` returns 0x1042: DIR yields
2. -/
theorem C14_dir_code_witness :
    getflags 32 (lineBuffer specLine) = some 0x1042 ∧
    fieldSwitch 32 (lineBuffer specLine) 1 Magic.IPFWACCDIR
      = some (lineBuffer specLine, Ret.RET_VAL 2) ∧
    ∃ code, fieldSwitch 32 (lineBuffer specLine) 1 Magic.IPFWACCDIR
        = some (lineBuffer specLine, Ret.RET_VAL code) ∧
      (code = 2 ↔ 0x1042 &&& 0x3000 = 0x1000) ∧
      (code = 3 ↔ 0x1042 &&& 0x3000 = 0x2000) ∧
      (code = 1 ↔ (0x1042 &&& 0x3000 = 0x3000 ∨ 0x1042 &&& 0x3000 = 0)) :=
  ⟨by decide, by decide, C14_dir_code 32 (lineBuffer specLine) 1 0x1042 (by decide)⟩

/-! ## C17 -/

/-- C17: for every flags word `f` that `getflags` returns, field BIDIR yields 2
when bit 0x0040 (bit 6) of `f` is set and 1 otherwise, field SRCISRNG yields 1
when bit 0x0008 (bit 3) is set and 2 otherwise, and field DSTISRNG yields 1
when bit 0x0010 (bit 4) is set and 2 otherwise: each result is a function of
that one bit. -/
theorem C17_flag_bits (w : Nat) (rule : List Nat) (index f : Nat)
    (hf : getflags w rule = some f) :
    fieldSwitch w rule index Magic.IPFWACCBIDIR
      = some (rule, Ret.RET_VAL (if f.testBit 6 then 2 else 1)) ∧
    fieldSwitch w rule index Magic.IPFWACCSRCISRNG
      = some (rule, Ret.RET_VAL (if f.testBit 3 then 1 else 2)) ∧
    fieldSwitch w rule index Magic.IPFWACCDSTISRNG
      = some (rule, Ret.RET_VAL (if f.testBit 4 then 1 else 2)) ∧
    (f.testBit 6 = true ↔ f &&& 0x0040 = 0x0040) ∧
    (f.testBit 3 = true ↔ f &&& 0x0008 = 0x0008) ∧
    (f.testBit 4 = true ↔ f &&& 0x0010 = 0x0010) := by
  have h6 := and_two_pow_ne_zero f 6
  have h3 := and_two_pow_ne_zero f 3
  have h4 := and_two_pow_ne_zero f 4
  have c6 := and_shiftLeft_mask f 1 6
  have c3 := and_shiftLeft_mask f 1 3
  have c4 := and_shiftLeft_mask f 1 4
  rw [Nat.shiftLeft_eq, Nat.one_mul, Nat.and_one_is_mod, Nat.shiftLeft_eq] at c6 c3 c4
  have m6 := Nat.mod_two_eq_zero_or_one (f >>> 6)
  have m3 := Nat.mod_two_eq_zero_or_one (f >>> 3)
  have m4 := Nat.mod_two_eq_zero_or_one (f >>> 4)
  norm_num at h6 h3 h4 c6 c3 c4
  refine ⟨?_, ?_, ?_, ?_, ?_, ?_⟩
  · simp only [fieldSwitch, hf, Option.map_some', IP_FW_F_BIDIR]
    by_cases hb : f.testBit 6 = true
    · simp [hb, h6.2 hb]
    · have : f &&& 64 = 0 := by by_contra hne; exact hb (h6.1 hne)
      simp [hb, this]
  · simp only [fieldSwitch, hf, Option.map_some', IP_FW_F_SRNG]
    by_cases hb : f.testBit 3 = true
    · simp [hb, h3.2 hb]
    · have : f &&& 8 = 0 := by by_contra hne; exact hb (h3.1 hne)
      simp [hb, this]
  · simp only [fieldSwitch, hf, Option.map_some', IP_FW_F_DRNG]
    by_cases hb : f.testBit 4 = true
    · simp [hb, h4.2 hb]
    · have : f &&& 16 = 0 := by by_contra hne; exact hb (h4.1 hne)
      simp [hb, this]
  · rw [← h6]; omega
  · rw [← h3]; omega
  · rw [← h4]; omega

/-- C17 at the end-to-end record, where `getflags` returns 0x1042: BIDIR
yields 2, SRCISRNG 2 and DSTISRNG 2. -/
theorem C17_flag_bits_witness :
    getflags 32 (lineBuffer specLine) = some 0x1042 ∧
    fieldSwitch 32 (lineBuffer specLine) 1 Magic.IPFWACCBIDIR
      = some (lineBuffer specLine, Ret.RET_VAL 2) ∧
    fieldSwitch 32 (lineBuffer specLine) 1 Magic.IPFWACCSRCISRNG
      = some (lineBuffer specLine, Ret.RET_VAL 2) ∧
    fieldSwitch 32 (lineBuffer specLine) 1 Magic.IPFWACCDSTISRNG
      = some (lineBuffer specLine, Ret.RET_VAL 2) :=
  ⟨by decide,
    (C17_flag_bits 32 (lineBuffer specLine) 1 0x1042 (by decide)).1.trans (by decide),
    (C17_flag_bits 32 (lineBuffer specLine) 1 0x1042 (by decide)).2.1.trans (by decide),
    (C17_flag_bits 32 (lineBuffer specLine) 1 0x1042 (by decide)).2.2.1.trans (by decide)⟩

/-! ## C18 -/

theorem byte_of_upper (w : Nat) (hw : 32 ≤ w) (a b : Nat)
    (ha : (48 ≤ a ∧ a ≤ 57) ∨ (65 ≤ a ∧ a ≤ 70))
    (hb : (48 ≤ b ∧ b ≤ 57) ∨ (65 ≤ b ∧ b ≤ 70)) :
    toULong w (((toULong w (hexdigit a) <<< 4 : Nat) : Int) + hexdigit b)
      = 16 * hexDigitValue a + hexDigitValue b := by
  have hpow : (2 : Nat) ^ 32 ≤ 2 ^ w := Nat.pow_le_pow_right (by omega) hw
  have h1 := hexdigit_upper a ha
  have h2 := hexdigit_upper b hb
  rw [h1.1, h2.1, toULong_of_lt w _ (by omega), Nat.shiftLeft_eq]
  have e : (((hexDigitValue a * 2 ^ 4 : Nat) : Int) + (hexDigitValue b : Int))
      = ((16 * hexDigitValue a + hexDigitValue b : Nat) : Int) := by
    push_cast; ring
  rw [e, toULong_of_lt w _ (by omega)]

/-- C18: for every position `pos` and every 8 uppercase hexadecimal digits
`h0..h7` that stand at `pos..pos+7`, `atoip(pos)` leaves in `ret_val` the sum
over `k = 0..3` of `(16 * val h[2k] + val h[2k+1]) * 256 ^ k`: the number the
digits spell with its four bytes reversed, a value below `2 ^ 32`. -/
theorem C18_atoip_digit_pairs (w : Nat) (hw : 32 ≤ w) (pre post : List Nat)
    (h0 h1 h2 h3 h4 h5 h6 h7 : Nat)
    (hdigits : ∀ c ∈ [h0, h1, h2, h3, h4, h5, h6, h7],
      (48 ≤ c ∧ c ≤ 57) ∨ (65 ≤ c ∧ c ≤ 70)) :
    atoip w (pre ++ [h0, h1, h2, h3, h4, h5, h6, h7] ++ post) pre.length
      = some ((16 * hexDigitValue h0 + hexDigitValue h1)
        + (16 * hexDigitValue h2 + hexDigitValue h3) * 256
        + (16 * hexDigitValue h4 + hexDigitValue h5) * 256 ^ 2
        + (16 * hexDigitValue h6 + hexDigitValue h7) * 256 ^ 3) ∧
    (16 * hexDigitValue h0 + hexDigitValue h1)
        + (16 * hexDigitValue h2 + hexDigitValue h3) * 256
        + (16 * hexDigitValue h4 + hexDigitValue h5) * 256 ^ 2
        + (16 * hexDigitValue h6 + hexDigitValue h7) * 256 ^ 3
      = byteReverse (hexValue [h0, h1, h2, h3, h4, h5, h6, h7]) ∧
    byteReverse (hexValue [h0, h1, h2, h3, h4, h5, h6, h7]) < 2 ^ 32 := by
  have hpow : (2 : Nat) ^ 32 ≤ 2 ^ w := Nat.pow_le_pow_right (by omega) hw
  have d0 := hdigits h0 (by simp)
  have d1 := hdigits h1 (by simp)
  have d2 := hdigits h2 (by simp)
  have d3 := hdigits h3 (by simp)
  have d4 := hdigits h4 (by simp)
  have d5 := hdigits h5 (by simp)
  have d6 := hdigits h6 (by simp)
  have d7 := hdigits h7 (by simp)
  have v0 := (hexdigit_upper h0 d0).2
  have v1 := (hexdigit_upper h1 d1).2
  have v2 := (hexdigit_upper h2 d2).2
  have v3 := (hexdigit_upper h3 d3).2
  have v4 := (hexdigit_upper h4 d4).2
  have v5 := (hexdigit_upper h5 d5).2
  have v6 := (hexdigit_upper h6 d6).2
  have v7 := (hexdigit_upper h7 d7).2
  have hall := holdsAt_mid [h0, h1, h2, h3, h4, h5, h6, h7] pre post
  obtain ⟨g0, g1, g2, g3, g4, g5, g6, g7, -⟩ := hall
  have hsum : (16 * hexDigitValue h0 + hexDigitValue h1)
        + (16 * hexDigitValue h2 + hexDigitValue h3) * 256
        + (16 * hexDigitValue h4 + hexDigitValue h5) * 256 ^ 2
        + (16 * hexDigitValue h6 + hexDigitValue h7) * 256 ^ 3
      = byteReverse (hexValue [h0, h1, h2, h3, h4, h5, h6, h7]) := by
    simp only [hexValue, byteReverse, List.foldl_cons, List.foldl_nil]
    generalize hexDigitValue h0 = a0 at v0 ⊢
    generalize hexDigitValue h1 = a1 at v1 ⊢
    generalize hexDigitValue h2 = a2 at v2 ⊢
    generalize hexDigitValue h3 = a3 at v3 ⊢
    generalize hexDigitValue h4 = a4 at v4 ⊢
    generalize hexDigitValue h5 = a5 at v5 ⊢
    generalize hexDigitValue h6 = a6 at v6 ⊢
    generalize hexDigitValue h7 = a7 at v7 ⊢
    omega
  refine ⟨?_, hsum, ?_⟩
  · rw [atoip_of_getElem w _ pre.length h0 h1 h2 h3 h4 h5 h6 h7 g0 g1 g2 g3 g4 g5 g6 g7,
      byte_of_upper w hw h0 h1 d0 d1, byte_of_upper w hw h2 h3 d2 d3,
      byte_of_upper w hw h4 h5 d4 d5, byte_of_upper w hw h6 h7 d6 d7,
      pack_bytes w hpow _ _ _ _ (by omega) (by omega) (by omega) (by omega)]
    congr 1
  · rw [← hsum]
    omega

/-- C18 at the digits `0A000001` at position 0 of a buffer of 200 bytes:
`ret_val` is 0x0100000A. -/
theorem C18_atoip_digit_pairs_witness :
    atoip 32 (bytes "0A000001" ++ List.replicate 192 0) 0 = some 0x0100000A :=
  (C18_atoip_digit_pairs 32 (by decide) [] (List.replicate 192 0) 48 65 48 48 48 48 48 49
    (by decide)).1.trans (by decide)

/-! ## Single steps of the scans -/

theorem skipField_stop (rule : List Nat) (bound fuel i c : Nat) (h : rule[i]? = some c)
    (hc : ¬ (c ≠ SP ∧ i < bound)) : skipField rule bound fuel i = some i := by
  cases fuel <;> simp only [skipField, h, Option.some_bind, if_neg hc]

theorem skipSpaces_stop (rule : List Nat) (bound fuel i c : Nat) (h : rule[i]? = some c)
    (hc : ¬ (c = SP ∧ i < bound)) : skipSpaces rule bound fuel i = some i := by
  cases fuel <;> simp only [skipSpaces, h, Option.some_bind, if_neg hc]

theorem flagsLoop_stop (w : Nat) (rule : List Nat) (fuel i c flags : Nat)
    (h : rule[i]? = some c) (hc : ¬ (c ≠ SP ∧ i < IPFWRULELEN - 1)) :
    flagsLoop w rule fuel i flags = some flags := by
  cases fuel <;> simp only [flagsLoop, h, Option.some_bind, if_neg hc]

theorem flagsLoop_step (w : Nat) (rule : List Nat) (fuel i c flags : Nat)
    (h : rule[i]? = some c) (hc : c ≠ SP ∧ i < IPFWRULELEN - 1) :
    flagsLoop w rule (fuel + 1) i flags
      = flagsLoop w rule fuel (i + 1) (toULong w (((flags <<< 4 : Nat) : Int) + hexdigit c)) := by
  simp only [flagsLoop, h, Option.some_bind, if_pos hc]

theorem numericLoop_stop (w : Nat) (rule : List Nat) (fuel i c ret_val : Nat)
    (h : rule[i]? = some c) (hc : ¬ (c ≠ SP ∧ i < IPFWRULELEN - 1)) :
    numericLoop w rule fuel i ret_val = some ret_val := by
  cases fuel <;> simp only [numericLoop, h, Option.some_bind, if_neg hc]

theorem numericLoop_step (w : Nat) (rule : List Nat) (fuel i c ret_val : Nat)
    (h : rule[i]? = some c) (hc : c ≠ SP ∧ i < IPFWRULELEN - 1) :
    numericLoop w rule (fuel + 1) i ret_val
      = numericLoop w rule fuel (i + 1) (toULong w ((ret_val : Int) * 10 + (c : Int) - 48)) := by
  simp only [numericLoop, h, Option.some_bind, if_pos hc]

/-- The scan `while (rule[i] != ' ' && i < bound) i++;` ends at the first
space at or after `i`, or at the bound. -/
theorem skipField_first_space (rule : List Nat) (bound : Nat) :
    ∀ (fuel i : Nat), i < rule.length → bound < rule.length → bound < fuel + i →
      ∃ j, skipField rule bound fuel i = some j ∧ i ≤ j ∧ (j ≤ bound ∨ j = i) ∧
        (∀ k, i ≤ k → k < j → rule[k]? ≠ some SP) ∧ (j < bound → rule[j]? = some SP) := by
  intro fuel
  induction fuel with
  | zero =>
    intro i hi _ hf
    refine ⟨i, skipField_stop rule bound 0 i rule[i] (List.getElem?_eq_getElem hi) (by omega),
      le_refl i, Or.inr rfl, fun k h1 h2 => by omega, fun h => by omega⟩
  | succ fuel ih =>
    intro i hi hb hf
    by_cases hc : rule[i] ≠ SP ∧ i < bound
    · obtain ⟨j, hj, h1, h2, h3, h4⟩ := ih (i + 1) (by omega) hb (by omega)
      refine ⟨j, ?_, by omega, by omega, ?_, h4⟩
      · simp only [skipField, List.getElem?_eq_getElem hi, Option.some_bind, if_pos hc, hj]
      · intro k hk1 hk2
        by_cases hki : k = i
        · subst hki
          rw [List.getElem?_eq_getElem hi]
          intro e
          exact hc.1 (Option.some.inj e)
        · exact h3 k (by omega) hk2
    · refine ⟨i, skipField_stop rule bound _ i rule[i] (List.getElem?_eq_getElem hi) hc,
        le_refl i, Or.inr rfl, fun k h1 h2 => by omega, ?_⟩
      intro hlt
      rw [List.getElem?_eq_getElem hi]
      by_contra hne
      exact hc ⟨fun e => hne (by rw [e]), hlt⟩

/-! ## C16 -/

theorem skipColumns_at_bound (rule : List Nat) (c : Nat)
    (h : rule[IPFWRULELEN - 2]? = some c) (hc : c ≠ SP) :
    ∀ skip, skipColumns rule skip (IPFWRULELEN - 2) = some (IPFWRULELEN - 2) := by
  intro skip
  induction skip with
  | zero => rfl
  | succ skip ih =>
    rw [skipColumns, skipField_stop rule _ _ _ c h (by omega)]
    simp only [Option.some_bind]
    rw [skipSpaces_stop rule _ _ _ c h (fun hh => hc hh.1)]
    simp only [Option.some_bind]
    exact ih

/-- C16: for every 200-byte buffer that has no space at any index in 37..199
and every skip count, both scans end at the bound: `getflags` returns the value
of the hexadecimal-digit expression for the single byte at index 198 and
`getnumeric(skip)` leaves `(byte at index 198) - '0'` in `ret_val`, in
`unsigned long` arithmetic; these are the digit values when the byte is a
digit.  No other byte and not the skip count enters the result. -/
theorem C16_scans_end_at_bound (w : Nat) (rule : List Nat) (skip c : Nat)
    (hlen : rule.length = IPFWRULELEN)
    (hnospace : ∀ k, 37 ≤ k → k < IPFWRULELEN → rule[k]? ≠ some SP)
    (hc : rule[198]? = some c) :
    getflags w rule = some (toULong w (hexdigit c)) ∧
    getnumeric w rule skip = some (toULong w ((c : Int) - 48)) ∧
    (32 ≤ w → ((48 ≤ c ∧ c ≤ 57) ∨ (65 ≤ c ∧ c ≤ 70)) →
      toULong w (hexdigit c) = hexDigitValue c) ∧
    (32 ≤ w → 48 ≤ c → c ≤ 57 → toULong w ((c : Int) - 48) = c - 48) := by
  have hL : IPFWRULELEN = 200 := rfl
  have hcsp : c ≠ SP := fun e => hnospace 198 (by omega) (by omega) (by rw [hc, e])
  obtain ⟨j, hj, _, h2, _, h4⟩ := skipField_first_space rule (IPFWRULELEN - 12) IPFWRULELEN 37
    (by omega) (by omega) (by omega)
  have hj188 : j = 188 := by
    by_contra hne
    have hlt : j < IPFWRULELEN - 12 := by omega
    exact hnospace j (by omega) (by omega) (h4 hlt)
  subst hj188
  have h199 : rule[199]? = some rule[199] := List.getElem?_eq_getElem (by omega)
  have hfuel : IPFWRULELEN = 198 + 1 + 1 := rfl
  refine ⟨?_, ?_, ?_, ?_⟩
  · simp only [getflags, hj, Option.some_bind]
    rw [hfuel, flagsLoop_step w rule _ 198 c 0 hc ⟨hcsp, by omega⟩,
      flagsLoop_stop w rule _ 199 _ _ h199 (by omega)]
    simp
  · simp only [getnumeric, hj, Option.some_bind]
    have hsk := skipColumns_at_bound rule c hc hcsp skip
    rw [show 188 + 10 = IPFWRULELEN - 2 from rfl, hsk]
    simp only [Option.some_bind]
    rw [hfuel, numericLoop_step w rule _ 198 c 0 hc ⟨hcsp, by omega⟩,
      numericLoop_stop w rule _ 199 _ _ h199 (by omega)]
    simp
  · intro hw hd
    have hpow : (2 : Nat) ^ 32 ≤ 2 ^ w := Nat.pow_le_pow_right (by omega) hw
    have h := hexdigit_upper c hd
    rw [h.1]
    exact toULong_of_lt w _ (by omega)
  · intro hw h1 h2
    have hpow : (2 : Nat) ^ 32 ≤ 2 ^ w := Nat.pow_le_pow_right (by omega) hw
    have e : ((c : Int) - 48) = ((c - 48 : Nat) : Int) := by omega
    rw [e]
    exact toULong_of_lt w _ (by omega)

/-- C16 at a buffer of 200 digits `7`: `getflags` returns 7 and
`getnumeric(14)` leaves 7. -/
theorem C16_scans_end_at_bound_witness :
    getflags 32 (List.replicate 200 55) = some 7 ∧
    getnumeric 32 (List.replicate 200 55) 14 = some 7 :=
  ⟨(C16_scans_end_at_bound 32 (List.replicate 200 55) 14 55 (by decide) (by decide)
      (by decide)).1.trans (by decide),
    (C16_scans_end_at_bound 32 (List.replicate 200 55) 14 55 (by decide) (by decide)
      (by decide)).2.1.trans (by decide)⟩

/-! ## C15 -/

theorem takeWhile_set_zero_length : ∀ (l : List Nat) (j : Nat), j < l.length →
    ((l.set j 0).takeWhile fun c => c ≠ 0).length ≤ j := by
  intro l
  induction l with
  | nil => intro j h; simp at h
  | cons a t ih =>
    intro j h
    cases j with
    | zero => simp [List.takeWhile]
    | succ j =>
      have := ih j (by simpa using h)
      rw [List.set_cons_succ, List.takeWhile_cons]
      split
      · simp only [List.length_cons]; omega
      · simp only [List.length_nil]; omega

theorem takeWhile_set_zero_eq : ∀ (l : List Nat) (j : Nat), j < l.length →
    (∀ k, k < j → l[k]? ≠ some 0) →
    ((l.set j 0).takeWhile fun c => c ≠ 0) = l.take j := by
  intro l
  induction l with
  | nil => intro j h; simp at h
  | cons a t ih =>
    intro j h hnz
    cases j with
    | zero => simp [List.takeWhile]
    | succ j =>
      have ha : a ≠ 0 := fun e => hnz 0 (by omega) (by simp [e])
      have := ih j (by simpa using h) (fun k hk => by
        have := hnz (k + 1) (by omega)
        simpa using this)
      rw [List.set_cons_succ, List.takeWhile_cons, List.take_succ_cons, this]
      have hda : decide (a ≠ 0) = true := decide_eq_true ha
      simp only [hda, if_true]

/-- C15: for every content of the 200-byte buffer, field VIANAME ends its scan
at the first space at an index from 37 on, or at index 199 when there is no
space in 37..198, writes a NUL there and returns `rule + 37`: the string
returned has at most 162 bytes, and when no NUL precedes the end of the scan
it is the bytes from index 37 up to, not including, that index. -/
theorem C15_vianame_scan (w : Nat) (rule : List Nat) (index : Nat)
    (hlen : rule.length = IPFWRULELEN) :
    ∃ i, 37 ≤ i ∧ i ≤ 199 ∧
      fieldSwitch w rule index Magic.IPFWACCVIANAME = some (rule.set i 0, Ret.RULE 37) ∧
      (∀ k, 37 ≤ k → k < i → rule[k]? ≠ some SP) ∧
      (i < 199 → rule[i]? = some SP) ∧
      (rule.set i 0)[i]? = some 0 ∧
      (cstring (rule.set i 0) 37).length ≤ i - 37 ∧
      (cstring (rule.set i 0) 37).length ≤ 162 ∧
      ((∀ k, 37 ≤ k → k < i → rule[k]? ≠ some 0) →
        cstring (rule.set i 0) 37 = (rule.drop 37).take (i - 37)) := by
  have hL : IPFWRULELEN = 200 := rfl
  obtain ⟨i, hi, h1, h2, h3, h4⟩ := skipField_first_space rule (IPFWRULELEN - 1) IPFWRULELEN 37
    (by omega) (by omega) (by omega)
  have hi199 : i ≤ 199 := by omega
  have hilt : i < rule.length := by omega
  have hdrop : (rule.set i 0).drop 37 = (rule.drop 37).set (i - 37) 0 := by
    rw [List.drop_set, if_neg (by omega)]
  have hjlt : i - 37 < (rule.drop 37).length := by simp; omega
  have hlen1 := takeWhile_set_zero_length (rule.drop 37) (i - 37) hjlt
  refine ⟨i, h1, hi199, ?_, h3, fun h => h4 (by omega), ?_, ?_, ?_, ?_⟩
  · simp only [fieldSwitch, hi, Option.some_bind, if_pos hilt]
  · simp [List.getElem?_set, hilt]
  · unfold cstring
    rw [hdrop]
    exact hlen1
  · unfold cstring
    rw [hdrop]
    omega
  · intro hnz
    unfold cstring
    rw [hdrop]
    apply takeWhile_set_zero_eq _ _ hjlt
    intro k hk
    have := hnz (37 + k) (by omega) (by omega)
    simpa [List.getElem?_drop] using this

/-- C15 at the `/proc/net/ip_acct` line and at a buffer without any space:
VIANAME yields `eth0`, and a string of 162 bytes that ends at index 199. -/
theorem C15_vianame_scan_witness :
    (fieldSwitch 32 (lineBuffer procLine) 1 Magic.IPFWACCVIANAME).map
      (fun p => cstring p.1 37) = some (bytes "eth0") ∧
    (fieldSwitch 32 (List.replicate 200 65) 1 Magic.IPFWACCVIANAME).map
      (fun p => cstring p.1 37) = some (List.replicate 162 65) ∧
    ∃ i, 37 ≤ i ∧ i ≤ 199 ∧
      fieldSwitch 32 (lineBuffer procLine) 1 Magic.IPFWACCVIANAME
        = some ((lineBuffer procLine).set i 0, Ret.RULE 37) ∧
      (∀ k, 37 ≤ k → k < i → (lineBuffer procLine)[k]? ≠ some SP) ∧
      (i < 199 → (lineBuffer procLine)[i]? = some SP) ∧
      ((lineBuffer procLine).set i 0)[i]? = some 0 ∧
      (cstring ((lineBuffer procLine).set i 0) 37).length ≤ i - 37 ∧
      (cstring ((lineBuffer procLine).set i 0) 37).length ≤ 162 ∧
      ((∀ k, 37 ≤ k → k < i → (lineBuffer procLine)[k]? ≠ some 0) →
        cstring ((lineBuffer procLine).set i 0) 37 = ((lineBuffer procLine).drop 37).take (i - 37)) :=
  ⟨by decide, by decide, C15_vianame_scan 32 (lineBuffer procLine) 1 (by decide)⟩

/-! ## Pieces of the source, for lines of any length -/

theorem fgetsChars_eq_append : ∀ (s : List Nat) (room : Nat),
    s = (fgetsChars room s).1 ++ (fgetsChars room s).2 ∧ (fgetsChars room s).1.length ≤ room := by
  intro s
  induction s with
  | nil => intro room; simp [fgetsChars_nil]
  | cons c t ih =>
    intro room
    cases room with
    | zero => simp [fgetsChars]
    | succ r =>
      by_cases hc : c = NL
      · simp [fgetsChars, hc]
      · have := ih r
        simp only [fgetsChars, if_neg hc, List.cons_append, List.length_cons]
        exact ⟨by rw [← this.1], by omega⟩

theorem readsAs_length : ∀ (ps : List (List Nat)) (s : List Nat),
    readsAs s ps → ps.length ≤ s.length := by
  intro ps
  induction ps with
  | nil => intro s _; simp
  | cons P ps ih =>
    intro s h
    obtain ⟨hne, s', h1, h2⟩ := h
    have h3 := (fgetsChars_eq_append s (IPFWRULELEN - 1)).1
    rw [h1] at h3
    have h4 := ih s' h2
    have h5 : 1 ≤ P.length := by
      cases P with
      | nil => exact absurd rfl hne
      | cons a b => simp
    rw [h3]
    simp only [List.length_append, List.length_cons]
    omega

theorem fgets_readsAs (rule s P : List Nat) (ps : List (List Nat))
    (h : readsAs s (P :: ps)) :
    ∃ s', fgets rule IPFWRULELEN s = some (P ++ [0] ++ rule.drop (P.length + 1), s') ∧
      readsAs s' ps ∧ P.length ≤ IPFWRULELEN - 1 := by
  obtain ⟨hne, s', h1, h2⟩ := h
  have h3 := (fgetsChars_eq_append s (IPFWRULELEN - 1)).2
  rw [h1] at h3
  obtain ⟨c, l, rfl⟩ := List.exists_cons_of_ne_nil hne
  exact ⟨s', by simp only [fgets, h1], h2, h3⟩

theorem fgets_length (rule P : List Nat) (hP : P.length ≤ IPFWRULELEN - 1)
    (hlen : rule.length = IPFWRULELEN) :
    (P ++ [0] ++ rule.drop (P.length + 1)).length = IPFWRULELEN := by
  simp [IPFWRULELEN] at hP hlen ⊢
  omega

theorem readruleLoop_pieces_count :
    ∀ (ps : List (List Nat)) (s : List Nat) (fuel i : Nat) (rule : List Nat),
      readsAs s ps → ps.length < fuel → 1 ≤ i →
      ∃ rule', readruleLoop 0 fuel i rule s = some (rule', i - 1 + ps.length) ∧
        (rule.length = IPFWRULELEN → rule'.length = IPFWRULELEN) ∧
        (ps = [] → rule' = rule) ∧
        (∀ P, ps.getLast? = some P → ∃ rest, rule' = P ++ [0] ++ rest) := by
  intro ps
  induction ps with
  | nil =>
    intro s fuel i rule hs hf hi
    have hs' : s = [] := hs
    subst hs'
    cases fuel with
    | zero => simp at hf
    | succ f =>
      have hi0 : i ≠ 0 := by omega
      exact ⟨rule, by simp [readruleLoop, hi0, fgets_nil], fun h => h, fun _ => rfl,
        fun P hP => by simp at hP⟩
  | cons P ps ih =>
    intro s fuel i rule hs hf hi
    cases fuel with
    | zero => simp at hf
    | succ f =>
      have hi0 : i ≠ 0 := by omega
      obtain ⟨s', h1, h2, hPl⟩ := fgets_readsAs rule s P ps hs
      obtain ⟨rule', h3, h4, h5, h6⟩ := ih s' f (i + 1) (P ++ [0] ++ rule.drop (P.length + 1)) h2
        (by simpa using hf) (by omega)
      refine ⟨rule', ?_, fun hlen => h4 (fgets_length rule P hPl hlen), fun h => by simp at h, ?_⟩
      · simp only [readruleLoop, if_pos hi0, h1, h3]
        simp only [List.length_cons, Option.some.injEq, Prod.mk.injEq, true_and]
        omega
      · intro Q hQ
        cases ps with
        | nil =>
          simp only [List.getLast?_singleton, Option.some.injEq] at hQ
          subst hQ
          exact ⟨rule.drop (P.length + 1), h5 rfl⟩
        | cons P2 ps2 =>
          rw [List.getLast?_cons_cons] at hQ
          exact h6 Q hQ

theorem readruleLoop_pieces_found (number : Nat) :
    ∀ (k : Nat) (ps : List (List Nat)) (s : List Nat) (fuel i : Nat) (rule P : List Nat),
      readsAs s ps → ps.length < fuel → number = i + k → ps[k]? = some P →
      ∃ rest, readruleLoop number fuel i rule s = some (P ++ [0] ++ rest, number) ∧
        (rule.length = IPFWRULELEN → (P ++ [0] ++ rest).length = IPFWRULELEN) := by
  intro k
  induction k with
  | zero =>
    intro ps s fuel i rule P hs hf hn hk
    cases ps with
    | nil => simp at hk
    | cons P0 ps =>
      simp only [List.getElem?_cons_zero, Option.some.injEq] at hk
      subst hk
      obtain ⟨s', h1, _, hPl⟩ := fgets_readsAs rule s P0 ps hs
      have hi : ¬ i ≠ number := by omega
      refine ⟨rule.drop (P0.length + 1), ?_, fgets_length rule P0 hPl⟩
      cases fuel <;> simp only [readruleLoop, if_neg hi, h1] <;> simp <;> omega
  | succ k ih =>
    intro ps s fuel i rule P hs hf hn hk
    cases ps with
    | nil => simp at hk
    | cons P0 ps =>
      simp only [List.getElem?_cons_succ] at hk
      cases fuel with
      | zero => simp at hf
      | succ f =>
        obtain ⟨s', h1, h2, hPl⟩ := fgets_readsAs rule s P0 ps hs
        have hi : i ≠ number := by omega
        obtain ⟨rest, h3, h4⟩ := ih ps s' f (i + 1) (P0 ++ [0] ++ rule.drop (P0.length + 1)) P h2
          (by simpa using hf) (by omega) hk
        exact ⟨rest, by simp only [readruleLoop, if_pos hi, h1, h3],
          fun hlen => h4 (fgets_length rule P0 hPl hlen)⟩

theorem readruleLoop_pieces_missing (number : Nat) (hnum : number ≠ 0) :
    ∀ (ps : List (List Nat)) (s : List Nat) (fuel i : Nat) (rule : List Nat),
      readsAs s ps → ps.length < fuel → i + ps.length ≤ number →
      ∃ rule', readruleLoop number fuel i rule s = some (rule', 0) := by
  intro ps
  induction ps with
  | nil =>
    intro s fuel i rule hs hf hn
    have hs' : s = [] := hs
    subst hs'
    cases fuel with
    | zero => simp at hf
    | succ f =>
      by_cases hi : i ≠ number
      · exact ⟨rule, by simp only [readruleLoop, if_pos hi, fgets_nil, if_pos hnum]⟩
      · exact ⟨rule, by simp only [readruleLoop, if_neg hi, fgets_nil]⟩
  | cons P ps ih =>
    intro s fuel i rule hs hf hn
    cases fuel with
    | zero => simp at hf
    | succ f =>
      have hi : i ≠ number := by simp at hn; omega
      obtain ⟨s', h1, h2, _⟩ := fgets_readsAs rule s P ps hs
      obtain ⟨rule', h3⟩ := ih s' f (i + 1) (P ++ [0] ++ rule.drop (P.length + 1)) h2
        (by simpa using hf) (by simp at hn; omega)
      exact ⟨rule', by simp only [readruleLoop, if_pos hi, h1, h3]⟩

/-- What `readrule` does on any source, by the pieces that `fgets` delivers:
the first piece is taken for the header and the others are the records. -/
theorem readrule_pieces (f rule : List Nat) (number : Nat) (H : List Nat)
    (ps : List (List Nat)) (h : readsAs f (H :: ps)) :
    (number = 0 → ∃ rule', readrule (some f) rule number = some (rule', ps.length) ∧
      (rule.length = IPFWRULELEN → rule'.length = IPFWRULELEN) ∧
      (∀ P, ps.getLast? = some P → ∃ rest, rule' = P ++ [0] ++ rest)) ∧
    (number ≠ 0 → ps.length < number →
      ∃ rule', readrule (some f) rule number = some (rule', 0)) ∧
    (∀ P, number ≠ 0 → ps[number - 1]? = some P →
      ∃ rest, readrule (some f) rule number = some (P ++ [0] ++ rest, number) ∧
        (rule.length = IPFWRULELEN → (P ++ [0] ++ rest).length = IPFWRULELEN)) := by
  obtain ⟨s', h1, h2, hHl⟩ := fgets_readsAs rule f H ps h
  have hfuel : ps.length < s'.length + 1 := by
    have := readsAs_length ps s' h2
    omega
  refine ⟨?_, ?_, ?_⟩
  · intro hn
    subst hn
    obtain ⟨rule', h3, h4, _, h6⟩ := readruleLoop_pieces_count ps s' (s'.length + 1) 1
      (H ++ [0] ++ rule.drop (H.length + 1)) h2 hfuel (le_refl 1)
    exact ⟨rule', by simp only [readrule, h1, h3]; simp,
      fun hlen => h4 (fgets_length rule H hHl hlen), h6⟩
  · intro hn hlt
    obtain ⟨rule', h3⟩ := readruleLoop_pieces_missing number hn ps s' (s'.length + 1) 1
      (H ++ [0] ++ rule.drop (H.length + 1)) h2 hfuel (by omega)
    exact ⟨rule', by simp only [readrule, h1, h3]⟩
  · intro P hn hP
    obtain ⟨rest, h3, h4⟩ := readruleLoop_pieces_found number (number - 1) ps s' (s'.length + 1) 1
      (H ++ [0] ++ rule.drop (H.length + 1)) P h2 hfuel (by omega) hP
    exact ⟨rest, by simp only [readrule, h1, h3],
      fun hlen => h4 (fgets_length rule H hHl hlen)⟩

theorem fgetsChars_line : ∀ (l : List Nat) (room : Nat) (rest : List Nat),
    NL ∉ l → l.length < room → fgetsChars room (l ++ NL :: rest) = (l ++ [NL], rest) := by
  intro l
  induction l with
  | nil =>
    intro room rest _ hr
    cases room with
    | zero => simp at hr
    | succ r => simp [fgetsChars]
  | cons c t ih =>
    intro room rest hnl hr
    have hc : c ≠ NL := fun e => hnl (by simp [e])
    have ht : NL ∉ t := fun e => hnl (List.mem_cons_of_mem _ e)
    cases room with
    | zero => simp at hr
    | succ r =>
      have e := ih r rest ht (by simpa using hr)
      show fgetsChars (r + 1) (c :: (t ++ NL :: rest)) = (c :: (t ++ [NL]), rest)
      rw [fgetsChars, if_neg hc, e]

theorem fgetsChars_full : ∀ (a : List Nat) (room : Nat) (t : List Nat),
    NL ∉ a → a.length = room → fgetsChars room (a ++ t) = (a, t) := by
  intro a
  induction a with
  | nil =>
    intro room t _ hr
    simp at hr
    subst hr
    simp [fgetsChars]
  | cons c u ih =>
    intro room t hnl hr
    have hc : c ≠ NL := fun e => hnl (by simp [e])
    have hu : NL ∉ u := fun e => hnl (List.mem_cons_of_mem _ e)
    cases room with
    | zero => simp at hr
    | succ r =>
      have e := ih r t hu (by simpa using hr)
      show fgetsChars (r + 1) (c :: (u ++ t)) = (c :: u, t)
      rw [fgetsChars, if_neg hc, e]

theorem readsAs_linePieces : ∀ (n : Nat) (l rest : List Nat) (ps : List (List Nat)),
    NL ∉ l → l.length / (IPFWRULELEN - 1) = n → readsAs rest ps →
    readsAs (l ++ NL :: rest) (linePieces n l ++ ps) := by
  intro n
  have hL : IPFWRULELEN - 1 = 199 := rfl
  induction n with
  | zero =>
    intro l rest ps hnl hn hr
    have hlt : l.length < IPFWRULELEN - 1 := by
      rw [hL] at hn ⊢
      omega
    exact ⟨by simp, rest, fgetsChars_line l _ rest hnl hlt, hr⟩
  | succ n ih =>
    intro l rest ps hnl hn hr
    have hge : IPFWRULELEN - 1 ≤ l.length := by
      rw [hL] at hn ⊢
      omega
    have hsplit : l ++ NL :: rest
        = l.take (IPFWRULELEN - 1) ++ (l.drop (IPFWRULELEN - 1) ++ NL :: rest) := by
      rw [← List.append_assoc, List.take_append_drop]
    have htake : NL ∉ l.take (IPFWRULELEN - 1) := fun e => hnl (List.mem_of_mem_take e)
    have hdrop : NL ∉ l.drop (IPFWRULELEN - 1) := fun e => hnl (List.mem_of_mem_drop e)
    have hlen : (l.take (IPFWRULELEN - 1)).length = IPFWRULELEN - 1 := by
      rw [List.length_take]; omega
    refine ⟨?_, l.drop (IPFWRULELEN - 1) ++ NL :: rest, ?_, ?_⟩
    · intro e
      rw [e] at hlen
      simp [IPFWRULELEN] at hlen
    · rw [hsplit]
      exact fgetsChars_full _ _ _ htake hlen
    · apply ih _ rest ps hdrop _ hr
      rw [List.length_drop]
      rw [hL] at hn ⊢
      omega

theorem readsAs_pieces : ∀ (lines : List (List Nat)), (∀ l ∈ lines, NL ∉ l) →
    readsAs (joinLines lines) (pieces lines) := by
  intro lines
  induction lines with
  | nil => intro _; rfl
  | cons l ls ih =>
    intro h
    exact readsAs_linePieces _ l (joinLines ls) (pieces ls) (h l (List.mem_cons_self _ _)) rfl
      (ih (fun x hx => h x (List.mem_cons_of_mem _ hx)))

theorem linePieces_length : ∀ (n : Nat) (l : List Nat), (linePieces n l).length = n + 1 := by
  intro n
  induction n with
  | zero => intro l; rfl
  | succ n ih => intro l; simp [linePieces, ih]

theorem pieces_length : ∀ (lines : List (List Nat)),
    (pieces lines).length = (lines.map fun l => l.length / (IPFWRULELEN - 1) + 1).sum := by
  intro lines
  induction lines with
  | nil => rfl
  | cons l ls ih => simp [pieces, linePieces_length, ih]

theorem pieces_fit : ∀ (lines : List (List Nat)), (∀ l ∈ lines, l.length ≤ IPFWRULELEN - 2) →
    pieces lines = lines.map fun l => l ++ [NL] := by
  intro lines
  induction lines with
  | nil => intro _; rfl
  | cons l ls ih =>
    intro h
    have hl : l.length / (IPFWRULELEN - 1) = 0 := by
      have := h l (List.mem_cons_self _ _)
      simp [IPFWRULELEN] at this ⊢
      omega
    simp only [pieces, hl, linePieces, List.map_cons, List.singleton_append,
      ih (fun x hx => h x (List.mem_cons_of_mem _ hx))]

theorem pieces_append : ∀ (a b : List (List Nat)), pieces (a ++ b) = pieces a ++ pieces b := by
  intro a
  induction a with
  | nil => intro b; rfl
  | cons l ls ih => intro b; simp [pieces, ih]

theorem readsAs_source (header : List Nat) (data : List (List Nat))
    (hheader : NL ∉ header ∧ header.length ≤ 198) (hdata : ∀ l ∈ data, NL ∉ l) :
    readsAs (joinLines (header :: data)) ((header ++ [NL]) :: pieces data) := by
  have h := readsAs_pieces (header :: data) (by
    intro l hl
    rcases List.mem_cons.1 hl with e | e
    · rw [e]; exact hheader.1
    · exact hdata l e)
  have e : header.length / (IPFWRULELEN - 1) = 0 := by
    simp [IPFWRULELEN]; omega
  simpa [pieces, e, linePieces] using h

/-! ## C12 -/

/-- C12 (as stated, refuted): on a source with a header, a data line of 200
letters `x` and the data line `r2`, `readrule(0)` returns 3, not 2;
`readrule(1)` loads the first 199 letters, `readrule(2)` the rest of the same
line and only `readrule(3)` the line `r2`. -/
theorem C12_long_line_counterexample :
    (readrule (some (joinLines [bytes "IP accounting rules", List.replicate 200 120, bytes "r2"]))
      (List.replicate 200 0) 0).map Prod.snd = some 3 ∧
    readrule (some (joinLines [bytes "IP accounting rules", List.replicate 200 120, bytes "r2"]))
      (List.replicate 200 0) 1 = some (List.replicate 199 120 ++ [0], 1) ∧
    (readrule (some (joinLines [bytes "IP accounting rules", List.replicate 200 120, bytes "r2"]))
      (List.replicate 200 0) 2).map (fun p => (p.1.take 3, p.2)) = some ([120, NL, 0], 2) ∧
    (readrule (some (joinLines [bytes "IP accounting rules", List.replicate 200 120, bytes "r2"]))
      (List.replicate 200 0) 3).map (fun p => (p.1.take 4, p.2))
      = some (bytes "r2" ++ [NL, 0], 3) := by
  decide

/-- C12 (amended): a data line longer than the buffer is read in pieces and
every piece is a record.  On a source with a fitting header, `readrule(0)`
returns the sum over the data lines of `L / 199 + 1`, `L` the length of the
line before its newline.  When fitting data lines `before` come before a data
line of 199 characters or more, `readrule(before.length + 1)` loads the first
199 characters of that line and a NUL, and the `j`-th of the fitting lines
`after` it is loaded under the number `before.length + 1 + L / 199 + 1 + j`
(`j` from 0). -/
theorem C12_readrule_numbers_pieces (header : List Nat) (data : List (List Nat))
    (rule : List Nat)
    (hheader : NL ∉ header ∧ header.length ≤ 198)
    (hdata : ∀ l ∈ data, NL ∉ l) :
    (readrule (some (joinLines (header :: data))) rule 0).map Prod.snd
      = some (data.map fun l => l.length / 199 + 1).sum ∧
    ∀ before line after, data = before ++ line :: after →
      (∀ l ∈ before, l.length ≤ 198) → 199 ≤ line.length →
      (∃ rest, readrule (some (joinLines (header :: data))) rule (before.length + 1)
        = some (line.take 199 ++ [0] ++ rest, before.length + 1)) ∧
      ((∀ l ∈ after, l.length ≤ 198) → ∀ j l, after[j]? = some l →
        ∃ rest, readrule (some (joinLines (header :: data))) rule
            (before.length + 1 + line.length / 199 + 1 + j)
          = some (l ++ [NL, 0] ++ rest, before.length + 1 + line.length / 199 + 1 + j)) := by
  have hL : IPFWRULELEN - 1 = 199 := rfl
  have hreads := readsAs_source header data hheader hdata
  have hpieces := readrule_pieces (joinLines (header :: data)) rule
  refine ⟨?_, ?_⟩
  · obtain ⟨rule', h, _⟩ := (hpieces 0 _ _ hreads).1 rfl
    rw [h, pieces_length, hL]
    rfl
  · intro before line after hsplit hbefore hline
    have hpb : pieces before = before.map fun l => l ++ [NL] :=
      pieces_fit before (fun l hl => by have := hbefore l hl; simp [IPFWRULELEN]; omega)
    have hn : line.length / (IPFWRULELEN - 1)
        = (line.length / (IPFWRULELEN - 1) - 1) + 1 := by
      rw [hL]; omega
    have hpd : pieces data = (before.map fun l => l ++ [NL]) ++
        (linePieces (line.length / (IPFWRULELEN - 1)) line ++ pieces after) := by
      rw [hsplit, pieces_append, hpb]
      rfl
    refine ⟨?_, ?_⟩
    · have hidx : (pieces data)[before.length + 1 - 1]? = some (line.take 199) := by
        rw [hpd, hn, linePieces, hL, List.getElem?_append_right (by simp)]
        simp
      obtain ⟨rest, h, _⟩ := (hpieces (before.length + 1) _ _ hreads).2.2 _ (by omega) hidx
      exact ⟨rest, h⟩
    · intro hafter j l hj
      have hpa : pieces after = after.map fun l => l ++ [NL] :=
        pieces_fit after (fun l hl => by have := hafter l hl; simp [IPFWRULELEN]; omega)
      have hidx : (pieces data)[before.length + 1 + line.length / 199 + 1 + j - 1]?
          = some (l ++ [NL]) := by
        rw [hpd, hpa, List.getElem?_append_right (by simp; omega),
          List.getElem?_append_right (by simp [linePieces_length, hL]; omega)]
        simp only [List.length_map, linePieces_length, hL]
        have e : before.length + 1 + line.length / 199 + 1 + j - 1 - before.length
            - (line.length / 199 + 1) = j := by omega
        rw [e, List.getElem?_map, hj]
        rfl
      obtain ⟨rest, h, _⟩ := (hpieces (before.length + 1 + line.length / 199 + 1 + j) _ _
        hreads).2.2 _ (by omega) hidx
      exact ⟨rest, by rw [h]; simp⟩

/-- C12 (amended) at a header, the data line `r1`, a data line of 200 letters
`x` and the data line `r3`: `readrule(0)` returns 4, `readrule(2)` loads 199
letters and `readrule(4)` loads `r3`. -/
theorem C12_readrule_numbers_pieces_witness :
    (readrule (some (joinLines (bytes "IP accounting rules" ::
        [bytes "r1", List.replicate 200 120, bytes "r3"]))) (List.replicate 200 0) 0).map Prod.snd
      = some 4 ∧
    (∃ rest, readrule (some (joinLines (bytes "IP accounting rules" ::
        [bytes "r1", List.replicate 200 120, bytes "r3"]))) (List.replicate 200 0) 2
      = some (List.replicate 199 120 ++ [0] ++ rest, 2)) ∧
    (∃ rest, readrule (some (joinLines (bytes "IP accounting rules" ::
        [bytes "r1", List.replicate 200 120, bytes "r3"]))) (List.replicate 200 0) 4
      = some (bytes "r3" ++ [NL, 0] ++ rest, 4)) :=
  ⟨(C12_readrule_numbers_pieces (bytes "IP accounting rules")
      [bytes "r1", List.replicate 200 120, bytes "r3"] (List.replicate 200 0)
      (by decide) (by decide)).1,
    ((C12_readrule_numbers_pieces (bytes "IP accounting rules")
      [bytes "r1", List.replicate 200 120, bytes "r3"] (List.replicate 200 0)
      (by decide) (by decide)).2 [bytes "r1"] (List.replicate 200 120) [bytes "r3"] rfl
      (by decide) (by decide)).1,
    ((C12_readrule_numbers_pieces (bytes "IP accounting rules")
      [bytes "r1", List.replicate 200 120, bytes "r3"] (List.replicate 200 0)
      (by decide) (by decide)).2 [bytes "r1"] (List.replicate 200 120) [bytes "r3"] rfl
      (by decide) (by decide)).2 (by decide) 0 (bytes "r3") rfl⟩

/-! ## C20 -/

set_option linter.unusedTactic false in
theorem fieldSwitch_ne_null (w : Nat) (rule : List Nat) (index : Nat) (magic : Magic)
    (rule' : List Nat) (ret : Ret)
    (h : fieldSwitch w rule index magic = some (rule', ret)) : ret ≠ Ret.NULL := by
  intro hnull
  subst hnull
  cases magic <;>
    simp only [fieldSwitch, Option.map_eq_some', Option.bind_eq_some, Option.some.injEq,
      Prod.mk.injEq] at h <;>
    first
    | (obtain ⟨_, _, h⟩ := h; split_ifs at h <;> simp at h)
    | (obtain ⟨_, _, _, h⟩ := h; simp at h)
    | (obtain ⟨_, _, h⟩ := h; simp at h)
    | simp at h

/-- C20: on a source with a header and `k >= 1` fitting data lines,
`readrule(0)` returns `k`, which is not 0, and leaves the last data line in
the buffer; so `var_ipfwacc`, when `checkmib` passes with rule index 0, returns
for every field the pointer, not NULL, that the switch gives on the buffer
holding record `k`. -/
theorem C20_index_zero_decodes_last (w : Nat) (header : List Nat) (data : List (List Nat))
    (rule : List Nat) (magic : Magic) (checkmib : Nat → Nat → Option Nat × Nat)
    (var_len : Nat) (last : List Nat)
    (hheader : NL ∉ header ∧ header.length ≤ 198)
    (hdata : ∀ l ∈ data, NL ∉ l ∧ l.length ≤ 198)
    (hlast : data.getLast? = some last)
    (hlen : rule.length = IPFWRULELEN)
    (hpass : checkmib (w / 8) data.length = (some 0, var_len)) :
    data.length ≠ 0 ∧
    (∃ rest, readrule (some (joinLines (header :: data))) rule 0
      = some (last ++ [NL, 0] ++ rest, data.length)) ∧
    ∃ rest rule' ret, fieldSwitch w (last ++ [NL, 0] ++ rest) 0 magic = some (rule', ret) ∧
      ret ≠ Ret.NULL ∧
      var_ipfwacc w (some (joinLines (header :: data))) checkmib rule magic
        = some ⟨rule', ret, var_len⟩ := by
  have hk : data.length ≠ 0 := by
    intro e
    rw [List.length_eq_zero] at e
    rw [e] at hlast
    simp at hlast
  have hreads := readsAs_source header data hheader (fun l hl => (hdata l hl).1)
  have hpd : pieces data = data.map fun l => l ++ [NL] :=
    pieces_fit data (fun l hl => by have := (hdata l hl).2; simp [IPFWRULELEN]; omega)
  have hplen : (pieces data).length = data.length := by rw [hpd]; simp
  have hplast : (pieces data).getLast? = some (last ++ [NL]) := by
    rw [hpd, List.getLast?_map, hlast]; rfl
  obtain ⟨B1, h1, hB1len, hB1⟩ :=
    (readrule_pieces (joinLines (header :: data)) rule 0 _ _ hreads).1 rfl
  obtain ⟨rest1, hr1⟩ := hB1 _ hplast
  obtain ⟨B2, h2, hB2len, hB2⟩ :=
    (readrule_pieces (joinLines (header :: data)) B1 0 _ _ hreads).1 rfl
  obtain ⟨rest2, hr2⟩ := hB2 _ hplast
  rw [hplen] at h1 h2
  have hB2l : B2.length = IPFWRULELEN := hB2len (hB1len hlen)
  have hsome := fieldSwitch_inbounds w B2 hB2l 0 magic
  obtain ⟨⟨rule', ret⟩, hfs⟩ := Option.isSome_iff_exists.1 hsome
  have hB2eq : B2 = last ++ [NL, 0] ++ rest2 := by rw [hr2]; simp
  refine ⟨hk, ⟨rest1, by rw [h1, hr1]; simp⟩, rest2, rule', ret, by rw [← hB2eq]; exact hfs,
    fieldSwitch_ne_null w B2 0 magic rule' ret hfs, ?_⟩
  simp only [var_ipfwacc, h1, Option.some_bind, hpass, h2, if_pos hk, hfs, Option.map_some']

/-- C20 at a header and the two data lines `r1` and the `/proc/net/ip_acct`
line, with a `checkmib` that passes with rule index 0: field BYTES is decoded
from the second line and yields 5000. -/
theorem C20_index_zero_decodes_last_witness :
    (var_ipfwacc 32 (some (joinLines (bytes "IP accounting rules" :: [bytes "r1", procLine])))
      (fun var_len _ => (some 0, var_len)) (List.replicate 200 0) Magic.IPFWACCBYTES).map
      (fun o => (o.ret, o.var_len)) = some (Ret.RET_VAL 5000, 4) ∧
    ∃ rest rule' ret, fieldSwitch 32 (procLine ++ [NL, 0] ++ rest) 0 Magic.IPFWACCBYTES
        = some (rule', ret) ∧
      ret ≠ Ret.NULL ∧
      var_ipfwacc 32 (some (joinLines (bytes "IP accounting rules" :: [bytes "r1", procLine])))
        (fun var_len _ => (some 0, var_len)) (List.replicate 200 0) Magic.IPFWACCBYTES
        = some ⟨rule', ret, 4⟩ :=
  ⟨by decide,
    (C20_index_zero_decodes_last 32 (bytes "IP accounting rules") [bytes "r1", procLine]
      (List.replicate 200 0) Magic.IPFWACCBYTES (fun var_len _ => (some 0, var_len)) 4 procLine
      (by decide) (by decide) (by decide) (by decide) (by decide)).2.2⟩

/-! ## The digit loops on any token -/

theorem numericLoop_token (w : Nat) (rule : List Nat) :
    ∀ (tok : List Nat) (i acc fuel : Nat), SP ∉ tok →
      holdsAt rule i (tok ++ [SP]) → i + tok.length ≤ IPFWRULELEN - 1 → tok.length ≤ fuel →
      numericLoop w rule fuel i acc = some (numericFold w tok acc) := by
  intro tok
  induction tok with
  | nil =>
    intro i acc fuel _ h _ _
    exact numericLoop_stop w rule fuel i SP acc h.1 (fun hh => hh.1 rfl)
  | cons c t ih =>
    intro i acc fuel hsp h hb hf
    have hc : c ≠ SP := fun e => hsp (by simp [e])
    have ht : SP ∉ t := fun e => hsp (List.mem_cons_of_mem _ e)
    simp only [List.length_cons] at hb hf
    cases fuel with
    | zero => omega
    | succ f =>
      rw [numericLoop_step w rule f i c acc h.1 ⟨hc, by omega⟩]
      exact ih (i + 1) _ f ht h.2 (by omega) (by omega)

theorem flagsLoop_token (w : Nat) (rule : List Nat) :
    ∀ (tok : List Nat) (i acc fuel : Nat), SP ∉ tok →
      holdsAt rule i (tok ++ [SP]) → i + tok.length ≤ IPFWRULELEN - 1 → tok.length ≤ fuel →
      flagsLoop w rule fuel i acc = some (flagsFold w tok acc) := by
  intro tok
  induction tok with
  | nil =>
    intro i acc fuel _ h _ _
    exact flagsLoop_stop w rule fuel i SP acc h.1 (fun hh => hh.1 rfl)
  | cons c t ih =>
    intro i acc fuel hsp h hb hf
    have hc : c ≠ SP := fun e => hsp (by simp [e])
    have ht : SP ∉ t := fun e => hsp (List.mem_cons_of_mem _ e)
    simp only [List.length_cons] at hb hf
    cases fuel with
    | zero => omega
    | succ f =>
      rw [flagsLoop_step w rule f i c acc h.1 ⟨hc, by omega⟩]
      exact ih (i + 1) _ f ht h.2 (by omega) (by omega)

theorem toULong_natCast (w n : Nat) : toULong w (n : Int) = n % 2 ^ w := by
  unfold toULong
  have e : ((n : Int) % (2 : Int) ^ w) = ((n % 2 ^ w : Nat) : Int) := by
    push_cast
    rfl
  rw [e]
  exact Int.toNat_ofNat _

theorem numericFold_decimal (w : Nat) : ∀ (ds : List Nat) (acc : Nat),
    (∀ c ∈ ds, 48 ≤ c ∧ c ≤ 57) →
    numericFold w ds (acc % 2 ^ w) = (ds.foldl (fun a c => a * 10 + (c - 48)) acc) % 2 ^ w := by
  intro ds
  induction ds with
  | nil => intro acc _; rfl
  | cons c t ih =>
    intro acc hd
    have hc := hd c (List.mem_cons_self _ _)
    have hstep : toULong w (((acc % 2 ^ w : Nat) : Int) * 10 + (c : Int) - 48)
        = (acc * 10 + (c - 48)) % 2 ^ w := by
      have e : (((acc % 2 ^ w : Nat) : Int) * 10 + (c : Int) - 48)
          = ((acc % 2 ^ w * 10 + (c - 48) : Nat) : Int) := by
        omega
      rw [e, toULong_natCast]
      simp [Nat.add_mod, Nat.mul_mod]
    unfold numericFold
    rw [List.foldl_cons, List.foldl_cons, hstep]
    exact ih _ (fun d hd' => hd d (List.mem_cons_of_mem _ hd'))

/-- The function `getnumeric` on a well-formed line, for any token: what the
digit loop accumulates over the column that `skip` columns precede. -/
theorem getnumeric_token (w : Nat) (rule pre via addr flags : List Nat) (x : Nat)
    (before : List (Nat × List Nat)) (gap : Nat) (target rest : List Nat)
    (hrule : rule = pre ++ via ++ [SP] ++ addr ++ [x] ++ flags ++ columns before ++
      List.replicate (gap + 1) SP ++ target ++ [SP] ++ rest)
    (hlen : rule.length = IPFWRULELEN) (hpre : pre.length = 37) (hvia : SP ∉ via)
    (haddr : addr.length = 8) (hflags : SP ∉ flags)
    (hbefore : ∀ p ∈ before, p.2 ≠ [] ∧ SP ∉ p.2)
    (htarget : target ≠ [] ∧ SP ∉ target) :
    getnumeric w rule (before.length + 1) = some (numericFold w target 0) := by
  have hL : IPFWRULELEN = 200 := rfl
  obtain ⟨c, t', htc⟩ := List.exists_cons_of_ne_nil htarget.1
  have hc : c ≠ SP := fun e => htarget.2 (by rw [htc, e]; exact List.mem_cons_self _ _)
  have hT : 1 ≤ target.length := by rw [htc]; simp
  have hre : rule = pre ++ (via ++ ([SP] ++ (addr ++ ([x] ++ (flags ++ columns before ++
      List.replicate (gap + 1) SP ++ (target ++ [SP])))))) ++ rest := by
    rw [hrule]; simp only [List.append_assoc]
  have hlen2 : 37 + via.length + 1 + 8 + 1 + (flags ++ columns before).length + (gap + 1)
      + target.length + 1 + rest.length = 200 := by
    rw [hrule] at hlen
    simp only [List.length_append, List.length_replicate, List.length_cons, List.length_nil,
      hpre, haddr, hL] at hlen ⊢
    omega
  have hall := holdsAt_mid (via ++ ([SP] ++ (addr ++ ([x] ++ (flags ++ columns before ++
      List.replicate (gap + 1) SP ++ (target ++ [SP])))))) pre rest
  rw [← hre, hpre] at hall
  rw [holdsAt_append] at hall
  obtain ⟨hv, hall⟩ := hall
  rw [holdsAt_append] at hall
  obtain ⟨hsp, hall⟩ := hall
  rw [holdsAt_append] at hall
  obtain ⟨-, hall⟩ := hall
  rw [holdsAt_append] at hall
  obtain ⟨-, hall⟩ := hall
  simp only [List.length_cons, List.length_nil, haddr] at hall
  have hpos : 37 + via.length + (0 + 1) + 8 + (0 + 1) = 37 + via.length + 10 := by omega
  rw [hpos] at hall
  rw [holdsAt_append] at hall
  obtain ⟨hcols, htgt⟩ := hall
  have h1 : holdsAt rule 37 (via ++ [SP]) := by
    rw [holdsAt_append]; exact ⟨hv, hsp⟩
  have e1 := skipField_token rule (IPFWRULELEN - 12) via 37 IPFWRULELEN hvia h1 (by omega)
    (by omega)
  have h2 : holdsAt rule (37 + via.length + 10)
      (flags ++ columns before ++ List.replicate (gap + 1) SP ++ [c]) := by
    rw [holdsAt_append]
    refine ⟨hcols, ?_, trivial⟩
    rw [htc] at htgt
    exact htgt.1
  have e2 := skipColumns_columns rule before flags (37 + via.length + 10) gap c hflags hbefore hc
    h2 (by simp only [List.length_append] at hlen2 ⊢; omega)
  have hposT : (37 + via.length + 10 +
      (flags ++ columns before ++ List.replicate (gap + 1) SP).length)
      = 37 + via.length + 10 + (flags ++ columns before).length + gap + 1 := by
    simp only [List.length_append, List.length_replicate]; omega
  rw [hposT] at htgt
  have e3 := numericLoop_token w rule target
    (37 + via.length + 10 + (flags ++ columns before).length + gap + 1) 0 IPFWRULELEN
    htarget.2 htgt (by omega) (by omega)
  simp only [getnumeric, e1, e2, Option.some_bind]
  exact e3

/-- The function `getflags` on a well-formed line, for any flags token: what
the digit loop accumulates over it. -/
theorem getflags_fold (w : Nat) (rule pre via mid flags rest : List Nat)
    (hrule : rule = pre ++ via ++ [SP] ++ mid ++ flags ++ [SP] ++ rest)
    (hlen : rule.length = IPFWRULELEN) (hpre : pre.length = 37) (hvia : SP ∉ via)
    (hmid : mid.length = 9) (hflags : flags ≠ [] ∧ SP ∉ flags) :
    getflags w rule = some (flagsFold w flags 0) := by
  have hF : 1 ≤ flags.length := by
    cases flags with
    | nil => exact absurd rfl hflags.1
    | cons a b => simp
  have hL : IPFWRULELEN = 200 := rfl
  have hre : rule = pre ++ (via ++ ([SP] ++ (mid ++ (flags ++ [SP])))) ++ rest := by
    rw [hrule]; simp only [List.append_assoc]
  have hlen2 : 37 + via.length + 1 + 9 + flags.length + 1 + rest.length = 200 := by
    rw [hrule] at hlen
    simp only [List.length_append, List.length_cons, List.length_nil, hpre, hmid, hL] at hlen ⊢
    omega
  have hall := holdsAt_mid (via ++ ([SP] ++ (mid ++ (flags ++ [SP])))) pre rest
  rw [← hre, hpre] at hall
  rw [holdsAt_append] at hall
  obtain ⟨hv, hall⟩ := hall
  rw [holdsAt_append] at hall
  obtain ⟨hsp, hall⟩ := hall
  rw [holdsAt_append] at hall
  obtain ⟨-, hall⟩ := hall
  simp only [List.length_cons, List.length_nil, hmid] at hall
  have hpos : 37 + via.length + (0 + 1) + 9 = 37 + via.length + 10 := by omega
  rw [hpos] at hall
  have h1 : holdsAt rule 37 (via ++ [SP]) := by
    rw [holdsAt_append]; exact ⟨hv, hsp⟩
  have e1 := skipField_token rule (IPFWRULELEN - 12) via 37 IPFWRULELEN hvia h1 (by omega)
    (by omega)
  have e2 := flagsLoop_token w rule flags (37 + via.length + 10) 0 IPFWRULELEN hflags.2 hall
    (by omega) (by omega)
  simp only [getflags, e1, Option.some_bind]
  exact e2

/-! ## C19 -/

/-- C19 (as stated, refuted): two buffers that hold the same tokens after the
flags token with space runs of different widths, the first token spelling
2 ^ 64 and followed by a space: `getnumeric(1)` yields the same value on both,
but it is 0, for a 32-bit and for a 64-bit `unsigned long`, not the decimal
value of the token. -/
theorem C19_decimal_value_counterexample :
    getnumeric 32 (lineBuffer wideLine) 1 = some 0 ∧
    getnumeric 32 (lineBuffer wideLineGaps) 1 = some 0 ∧
    getnumeric 64 (lineBuffer wideLine) 1 = some 0 ∧
    getnumeric 64 (lineBuffer wideLineGaps) 1 = some 0 ∧
    decimalValue (bytes "18446744073709551616") = 2 ^ 64 ∧
    (lineBuffer wideLine).take 58 = (lineBuffer wideLineGaps).take 58 := by
  decide

/-- C19 (amended): for every `skip >= 1` and every two 200-byte buffers that
agree up to and including the flags token and hold the same tokens after it,
each preceded by a run of one or more spaces whose width may differ between
the buffers, with the `skip`-th token made of decimal digits and followed by a
space, `getnumeric(skip)` yields the same value on both: the decimal value of
that token modulo `2 ^ w`, which is the decimal value when it is below
`2 ^ w`. -/
theorem C19_getnumeric_gap_insensitive (w : Nat) (rule1 rule2 pre via addr flags : List Nat)
    (x : Nat) (before1 before2 : List (Nat × List Nat)) (gap1 gap2 : Nat)
    (target rest1 rest2 : List Nat) (skip : Nat)
    (hskip : skip = before1.length + 1)
    (hsame : before1.map Prod.snd = before2.map Prod.snd)
    (hrule1 : rule1 = pre ++ via ++ [SP] ++ addr ++ [x] ++ flags ++ columns before1 ++
      List.replicate (gap1 + 1) SP ++ target ++ [SP] ++ rest1)
    (hrule2 : rule2 = pre ++ via ++ [SP] ++ addr ++ [x] ++ flags ++ columns before2 ++
      List.replicate (gap2 + 1) SP ++ target ++ [SP] ++ rest2)
    (hlen1 : rule1.length = IPFWRULELEN) (hlen2 : rule2.length = IPFWRULELEN)
    (hpre : pre.length = 37) (hvia : SP ∉ via) (haddr : addr.length = 8) (hflags : SP ∉ flags)
    (hbefore : ∀ p ∈ before1, p.2 ≠ [] ∧ SP ∉ p.2)
    (htarget : target ≠ [] ∧ ∀ c ∈ target, 48 ≤ c ∧ c ≤ 57) :
    getnumeric w rule1 skip = some (decimalValue target % 2 ^ w) ∧
    getnumeric w rule2 skip = some (decimalValue target % 2 ^ w) ∧
    (decimalValue target < 2 ^ w → decimalValue target % 2 ^ w = decimalValue target) := by
  have hlens : before2.length = before1.length := by
    have := congrArg List.length hsame
    simpa using this.symm
  have hbefore2 : ∀ p ∈ before2, p.2 ≠ [] ∧ SP ∉ p.2 := by
    intro p hp
    have hmem : p.2 ∈ before2.map Prod.snd := List.mem_map.2 ⟨p, hp, rfl⟩
    rw [← hsame] at hmem
    obtain ⟨q, hq, hqp⟩ := List.mem_map.1 hmem
    rw [← hqp]
    exact hbefore q hq
  have htsp : SP ∉ target := by
    intro e
    have := htarget.2 SP e
    simp [SP] at this
  have hfold : numericFold w target 0 = decimalValue target % 2 ^ w := by
    have := numericFold_decimal w target 0 htarget.2
    rw [Nat.zero_mod] at this
    exact this
  refine ⟨?_, ?_, fun h => Nat.mod_eq_of_lt h⟩
  · rw [hskip, ← hfold]
    exact getnumeric_token w rule1 pre via addr flags x before1 gap1 target rest1 hrule1 hlen1
      hpre hvia haddr hflags hbefore ⟨htarget.1, htsp⟩
  · rw [hskip, ← hlens, ← hfold]
    exact getnumeric_token w rule2 pre via addr flags x before2 gap2 target rest2 hrule2 hlen2
      hpre hvia haddr hflags hbefore2 ⟨htarget.1, htsp⟩

/-- C19 (amended) at the `/proc/net/ip_acct` line, whose fourth column `5000`
follows seven spaces, and at the end-to-end record with 1 and 5000 put in the
third and fourth column after single spaces: `getnumeric(4)` leaves 5000 on
both. -/
theorem C19_getnumeric_gap_insensitive_witness :
    getnumeric 32 (lineBuffer procLine) 4 = some 5000 ∧
    getnumeric 32 (bytes "0A000001/FFFFFF00->0A000002/FFFFFF00 eth0 0A0000FE 1042 1 1 100 5000 " ++
      List.replicate 131 0) 4 = some 5000 :=
  ⟨(C19_getnumeric_gap_insensitive 32 (lineBuffer procLine)
      (bytes "0A000001/FFFFFF00->0A000002/FFFFFF00 eth0 0A0000FE 1042 1 1 100 5000 " ++
        List.replicate 131 0)
      (bytes "0A000001/FFFFFF00->0A000002/FFFFFF00 ") (bytes "eth0") (bytes "0A0000FE")
      (bytes "1042") SP [(0, bytes "1"), (0, bytes "1"), (0, bytes "100")]
      [(0, bytes "1"), (0, bytes "1"), (0, bytes "100")] 6 0 (bytes "5000")
      (bytes "     80 0 0 0 0 0 0 0 0 8080 A00 X00" ++ NL :: List.replicate 88 0)
      (List.replicate 131 0) 4
      (by decide) (by decide) (by decide) (by decide) (by decide) (by decide) (by decide)
      (by decide) (by decide) (by decide) (by decide) (by decide)).1.trans (by decide),
    (C19_getnumeric_gap_insensitive 32 (lineBuffer procLine)
      (bytes "0A000001/FFFFFF00->0A000002/FFFFFF00 eth0 0A0000FE 1042 1 1 100 5000 " ++
        List.replicate 131 0)
      (bytes "0A000001/FFFFFF00->0A000002/FFFFFF00 ") (bytes "eth0") (bytes "0A0000FE")
      (bytes "1042") SP [(0, bytes "1"), (0, bytes "1"), (0, bytes "100")]
      [(0, bytes "1"), (0, bytes "1"), (0, bytes "100")] 6 0 (bytes "5000")
      (bytes "     80 0 0 0 0 0 0 0 0 8080 A00 X00" ++ NL :: List.replicate 88 0)
      (List.replicate 131 0) 4
      (by decide) (by decide) (by decide) (by decide) (by decide) (by decide) (by decide)
      (by decide) (by decide) (by decide) (by decide) (by decide)).2.1.trans (by decide)⟩

/-! ## Fields of a well-formed line -/

theorem atoip_prefix (w : Nat) (P rest : List Nat) (pos : Nat) (hp : pos + 8 ≤ P.length) :
    atoip w (P ++ rest) pos = atoip w P pos := by
  have h : ∀ k, k < 8 → ∃ c, P[pos + k]? = some c ∧ (P ++ rest)[pos + k]? = some c := by
    intro k hk
    have hlt : pos + k < P.length := by omega
    exact ⟨P[pos + k], List.getElem?_eq_getElem hlt, by
      rw [List.getElem?_append_left hlt, List.getElem?_eq_getElem hlt]⟩
  obtain ⟨c0, a0, b0⟩ := h 0 (by omega)
  obtain ⟨c1, a1, b1⟩ := h 1 (by omega)
  obtain ⟨c2, a2, b2⟩ := h 2 (by omega)
  obtain ⟨c3, a3, b3⟩ := h 3 (by omega)
  obtain ⟨c4, a4, b4⟩ := h 4 (by omega)
  obtain ⟨c5, a5, b5⟩ := h 5 (by omega)
  obtain ⟨c6, a6, b6⟩ := h 6 (by omega)
  obtain ⟨c7, a7, b7⟩ := h 7 (by omega)
  rw [atoip_of_getElem w (P ++ rest) pos c0 c1 c2 c3 c4 c5 c6 c7 b0 b1 b2 b3 b4 b5 b6 b7,
    atoip_of_getElem w P pos c0 c1 c2 c3 c4 c5 c6 c7 a0 a1 a2 a3 a4 a5 a6 a7]

theorem takeWhile_append_zero : ∀ (v t : List Nat),
    ((v ++ 0 :: t).takeWhile fun c => c ≠ 0) = v.takeWhile fun c => c ≠ 0 := by
  intro v
  induction v with
  | nil => intro t; rw [List.nil_append, List.takeWhile_cons]; simp
  | cons a u ih =>
    intro t
    rw [List.cons_append, List.takeWhile_cons, List.takeWhile_cons, ih t]

theorem columns_append : ∀ (a b : List (Nat × List Nat)),
    columns (a ++ b) = columns a ++ columns b := by
  intro a
  induction a with
  | nil => intro b; rfl
  | cons p r ih =>
    intro b
    obtain ⟨g, t⟩ := p
    show columns ((g, t) :: (r ++ b)) = columns ((g, t) :: r) ++ columns b
    simp only [columns, ih b, List.append_assoc]

theorem columns_then_space (after : List (Nat × List Nat)) (rest : List Nat) :
    ∃ rest', columns after ++ [SP] ++ rest = [SP] ++ rest' := by
  cases after with
  | nil => exact ⟨rest, rfl⟩
  | cons p r =>
    obtain ⟨g, t⟩ := p
    exact ⟨List.replicate g SP ++ t ++ columns r ++ [SP] ++ rest, by
      simp [columns, List.replicate_succ]⟩

/-- The function `getnumeric` on a well-formed line: for `k` below the number
of columns, `getnumeric(k + 1)` leaves what the digit loop accumulates over
column `k` (from 0), whatever follows the space after the last column. -/
theorem getnumeric_nth (w : Nat) (pre via addr flags : List Nat) (x : Nat)
    (cols : List (Nat × List Nat)) (rest : List Nat) (k : Nat) (tok : List Nat)
    (hlen : (recordLine pre via addr x flags cols ++ rest).length = IPFWRULELEN)
    (hpre : pre.length = 37) (hvia : SP ∉ via) (haddr : addr.length = 8) (hflags : SP ∉ flags)
    (hcols : ∀ p ∈ cols, p.2 ≠ [] ∧ SP ∉ p.2)
    (hk : (cols.map Prod.snd)[k]? = some tok) :
    getnumeric w (recordLine pre via addr x flags cols ++ rest) (k + 1)
      = some (numericFold w tok 0) := by
  have hrl : recordLine pre via addr x flags cols ++ rest
      = pre ++ via ++ [SP] ++ addr ++ [x] ++ flags ++ columns cols ++ [SP] ++ rest := rfl
  rw [hrl] at hlen ⊢
  rw [List.getElem?_map] at hk
  cases hck : cols[k]? with
  | none => rw [hck] at hk; simp at hk
  | some p =>
    rw [hck] at hk
    obtain ⟨gap, t⟩ := p
    simp only [Option.map_some', Option.some.injEq] at hk
    subst hk
    have hklt : k < cols.length := by
      by_contra hge
      rw [List.getElem?_eq_none (by omega)] at hck
      cases hck
    have hsplit : cols = cols.take k ++ (gap, t) :: cols.drop (k + 1) := by
      have h1 : cols[k] = (gap, t) := by
        rw [List.getElem?_eq_getElem hklt] at hck
        exact Option.some.inj hck
      rw [← h1, List.getElem_cons_drop cols k hklt, List.take_append_drop]
    obtain ⟨rest', hrest'⟩ := columns_then_space (cols.drop (k + 1)) rest
    have hmem : (gap, t) ∈ cols := List.getElem?_mem hck
    have htk : (cols.take k).length = k := by rw [List.length_take]; omega
    have hrule : pre ++ via ++ [SP] ++ addr ++ [x] ++ flags ++ columns cols ++ [SP] ++ rest
        = pre ++ via ++ [SP] ++ addr ++ [x] ++ flags ++ columns (cols.take k) ++
          List.replicate (gap + 1) SP ++ t ++ [SP] ++ rest' := by
      have e : columns cols ++ [SP] ++ rest
          = columns (cols.take k) ++ List.replicate (gap + 1) SP ++ t ++ ([SP] ++ rest') := by
        rw [← hrest']
        conv_lhs => rw [hsplit]
        rw [columns_append]
        simp only [columns, List.append_assoc]
      simp only [List.append_assoc] at e ⊢
      rw [e]
    have h := getnumeric_token w _ pre via addr flags x (cols.take k) gap t rest' hrule hlen
      hpre hvia haddr hflags (fun p hp => hcols p (List.mem_of_mem_take hp)) (hcols _ hmem)
    rw [htk] at h
    exact h

theorem getflags_layout (w : Nat) (pre via addr flags : List Nat) (x : Nat)
    (cols : List (Nat × List Nat)) (rest : List Nat)
    (hlen : (recordLine pre via addr x flags cols ++ rest).length = IPFWRULELEN)
    (hpre : pre.length = 37) (hvia : SP ∉ via) (haddr : addr.length = 8)
    (hflags : flags ≠ [] ∧ SP ∉ flags) :
    getflags w (recordLine pre via addr x flags cols ++ rest)
      = some (flagsFold w flags 0) := by
  have hrl : recordLine pre via addr x flags cols ++ rest
      = pre ++ via ++ [SP] ++ addr ++ [x] ++ flags ++ columns cols ++ [SP] ++ rest := rfl
  rw [hrl] at hlen ⊢
  obtain ⟨rest', hrest'⟩ := columns_then_space cols rest
  have hrule : pre ++ via ++ [SP] ++ addr ++ [x] ++ flags ++ columns cols ++ [SP] ++ rest
      = pre ++ via ++ [SP] ++ (addr ++ [x]) ++ flags ++ [SP] ++ rest' := by
    simp only [List.append_assoc] at hrest' ⊢
    rw [hrest']
  exact getflags_fold w _ pre via (addr ++ [x]) flags rest' hrule hlen hpre hvia
    (by simp [haddr]) hflags

theorem viaScan_layout (pre via tail : List Nat) (bound : Nat)
    (hlen : (pre ++ via ++ [SP] ++ tail).length = IPFWRULELEN)
    (hpre : pre.length = 37) (hvia : SP ∉ via) (hb : 37 + via.length ≤ bound) :
    skipField (pre ++ via ++ [SP] ++ tail) bound IPFWRULELEN 37 = some (37 + via.length) := by
  have hall := holdsAt_mid (via ++ [SP]) pre tail
  rw [hpre] at hall
  have hre : pre ++ (via ++ [SP]) ++ tail = pre ++ via ++ [SP] ++ tail := by
    simp only [List.append_assoc]
  rw [hre] at hall
  have hfuel : via.length ≤ IPFWRULELEN := by
    rw [← hlen]
    simp only [List.length_append]
    omega
  exact skipField_token _ bound via 37 IPFWRULELEN hvia hall hb hfuel

theorem vianame_layout (w : Nat) (pre via tail : List Nat) (index : Nat)
    (hlen : (pre ++ via ++ [SP] ++ tail).length = IPFWRULELEN)
    (hpre : pre.length = 37) (hvia : SP ∉ via) :
    (fieldSwitch w (pre ++ via ++ [SP] ++ tail) index Magic.IPFWACCVIANAME).map observed
      = some (Ret.RULE 37, via.takeWhile fun c => c ≠ 0) := by
  have hL : IPFWRULELEN = 200 := rfl
  have hlen2 : 37 + via.length + 1 + tail.length = 200 := by
    rw [← hL, ← hlen]
    simp only [List.length_append, List.length_cons, List.length_nil, hpre]
  have hscan := viaScan_layout pre via tail (IPFWRULELEN - 1) hlen hpre hvia (by omega)
  have hlt : 37 + via.length < (pre ++ via ++ [SP] ++ tail).length := by rw [hlen]; omega
  have hset : (pre ++ via ++ [SP] ++ tail).set (37 + via.length) 0
      = pre ++ (via ++ 0 :: tail) := by
    have e : pre ++ via ++ [SP] ++ tail = (pre ++ via) ++ SP :: tail := by
      simp only [List.append_assoc, List.singleton_append]
    have e2 : 37 + via.length = (pre ++ via).length := by simp [hpre]
    rw [e, e2]
    simp
  have hdrop : (pre ++ (via ++ 0 :: tail)).drop 37 = via ++ 0 :: tail := by
    rw [← hpre]; simp
  simp only [fieldSwitch, hscan, Option.some_bind, if_pos hlt, Option.map_some', observed,
    cstring, hset, hdrop, takeWhile_append_zero]

theorem viaaddr_layout (w : Nat) (pre via addr tail : List Nat) (index : Nat)
    (hlen : (pre ++ via ++ [SP] ++ addr ++ tail).length = IPFWRULELEN)
    (hpre : pre.length = 37) (hvia : SP ∉ via) (haddr : addr.length = 8) :
    ∃ v, atoip w (pre ++ via ++ [SP] ++ addr) (37 + via.length + 1) = some v ∧
      (fieldSwitch w (pre ++ via ++ [SP] ++ addr ++ tail) index Magic.IPFWACCVIAADDR).map observed
        = some (Ret.RET_VAL v, []) := by
  have hL : IPFWRULELEN = 200 := rfl
  have hlen2 : 37 + via.length + 1 + 8 + tail.length = 200 := by
    rw [← hL, ← hlen]
    simp only [List.length_append, List.length_cons, List.length_nil, hpre, haddr]
  have hPlen : (pre ++ via ++ [SP] ++ addr).length = 37 + via.length + 1 + 8 := by
    simp only [List.length_append, List.length_cons, List.length_nil, hpre, haddr]
  have hsome := atoip_inbounds w (pre ++ via ++ [SP] ++ addr) (37 + via.length + 1)
    (by rw [hPlen])
  obtain ⟨v, hv⟩ := Option.isSome_iff_exists.1 hsome
  refine ⟨v, hv, ?_⟩
  have hre : pre ++ via ++ [SP] ++ addr ++ tail = pre ++ via ++ [SP] ++ (addr ++ tail) := by
    simp only [List.append_assoc]
  have hscan := viaScan_layout pre via (addr ++ tail) (IPFWRULELEN - 9) (by rw [← hre]; exact hlen)
    hpre hvia (by omega)
  rw [← hre] at hscan
  have hat := atoip_prefix w (pre ++ via ++ [SP] ++ addr) tail (37 + via.length + 1)
    (by rw [hPlen])
  simp only [fieldSwitch, hscan, Option.some_bind, hat, hv, Option.map_some', observed]

/-- On a buffer that begins with a well-formed record line of at least 14
columns, what the caller gets for a field is settled by the line: it is the
same whatever bytes follow the line in the buffer. -/
theorem field_determined (w : Nat) (pre via addr : List Nat) (x : Nat) (flags : List Nat)
    (cols : List (Nat × List Nat)) (index : Nat) (magic : Magic)
    (hpre : pre.length = 37) (hvia : SP ∉ via) (haddr : addr.length = 8)
    (hflags : flags ≠ [] ∧ SP ∉ flags)
    (hcols : ∀ p ∈ cols, p.2 ≠ [] ∧ SP ∉ p.2) (h14 : 14 ≤ cols.length) :
    ∃ y, ∀ rest, (recordLine pre via addr x flags cols ++ rest).length = IPFWRULELEN →
      (fieldSwitch w (recordLine pre via addr x flags cols ++ rest) index magic).map observed
        = some y := by
  have hL : IPFWRULELEN = 200 := rfl
  -- the four addresses before the via name
  have hfix : ∀ pos, pos + 8 ≤ 37 → ∃ v, ∀ rest,
      atoip w (recordLine pre via addr x flags cols ++ rest) pos = some v := by
    intro pos hpos
    obtain ⟨v, hv⟩ := Option.isSome_iff_exists.1 (atoip_inbounds w pre pos (by omega))
    refine ⟨v, fun rest => ?_⟩
    have e : recordLine pre via addr x flags cols ++ rest
        = pre ++ (via ++ [SP] ++ addr ++ [x] ++ flags ++ columns cols ++ [SP] ++ rest) := by
      simp only [recordLine, List.append_assoc]
    rw [e, atoip_prefix w pre _ pos (by omega), hv]
  -- the flags word
  have hfl : ∀ rest, (recordLine pre via addr x flags cols ++ rest).length = IPFWRULELEN →
      getflags w (recordLine pre via addr x flags cols ++ rest) = some (flagsFold w flags 0) :=
    fun rest hlen => getflags_layout w pre via addr flags x cols rest hlen hpre hvia haddr hflags
  -- the decimal columns
  have hnum : ∀ k, k < 14 → ∃ tok, ∀ rest,
      (recordLine pre via addr x flags cols ++ rest).length = IPFWRULELEN →
      getnumeric w (recordLine pre via addr x flags cols ++ rest) (k + 1)
        = some (numericFold w tok 0) := by
    intro k hk
    have hklt : k < (cols.map Prod.snd).length := by simp; omega
    exact ⟨(cols.map Prod.snd)[k], fun rest hlen =>
      getnumeric_nth w pre via addr flags x cols rest k _ hlen hpre hvia haddr hflags.2 hcols
        (List.getElem?_eq_getElem hklt)⟩
  have hnumy : ∀ k, k < 14 → ∃ y, ∀ rest,
      (recordLine pre via addr x flags cols ++ rest).length = IPFWRULELEN →
      ((getnumeric w (recordLine pre via addr x flags cols ++ rest) (k + 1)).map
        fun v => (recordLine pre via addr x flags cols ++ rest, Ret.RET_VAL v)).map observed
        = some y := by
    intro k hk
    obtain ⟨tok, h⟩ := hnum k hk
    exact ⟨(Ret.RET_VAL (numericFold w tok 0), []), fun rest hlen => by
      rw [h rest hlen]; rfl⟩
  have hfixy : ∀ pos, pos + 8 ≤ 37 → ∃ y, ∀ rest,
      ((atoip w (recordLine pre via addr x flags cols ++ rest) pos).map
        fun v => (recordLine pre via addr x flags cols ++ rest, Ret.RET_VAL v)).map observed
        = some y := by
    intro pos hpos
    obtain ⟨v, h⟩ := hfix pos hpos
    exact ⟨(Ret.RET_VAL v, []), fun rest => by rw [h rest]; rfl⟩
  have hflagy : ∀ (g : Nat → Nat), ∃ y, ∀ rest,
      (recordLine pre via addr x flags cols ++ rest).length = IPFWRULELEN →
      ((getflags w (recordLine pre via addr x flags cols ++ rest)).map
        fun f => (recordLine pre via addr x flags cols ++ rest, Ret.RET_VAL (g f))).map observed
        = some y := by
    intro g
    exact ⟨(Ret.RET_VAL (g (flagsFold w flags 0)), []), fun rest hlen => by
      rw [hfl rest hlen]; rfl⟩
  cases magic
  case IPFWACCINDEX => exact ⟨(Ret.RET_VAL (index % 2 ^ w), []), fun rest _ => rfl⟩
  case IPFWACCSRCADDR =>
    obtain ⟨y, h⟩ := hfixy 0 (by omega)
    exact ⟨y, fun rest _ => h rest⟩
  case IPFWACCSRCNM =>
    obtain ⟨y, h⟩ := hfixy 9 (by omega)
    exact ⟨y, fun rest _ => h rest⟩
  case IPFWACCDSTADDR =>
    obtain ⟨y, h⟩ := hfixy 19 (by omega)
    exact ⟨y, fun rest _ => h rest⟩
  case IPFWACCDSTNM =>
    obtain ⟨y, h⟩ := hfixy 28 (by omega)
    exact ⟨y, fun rest _ => h rest⟩
  case IPFWACCVIANAME =>
    refine ⟨(Ret.RULE 37, via.takeWhile fun c => c ≠ 0), fun rest hlen => ?_⟩
    have e : recordLine pre via addr x flags cols ++ rest
        = pre ++ via ++ [SP] ++ (addr ++ [x] ++ flags ++ columns cols ++ [SP] ++ rest) := by
      simp only [recordLine, List.append_assoc]
    rw [e] at hlen ⊢
    exact vianame_layout w pre via _ index hlen hpre hvia
  case IPFWACCVIAADDR =>
    obtain ⟨v, hv⟩ := Option.isSome_iff_exists.1 (atoip_inbounds w (pre ++ via ++ [SP] ++ addr)
      (37 + via.length + 1) (by
        simp only [List.length_append, List.length_cons, List.length_nil, hpre, haddr]
        omega))
    refine ⟨(Ret.RET_VAL v, []), fun rest hlen => ?_⟩
    have e : recordLine pre via addr x flags cols ++ rest
        = pre ++ via ++ [SP] ++ addr ++ ([x] ++ flags ++ columns cols ++ [SP] ++ rest) := by
      simp only [recordLine, List.append_assoc]
    rw [e] at hlen ⊢
    obtain ⟨v', hv', h⟩ := viaaddr_layout w pre via addr _ index hlen hpre hvia haddr
    rw [hv] at hv'
    cases hv'
    exact h
  case IPFWACCPROTO =>
    obtain ⟨y, h⟩ := hflagy (fun f =>
      if f &&& IP_FW_F_KIND = IP_FW_F_ALL then 2
      else if f &&& IP_FW_F_KIND = IP_FW_F_TCP then 3
      else if f &&& IP_FW_F_KIND = IP_FW_F_UDP then 4
      else if f &&& IP_FW_F_KIND = IP_FW_F_ICMP then 5 else 1)
    refine ⟨y, fun rest hlen => ?_⟩
    rw [← h rest hlen]
    simp only [fieldSwitch]
    congr 2
    funext f
    split_ifs <;> rfl
  case IPFWACCBIDIR =>
    obtain ⟨y, h⟩ := hflagy (fun f => if f &&& IP_FW_F_BIDIR ≠ 0 then 2 else 1)
    exact ⟨y, fun rest hlen => h rest hlen⟩
  case IPFWACCDIR =>
    obtain ⟨y, h⟩ := hflagy (fun f =>
      if f &&& (IP_FW_F_ACCTIN ||| IP_FW_F_ACCTOUT) = IP_FW_F_ACCTIN then 2
      else if f &&& (IP_FW_F_ACCTIN ||| IP_FW_F_ACCTOUT) = IP_FW_F_ACCTOUT then 3 else 1)
    refine ⟨y, fun rest hlen => ?_⟩
    rw [← h rest hlen]
    simp only [fieldSwitch]
    congr 2
    funext f
    split_ifs <;> rfl
  case IPFWACCSRCISRNG =>
    obtain ⟨y, h⟩ := hflagy (fun f => if f &&& IP_FW_F_SRNG ≠ 0 then 1 else 2)
    exact ⟨y, fun rest hlen => h rest hlen⟩
  case IPFWACCDSTISRNG =>
    obtain ⟨y, h⟩ := hflagy (fun f => if f &&& IP_FW_F_DRNG ≠ 0 then 1 else 2)
    exact ⟨y, fun rest hlen => h rest hlen⟩
  case IPFWACCBYTES => exact hnumy 3 (by omega)
  case IPFWACCPACKETS => exact hnumy 2 (by omega)
  case IPFWACCNSRCPRTS => exact hnumy 0 (by omega)
  case IPFWACCNDSTPRTS => exact hnumy 1 (by omega)
  case IPFWACCPORT1 => exact hnumy 4 (by omega)
  case IPFWACCPORT2 => exact hnumy 5 (by omega)
  case IPFWACCPORT3 => exact hnumy 6 (by omega)
  case IPFWACCPORT4 => exact hnumy 7 (by omega)
  case IPFWACCPORT5 => exact hnumy 8 (by omega)
  case IPFWACCPORT6 => exact hnumy 9 (by omega)
  case IPFWACCPORT7 => exact hnumy 10 (by omega)
  case IPFWACCPORT8 => exact hnumy 11 (by omega)
  case IPFWACCPORT9 => exact hnumy 12 (by omega)
  case IPFWACCPORT10 => exact hnumy 13 (by omega)

/-! ## The pieces of any source -/

theorem fgetsChars_ne_nil (room : Nat) (c : Nat) (t : List Nat) :
    (fgetsChars (room + 1) (c :: t)).1 ≠ [] := by
  unfold fgetsChars
  split_ifs <;> simp

theorem readsAs_fgetsPieces : ∀ (fuel : Nat) (s : List Nat), s.length ≤ fuel →
    readsAs s (fgetsPieces fuel s) := by
  intro fuel
  induction fuel with
  | zero =>
    intro s hs
    have : s = [] := List.length_eq_zero.1 (by omega)
    subst this
    rfl
  | succ fuel ih =>
    intro s hs
    cases s with
    | nil =>
      have e : fgetsPieces (fuel + 1) [] = [] := by
        simp [fgetsPieces, fgetsChars_nil]
      rw [e]
      rfl
    | cons c t =>
      have hne := fgetsChars_ne_nil (IPFWRULELEN - 2) c t
      have happ := fgetsChars_eq_append (c :: t) (IPFWRULELEN - 1)
      have hroom : IPFWRULELEN - 2 + 1 = IPFWRULELEN - 1 := rfl
      rw [hroom] at hne
      cases hfc : fgetsChars (IPFWRULELEN - 1) (c :: t) with
      | mk P s' =>
        rw [hfc] at hne happ
        simp only at hne happ
        obtain ⟨a, b, hab⟩ := List.exists_cons_of_ne_nil hne
        have hlen : s'.length ≤ fuel := by
          have h1 := congrArg List.length happ.1
          rw [hab] at h1
          simp only [List.length_cons, List.length_append] at h1 hs
          omega
        have e : fgetsPieces (fuel + 1) (c :: t) = P :: fgetsPieces fuel s' := by
          rw [fgetsPieces, hfc, hab]
        rw [e]
        exact ⟨hne, s', hfc, ih s' hlen⟩

/-! ## Scans that stay inside the bytes stored -/

theorem getElem?_append_some (D rest : List Nat) (i c : Nat) (h : D[i]? = some c) :
    (D ++ rest)[i]? = some c := by
  have hlt : i < D.length := by
    by_contra hge
    rw [List.getElem?_eq_none (by omega)] at h
    cases h
  rw [List.getElem?_append_left hlt, h]

theorem skipField_frame (D rest : List Nat) (bound : Nat) :
    ∀ (fuel i j : Nat), skipField D bound fuel i = some j →
      skipField (D ++ rest) bound fuel i = some j := by
  intro fuel
  induction fuel with
  | zero =>
    intro i j h
    cases hD : D[i]? with
    | none => simp [skipField, hD] at h
    | some c =>
      have hR := getElem?_append_some D rest i c hD
      simp only [skipField, hD, hR, Option.some_bind] at h ⊢
      exact h
  | succ fuel ih =>
    intro i j h
    cases hD : D[i]? with
    | none => simp [skipField, hD] at h
    | some c =>
      have hR := getElem?_append_some D rest i c hD
      simp only [skipField, hD, hR, Option.some_bind] at h ⊢
      split_ifs at h ⊢
      · exact ih _ _ h
      · exact h

theorem skipSpaces_frame (D rest : List Nat) (bound : Nat) :
    ∀ (fuel i j : Nat), skipSpaces D bound fuel i = some j →
      skipSpaces (D ++ rest) bound fuel i = some j := by
  intro fuel
  induction fuel with
  | zero =>
    intro i j h
    cases hD : D[i]? with
    | none => simp [skipSpaces, hD] at h
    | some c =>
      have hR := getElem?_append_some D rest i c hD
      simp only [skipSpaces, hD, hR, Option.some_bind] at h ⊢
      exact h
  | succ fuel ih =>
    intro i j h
    cases hD : D[i]? with
    | none => simp [skipSpaces, hD] at h
    | some c =>
      have hR := getElem?_append_some D rest i c hD
      simp only [skipSpaces, hD, hR, Option.some_bind] at h ⊢
      split_ifs at h ⊢
      · exact ih _ _ h
      · exact h

theorem flagsLoop_frame (w : Nat) (D rest : List Nat) :
    ∀ (fuel i flags v : Nat), flagsLoop w D fuel i flags = some v →
      flagsLoop w (D ++ rest) fuel i flags = some v := by
  intro fuel
  induction fuel with
  | zero =>
    intro i flags v h
    cases hD : D[i]? with
    | none => simp [flagsLoop, hD] at h
    | some c =>
      have hR := getElem?_append_some D rest i c hD
      simp only [flagsLoop, hD, hR, Option.some_bind] at h ⊢
      exact h
  | succ fuel ih =>
    intro i flags v h
    cases hD : D[i]? with
    | none => simp [flagsLoop, hD] at h
    | some c =>
      have hR := getElem?_append_some D rest i c hD
      simp only [flagsLoop, hD, hR, Option.some_bind] at h ⊢
      split_ifs at h ⊢
      · exact ih _ _ _ h
      · exact h

theorem numericLoop_frame (w : Nat) (D rest : List Nat) :
    ∀ (fuel i ret_val v : Nat), numericLoop w D fuel i ret_val = some v →
      numericLoop w (D ++ rest) fuel i ret_val = some v := by
  intro fuel
  induction fuel with
  | zero =>
    intro i ret_val v h
    cases hD : D[i]? with
    | none => simp [numericLoop, hD] at h
    | some c =>
      have hR := getElem?_append_some D rest i c hD
      simp only [numericLoop, hD, hR, Option.some_bind] at h ⊢
      exact h
  | succ fuel ih =>
    intro i ret_val v h
    cases hD : D[i]? with
    | none => simp [numericLoop, hD] at h
    | some c =>
      have hR := getElem?_append_some D rest i c hD
      simp only [numericLoop, hD, hR, Option.some_bind] at h ⊢
      split_ifs at h ⊢
      · exact ih _ _ _ h
      · exact h

theorem atoipLoop_frame (w : Nat) (D rest : List Nat) :
    ∀ (fuel i pos ret_val v : Nat), atoipLoop w D fuel i pos ret_val = some v →
      atoipLoop w (D ++ rest) fuel i pos ret_val = some v := by
  intro fuel
  induction fuel with
  | zero =>
    intro i pos ret_val v h
    simp only [atoipLoop] at h ⊢
    exact h
  | succ fuel ih =>
    intro i pos ret_val v h
    by_cases hi : i < 32
    · cases hD0 : D[pos]? with
      | none => simp [atoipLoop, hi, hD0] at h
      | some c0 =>
        cases hD1 : D[pos + 1]? with
        | none => simp [atoipLoop, hi, hD0, hD1] at h
        | some c1 =>
          have hR0 := getElem?_append_some D rest pos c0 hD0
          have hR1 := getElem?_append_some D rest (pos + 1) c1 hD1
          simp only [atoipLoop, if_pos hi, hD0, hD1, hR0, hR1, Option.some_bind] at h ⊢
          exact ih _ _ _ _ h
    · simp only [atoipLoop, if_neg hi] at h ⊢
      exact h

theorem atoip_frame (w : Nat) (D rest : List Nat) (pos v : Nat) (h : atoip w D pos = some v) :
    atoip w (D ++ rest) pos = some v :=
  atoipLoop_frame w D rest _ _ _ _ _ h

theorem skipColumns_frame (D rest : List Nat) :
    ∀ (skip i j : Nat), skipColumns D skip i = some j →
      skipColumns (D ++ rest) skip i = some j := by
  intro skip
  induction skip with
  | zero => intro i j h; exact h
  | succ skip ih =>
    intro i j h
    simp only [skipColumns, Option.bind_eq_some] at h
    obtain ⟨a, ha, b, hb, hc⟩ := h
    simp only [skipColumns, skipField_frame D rest _ _ _ _ ha, Option.some_bind,
      skipSpaces_frame D rest _ _ _ _ hb, ih _ _ hc]

theorem getflags_frame (w : Nat) (D rest : List Nat) (v : Nat) (h : getflags w D = some v) :
    getflags w (D ++ rest) = some v := by
  simp only [getflags, Option.bind_eq_some] at h
  obtain ⟨a, ha, hb⟩ := h
  simp only [getflags, skipField_frame D rest _ _ _ _ ha, Option.some_bind,
    flagsLoop_frame w D rest _ _ _ _ hb]

theorem getnumeric_frame (w : Nat) (D rest : List Nat) (skip v : Nat)
    (h : getnumeric w D skip = some v) : getnumeric w (D ++ rest) skip = some v := by
  simp only [getnumeric, Option.bind_eq_some] at h
  obtain ⟨a, ha, b, hb, hc⟩ := h
  simp only [getnumeric, skipField_frame D rest _ _ _ _ ha, Option.some_bind,
    skipColumns_frame D rest _ _ _ hb, numericLoop_frame w D rest _ _ _ _ hc]

theorem observed_ret_val (rule : List Nat) (v : Nat) :
    observed (rule, Ret.RET_VAL v) = (Ret.RET_VAL v, []) := rfl

/-- A field other than the interface name whose decoder, run on the bytes `D`
alone, stays inside them gives the caller the same result on every buffer that
begins with `D`. -/
theorem fieldSwitch_frame (w : Nat) (D rest : List Nat) (index : Nat) (magic : Magic)
    (hm : magic ≠ Magic.IPFWACCVIANAME) (p : List Nat × Ret)
    (h : fieldSwitch w D index magic = some p) :
    (fieldSwitch w (D ++ rest) index magic).map observed = some (observed p) := by
  have ha := atoip_frame w D rest
  have hf := getflags_frame w D rest
  have hn := getnumeric_frame w D rest
  have hs := skipField_frame D rest
  cases magic
  case IPFWACCVIANAME => exact absurd rfl hm
  case IPFWACCINDEX =>
    simp only [fieldSwitch, Option.some.injEq] at h
    subst h
    rfl
  case IPFWACCVIAADDR =>
    simp only [fieldSwitch, Option.bind_eq_some, Option.map_eq_some'] at h
    obtain ⟨i, hi, v, hv, rfl⟩ := h
    simp only [fieldSwitch, hs _ _ _ _ hi, Option.some_bind, ha _ _ hv, Option.map_some',
      observed_ret_val]
  case IPFWACCPROTO =>
    simp only [fieldSwitch, Option.map_eq_some'] at h
    obtain ⟨v, hv, rfl⟩ := h
    simp only [fieldSwitch, hf _ hv, Option.map_some']
    split_ifs <;> rfl
  case IPFWACCDIR =>
    simp only [fieldSwitch, Option.map_eq_some'] at h
    obtain ⟨v, hv, rfl⟩ := h
    simp only [fieldSwitch, hf _ hv, Option.map_some']
    split_ifs <;> rfl
  all_goals
    simp only [fieldSwitch, Option.map_eq_some'] at h
    obtain ⟨v, hv, rfl⟩ := h
    first
    | simp only [fieldSwitch, ha _ _ hv, Option.map_some', observed_ret_val]
    | simp only [fieldSwitch, hf _ hv, Option.map_some', observed_ret_val]
    | simp only [fieldSwitch, hn _ _ hv, Option.map_some', observed_ret_val]

theorem takeWhile_set_stop : ∀ (M rest : List Nat) (j : Nat), j < (M ++ 0 :: rest).length →
    (∀ k, k < j → (M ++ 0 :: rest)[k]? ≠ some SP) →
    (j < M.length → (M ++ 0 :: rest)[j]? = some SP) →
    (((M ++ 0 :: rest).set j 0).takeWhile fun c => c ≠ 0)
      = M.takeWhile fun c => c ≠ 0 ∧ c ≠ SP := by
  intro M
  induction M with
  | nil =>
    intro rest j _ _ _
    cases j with
    | zero => simp [List.takeWhile]
    | succ j => simp [List.takeWhile]
  | cons a M ih =>
    intro rest j hj hno hsp
    cases j with
    | zero =>
      have ha : a = SP := by
        have := hsp (by simp)
        simpa using this
      subst ha
      simp [List.takeWhile]
    | succ j =>
      have ha : a ≠ SP := by
        have := hno 0 (by omega)
        simpa using this
      have hrec := ih rest j (by simpa using hj)
        (fun k hk => by
          have := hno (k + 1) (by omega)
          simpa using this)
        (fun hk => by
          have := hsp (by simpa using hk)
          simpa using this)
      rw [List.cons_append, List.set_cons_succ, List.takeWhile_cons, List.takeWhile_cons, hrec]
      by_cases h0 : a = 0
      · simp [h0]
      · simp [h0, ha]

/-- The interface name on a buffer that holds a stored record of 37
characters or more: the string handed to the caller is what stands in the
record from offset 37 up to its first space or NUL. -/
theorem vianame_stored (w : Nat) (P rest : List Nat) (index : Nat)
    (hlen : (P ++ [0] ++ rest).length = IPFWRULELEN) (hP : 37 ≤ P.length) :
    (fieldSwitch w (P ++ [0] ++ rest) index Magic.IPFWACCVIANAME).map observed
      = some (Ret.RULE 37, (P.drop 37).takeWhile fun c => c ≠ 0 ∧ c ≠ SP) := by
  have hL : IPFWRULELEN = 200 := rfl
  have hlen2 : P.length + 1 + rest.length = 200 := by
    rw [← hL, ← hlen]
    simp only [List.length_append, List.length_cons, List.length_nil]
  obtain ⟨j, hj, h37, hb, hno, hsp⟩ := skipField_first_space (P ++ [0] ++ rest)
    (IPFWRULELEN - 1) IPFWRULELEN 37 (by rw [hlen, hL]; omega) (by rw [hlen, hL]; omega)
    (by rw [hL]; omega)
  have hjlt : j < (P ++ [0] ++ rest).length := by rw [hlen, hL]; rw [hL] at hb; omega
  have hsplit : P ++ [0] ++ rest = P.take 37 ++ (P.drop 37 ++ 0 :: rest) := by
    rw [← List.append_assoc, List.take_append_drop]
    simp only [List.append_assoc, List.singleton_append]
  have hpl : (P.take 37).length = 37 := by simp; omega
  obtain ⟨j', rfl⟩ : ∃ j', j = 37 + j' := ⟨j - 37, by omega⟩
  have hget : ∀ k, (P ++ [0] ++ rest)[37 + k]? = (P.drop 37 ++ 0 :: rest)[k]? := by
    intro k
    rw [hsplit, List.getElem?_append_right (by omega), hpl]
    congr 1
    omega
  have hset : (P ++ [0] ++ rest).set (37 + j') 0
      = P.take 37 ++ (P.drop 37 ++ 0 :: rest).set j' 0 := by
    rw [hsplit, List.set_append_right _ _ (by omega), hpl]
    congr 2
    omega
  have hdrop : (P.take 37 ++ (P.drop 37 ++ 0 :: rest).set j' 0).drop 37
      = (P.drop 37 ++ 0 :: rest).set j' 0 := by
    rw [List.drop_append_of_le_length (by omega), List.drop_of_length_le (by omega)]
    rfl
  have hstop := takeWhile_set_stop (P.drop 37) rest j'
    (by simp only [List.length_append, List.length_cons, List.length_drop]; rw [hlen] at hjlt
        rw [hL] at hjlt; omega)
    (fun k hk => by rw [← hget]; exact hno (37 + k) (by omega) (by omega))
    (fun hk => by
      rw [← hget]
      apply hsp
      rw [List.length_drop] at hk
      rw [hL]
      omega)
  simp only [fieldSwitch, hj, Option.some_bind, if_pos hjlt, Option.map_some', observed,
    cstring, hset, hdrop, hstop]

/-! ## C13 -/

/-- On every 200-byte buffer `readrule(n)`, `n >= 1`, finds entry `n` of the
pieces of the source and leaves it, with its NUL, at the start of the
buffer. -/
theorem readrule_sourcePieces (f rule : List Nat) (n : Nat) (P : List Nat)
    (hn : n ≠ 0) (hP : (sourcePieces f)[n]? = some P) (hlen : rule.length = IPFWRULELEN) :
    ∃ rest, readrule (some f) rule n = some (P ++ [0] ++ rest, n) ∧
      (P ++ [0] ++ rest).length = IPFWRULELEN := by
  have hreads := readsAs_fgetsPieces f.length f (le_refl _)
  unfold sourcePieces at hP
  cases hps : fgetsPieces f.length f with
  | nil => rw [hps] at hP; simp at hP
  | cons H ps =>
    rw [hps] at hP hreads
    obtain ⟨m, rfl⟩ : ∃ m, n = m + 1 := ⟨n - 1, by omega⟩
    rw [List.getElem?_cons_succ] at hP
    obtain ⟨rest, h, hl⟩ := (readrule_pieces f rule (m + 1) H ps hreads).2.2 P hn hP
    exact ⟨rest, h, hl hlen⟩

/-- What the caller gets for a field is settled by the stored record when the
field's scans end inside it (for the interface name: when the record reaches
offset 37): it is the same whatever bytes follow the record's NUL. -/
theorem stored_field (w n : Nat) (P : List Nat) (magic : Magic)
    (hvia : magic = Magic.IPFWACCVIANAME → 37 ≤ P.length)
    (hscan : magic ≠ Magic.IPFWACCVIANAME → (fieldSwitch w (P ++ [0]) n magic).isSome) :
    ∃ y, ∀ rest, (P ++ [0] ++ rest).length = IPFWRULELEN →
      (fieldSwitch w (P ++ [0] ++ rest) n magic).map observed = some y := by
  by_cases hm : magic = Magic.IPFWACCVIANAME
  · subst hm
    exact ⟨_, fun rest hlen => vianame_stored w P rest n hlen (hvia rfl)⟩
  · obtain ⟨p, hp⟩ := Option.isSome_iff_exists.1 (hscan hm)
    exact ⟨observed p, fun rest _ => fieldSwitch_frame w (P ++ [0]) rest n magic hm p hp⟩

/-- The interface name of a record shorter than 37 characters is read from
the bytes left in the buffer: after `readrule(1)` on a source whose data line
is `short`, a buffer of NUL bytes gives the empty name and a buffer of digits
`1` gives a name of 162 digits. -/
theorem vianame_short_record_stale :
    ((readrule (some (joinLines [bytes "IP accounting rules", bytes "short"]))
      (List.replicate 200 0) 1).bind fun p =>
        (fieldSwitch 32 p.1 1 Magic.IPFWACCVIANAME).map observed)
      = some (Ret.RULE 37, []) ∧
    ((readrule (some (joinLines [bytes "IP accounting rules", bytes "short"]))
      (List.replicate 200 49) 1).bind fun p =>
        (fieldSwitch 32 p.1 1 Magic.IPFWACCVIANAME).map observed)
      = some (Ret.RULE 37, List.replicate 162 49) := by
  decide

/-- C13 (as stated, refuted): field PORT10 of record 1 of a source that
holds the end-to-end record, whose last column ends the line, decoded after
`readrule(1)` from a buffer of NUL bytes and from a buffer of digits `1`:
the two runs yield 2863311536 and 3340530119. -/
theorem C13_stale_bytes_counterexample :
    ((readrule (some (joinLines [bytes "IP accounting rules", specLine]))
      (List.replicate 200 0) 1).bind fun p =>
        (fieldSwitch 32 p.1 1 Magic.IPFWACCPORT10).map observed)
      = some (Ret.RET_VAL 2863311536, []) ∧
    ((readrule (some (joinLines [bytes "IP accounting rules", specLine]))
      (List.replicate 200 49) 1).bind fun p =>
        (fieldSwitch 32 p.1 1 Magic.IPFWACCPORT10).map observed)
      = some (Ret.RET_VAL 3340530119, []) ∧
    (readrule (some (joinLines [bytes "IP accounting rules", specLine]))
      (List.replicate 200 0) 1).map Prod.snd = some 1 := by
  decide

/-- C13 (amended): the value decoded for a field of record `n` depends only
on the record that `readrule(n)` stores, for each field whose scans end inside
that record.  `P` is entry `n >= 1` of the pieces of two sources (the `n`-th
data line with its newline when the lines before it fit).  For the interface
name it is enough that `P` has 37 characters or more; for any other field the
decoder, run on `P` and its NUL alone, reads no byte past them.  Then from any
two initial contents of the 200-byte buffer `readrule(n)` finds the record in
both runs and the field's decoder yields the same result in both. -/
theorem C13_field_depends_on_stored_record (w n : Nat) (P : List Nat) (magic : Magic)
    (f1 f2 rule1 rule2 : List Nat)
    (hn : n ≠ 0)
    (hP1 : (sourcePieces f1)[n]? = some P) (hP2 : (sourcePieces f2)[n]? = some P)
    (hlen1 : rule1.length = IPFWRULELEN) (hlen2 : rule2.length = IPFWRULELEN)
    (hvia : magic = Magic.IPFWACCVIANAME → 37 ≤ P.length)
    (hscan : magic ≠ Magic.IPFWACCVIANAME → (fieldSwitch w (P ++ [0]) n magic).isSome) :
    ∃ B1 B2 y,
      readrule (some f1) rule1 n = some (B1, n) ∧
      readrule (some f2) rule2 n = some (B2, n) ∧
      (fieldSwitch w B1 n magic).map observed = some y ∧
      (fieldSwitch w B2 n magic).map observed = some y := by
  obtain ⟨r1, h1, hl1⟩ := readrule_sourcePieces f1 rule1 n P hn hP1 hlen1
  obtain ⟨r2, h2, hl2⟩ := readrule_sourcePieces f2 rule2 n P hn hP2 hlen2
  obtain ⟨y, hy⟩ := stored_field w n P magic hvia hscan
  exact ⟨_, _, y, h1, h2, hy r1 hl1, hy r2 hl2⟩

/-- C13 (amended) at four records.  Field PORT9 of the end-to-end record, the
record of the refutation, from a buffer of NUL bytes and from a buffer of
digits `1`; field PORT10 of the `/proc/net/ip_acct` line as record 3, after a
data line of 200 letters `x` in one source and after the data lines `r1` and
`r2` in the other; field BYTES of a line that ends with its fifth column;
the interface name of a line that ends with it. -/
theorem C13_field_depends_on_stored_record_witness :
    (∃ B1 B2 y,
      readrule (some (joinLines [bytes "IP accounting rules", specLine]))
        (List.replicate 200 0) 1 = some (B1, 1) ∧
      readrule (some (joinLines [bytes "IP accounting rules", specLine]))
        (List.replicate 200 49) 1 = some (B2, 1) ∧
      (fieldSwitch 32 B1 1 Magic.IPFWACCPORT9).map observed = some y ∧
      (fieldSwitch 32 B2 1 Magic.IPFWACCPORT9).map observed = some y) ∧
    (∃ B1 B2 y,
      readrule (some (joinLines [bytes "IP accounting rules", List.replicate 200 120, procLine]))
        (List.replicate 200 0) 3 = some (B1, 3) ∧
      readrule (some (joinLines [bytes "IP accounting rules", bytes "r1", bytes "r2", procLine]))
        (List.replicate 200 49) 3 = some (B2, 3) ∧
      (fieldSwitch 32 B1 3 Magic.IPFWACCPORT10).map observed = some y ∧
      (fieldSwitch 32 B2 3 Magic.IPFWACCPORT10).map observed = some y) ∧
    (∃ B1 B2 y,
      readrule (some (joinLines [bytes "IP accounting rules",
          bytes "0A000001/FFFFFF00->0A000002/FFFFFF00 eth0 0A0000FE 1042 1 1 100 5000 80"]))
        (List.replicate 200 0) 1 = some (B1, 1) ∧
      readrule (some (joinLines [bytes "IP accounting rules",
          bytes "0A000001/FFFFFF00->0A000002/FFFFFF00 eth0 0A0000FE 1042 1 1 100 5000 80"]))
        (List.replicate 200 49) 1 = some (B2, 1) ∧
      (fieldSwitch 32 B1 1 Magic.IPFWACCBYTES).map observed = some y ∧
      (fieldSwitch 32 B2 1 Magic.IPFWACCBYTES).map observed = some y) ∧
    (∃ B1 B2 y,
      readrule (some (joinLines [bytes "IP accounting rules",
          bytes "0A000001/FFFFFF00->0A000002/FFFFFF00 eth0"]))
        (List.replicate 200 0) 1 = some (B1, 1) ∧
      readrule (some (joinLines [bytes "IP accounting rules",
          bytes "0A000001/FFFFFF00->0A000002/FFFFFF00 eth0"]))
        (List.replicate 200 49) 1 = some (B2, 1) ∧
      (fieldSwitch 32 B1 1 Magic.IPFWACCVIANAME).map observed = some y ∧
      (fieldSwitch 32 B2 1 Magic.IPFWACCVIANAME).map observed = some y) :=
  ⟨C13_field_depends_on_stored_record 32 1 (specLine ++ [NL]) Magic.IPFWACCPORT9
      (joinLines [bytes "IP accounting rules", specLine])
      (joinLines [bytes "IP accounting rules", specLine])
      (List.replicate 200 0) (List.replicate 200 49)
      (by decide) (by decide) (by decide) (by decide) (by decide) (by decide) (by decide),
    C13_field_depends_on_stored_record 32 3 (procLine ++ [NL]) Magic.IPFWACCPORT10
      (joinLines [bytes "IP accounting rules", List.replicate 200 120, procLine])
      (joinLines [bytes "IP accounting rules", bytes "r1", bytes "r2", procLine])
      (List.replicate 200 0) (List.replicate 200 49)
      (by decide) (by decide) (by decide) (by decide) (by decide) (by decide) (by decide),
    C13_field_depends_on_stored_record 32 1
      (bytes "0A000001/FFFFFF00->0A000002/FFFFFF00 eth0 0A0000FE 1042 1 1 100 5000 80" ++ [NL])
      Magic.IPFWACCBYTES
      (joinLines [bytes "IP accounting rules",
          bytes "0A000001/FFFFFF00->0A000002/FFFFFF00 eth0 0A0000FE 1042 1 1 100 5000 80"])
      (joinLines [bytes "IP accounting rules",
          bytes "0A000001/FFFFFF00->0A000002/FFFFFF00 eth0 0A0000FE 1042 1 1 100 5000 80"])
      (List.replicate 200 0) (List.replicate 200 49)
      (by decide) (by decide) (by decide) (by decide) (by decide) (by decide) (by decide),
    C13_field_depends_on_stored_record 32 1
      (bytes "0A000001/FFFFFF00->0A000002/FFFFFF00 eth0" ++ [NL])
      Magic.IPFWACCVIANAME
      (joinLines [bytes "IP accounting rules",
          bytes "0A000001/FFFFFF00->0A000002/FFFFFF00 eth0"])
      (joinLines [bytes "IP accounting rules",
          bytes "0A000001/FFFFFF00->0A000002/FFFFFF00 eth0"])
      (List.replicate 200 0) (List.replicate 200 49)
      (by decide) (by decide) (by decide) (by decide) (by decide) (by decide) (by decide)⟩

/-! ## C11 -/

/-- The `*var_len` that `var_ipfwacc` reports is the one `checkmib` left,
whatever the record and the field. -/
theorem var_ipfwacc_var_len (w : Nat) (src : Option (List Nat))
    (checkmib : Nat → Nat → Option Nat × Nat) (rule : List Nat) (magic : Magic)
    (o : Outcome) (h : var_ipfwacc w src checkmib rule magic = some o) :
    ∃ rule' size, readrule src rule 0 = some (rule', size) ∧
      o.var_len = (checkmib (w / 8) size).2 := by
  unfold var_ipfwacc at h
  cases h0 : readrule src rule 0 with
  | none => rw [h0] at h; simp at h
  | some p =>
    obtain ⟨rule', size⟩ := p
    refine ⟨rule', size, rfl, ?_⟩
    rw [h0] at h
    simp only [Option.some_bind] at h
    cases hc : checkmib (w / 8) size with
    | mk pass vl =>
      rw [hc] at h
      cases pass with
      | none =>
        simp only [Option.some.injEq] at h
        rw [← h]
      | some index =>
        simp only at h
        cases h1 : readrule src rule' index with
        | none => rw [h1] at h; simp at h
        | some q =>
          obtain ⟨rule'', found⟩ := q
          rw [h1] at h
          simp only [Option.some_bind] at h
          split_ifs at h
          · simp only [Option.map_eq_some'] at h
            obtain ⟨a, _, ha⟩ := h
            rw [← ha]
          · simp only [Option.some.injEq] at h
            rw [← h]

/-- C11 (the code at the failing input): for the record with the via name
`lo`, with a `checkmib` that passes with rule index 1 and leaves `*var_len`
alone, field VIANAME returns the string `lo` of 2 bytes and reports a
`*var_len` of 4 with a 32-bit and of 8 with a 64-bit `unsigned long`. -/
theorem C11_var_len_of_vianame :
    (var_ipfwacc 32 (some (joinLines [bytes "IP accounting rules", loLine]))
      (fun var_len _ => (some 1, var_len)) (List.replicate 200 0) Magic.IPFWACCVIANAME).map
      (fun o => (o.ret, cstring o.rule 37, o.var_len)) = some (Ret.RULE 37, bytes "lo", 4) ∧
    (var_ipfwacc 64 (some (joinLines [bytes "IP accounting rules", loLine]))
      (fun var_len _ => (some 1, var_len)) (List.replicate 200 0) Magic.IPFWACCVIANAME).map
      (fun o => (o.ret, cstring o.rule 37, o.var_len)) = some (Ret.RULE 37, bytes "lo", 8) ∧
    (bytes "lo").length = 2 := by
  decide

end Ipfwacc
